import Mathlib

/-!
# Relations of an OSM dataset and their (ID, Version) sort

A shallow embedding of `relation.go` (package `osm`) together with the part of Go's
standard package `sort` that `Relations.SortByIDVersion` runs: `sort.Sort` and the
pattern-defeating quicksort behind it (go1.19 and later, file `sort/zsortinterface.go`).

Go values of type `int` are modelled by `Int`: every index the code computes lies within
the length of a slice held in memory, so no operation on them wraps. The one place where
wrap-around is part of the algorithm, the `xorshift` generator over `uint64`, reduces
modulo `2 ^ 64` explicitly.
-/

namespace Osm

/-! ## Outcomes -/

/-- Abnormal ends of a run: the two Go run-time panics the code can raise, and the
exhaustion of the recursion budget of a modelled loop (not a Go behaviour; every theorem
that states a result shows the budget suffices). -/
inductive Panic where
  | nilDereference
  | indexOutOfRange
  | fuel
  deriving DecidableEq, Repr

/-! ## Data model (relation.go) -/

/-- RelationID is the primary key of a relation (`type RelationID int`). -/
abbrev RelationID := Int

/-- Modelled from the spec: the type `UserID` is declared in another file of the package;
the spec calls it a numeric id. -/
abbrev UserID := Int

/-- Modelled from the spec: the type `ChangesetID` is declared in another file of the
package; the spec calls it the identifier of a changeset. -/
abbrev ChangesetID := Int

/-- Modelled from the spec: the type `Tags` is declared in another file of the package;
the spec describes an ordered mapping of string key to string value. -/
abbrev Tags := List (String × String)

/-- The standard library's `time.Time`, an instant, as a count of time units. -/
abbrev Time := Int

/-- MemberType is the type of a member of a relation (`type MemberType string`). -/
abbrev MemberType := String

/-- The type that a Go constant declaration gives to a string constant: the named type
MemberType, or none, the constant then being an untyped string constant (of default type
`string`). -/
inductive ConstType where
  | MemberType
  | untypedString
  deriving DecidableEq, Repr

/-- A declared string constant: the type its declaration gives it, and its value. -/
structure StringConst where
  type : ConstType
  value : String
  deriving DecidableEq, Repr

/-- The constant `NodeMember MemberType = "node"`: its ConstSpec names the type. -/
def NodeMember : StringConst := ⟨ConstType.MemberType, "node"⟩

/-- The constant `WayMember = "way"`: its ConstSpec has an expression list and no type,
so by the Go specification the constant takes the type of its expression, which is an
untyped string constant (the type of a ConstSpec above is carried over only to a ConstSpec
that omits the expression list too). -/
def WayMember : StringConst := ⟨ConstType.untypedString, "way"⟩

/-- The constant `RelationMember = "relation"`, declared like WayMember. -/
def RelationMember : StringConst := ⟨ConstType.untypedString, "relation"⟩

/-- The value of a constant where a MemberType is expected: a constant of type MemberType
and an untyped string constant are both assignable to it. -/
def StringConst.toMemberType (c : StringConst) : MemberType := c.value

/-- Member is a member of a relation. The Go field `Type` is written `Type_`. -/
structure Member where
  Type_ : MemberType
  Ref : Int
  Role : String
  deriving DecidableEq, Repr, Inhabited

/-- Relation is a collection of nodes, ways and other relations with some defining
attributes. -/
structure Relation where
  ID : RelationID
  User : String
  UserID : UserID
  Visible : Bool
  Version : Int
  ChangesetID : ChangesetID
  Timestamp : Time
  Tags : Tags
  Members : List Member
  deriving DecidableEq, Repr, Inhabited

/-- A value of type `*Relation`: `none` is the nil pointer, `some a` the address `a`. -/
abbrev Ptr := Option Nat

/-- The memory holding the Relation values that pointers refer to. Go is memory safe:
every non-nil `*Relation` points to a Relation, so every address holds one. -/
abbrev Heap := Nat → Relation

/-- Relations is a collection with some helper functions attached
(`type Relations []*Relation`). -/
abbrev Relations := List Ptr

/-- The sort adapter `type relationsSort Relations`. -/
abbrev relationsSort := Relations

/-- The program state the sort runs in: the memory and the elements of the slice. -/
structure Mem where
  heap : Heap
  rs : relationsSort

/-- The index expression `rs[i]`: panics when `i` is out of range. -/
def index (rs : Relations) (i : Int) : Except Panic Ptr :=
  if 0 ≤ i ∧ i < rs.length then .ok (rs.getD i.toNat none) else .error .indexOutOfRange

/-- The pointer indirection behind a selector `p.f`: panics on the nil pointer. -/
def deref (h : Heap) (p : Ptr) : Except Panic Relation :=
  match p with
  | none => .error .nilDereference
  | some a => .ok (h a)

/-- The method `func (rs relationsSort) Len() int { return len(rs) }`. -/
def relationsSort.Len (m : Mem) : Int := m.rs.length

/-- The method `func (rs relationsSort) Swap(i, j int) { rs[i], rs[j] = rs[j], rs[i] }`:
both index expressions are evaluated (and range checked) first, then `rs[i]` and `rs[j]`
are assigned in this order. The memory is not written. -/
def relationsSort.Swap (m : Mem) (i j : Int) : Except Panic Mem := do
  let x ← index m.rs j
  let y ← index m.rs i
  pure { m with rs := (m.rs.set i.toNat x).set j.toNat y }

/-- The method `relationsSort.Less`:
if `rs[i].ID == rs[j].ID` then `rs[i].Version < rs[j].Version` else `rs[i].ID < rs[j].ID`.
Operands are evaluated left to right, each an index expression followed by a pointer
indirection. -/
def relationsSort.Less (m : Mem) (i j : Int) : Except Panic Bool := do
  let a ← deref m.heap (← index m.rs i)
  let b ← deref m.heap (← index m.rs j)
  if a.ID = b.ID then
    let a ← deref m.heap (← index m.rs i)
    let b ← deref m.heap (← index m.rs j)
    pure (decide (a.Version < b.Version))
  else
    let a ← deref m.heap (← index m.rs i)
    let b ← deref m.heap (← index m.rs j)
    pure (decide (a.ID < b.ID))

/-! ## Package sort of the Go standard library -/

/-- Go's `sort.Interface`: the three methods through which `sort.Sort` reads and permutes
a collection held in a state of type `σ`. -/
structure Interface (σ : Type) where
  Len : σ → Int
  Less : σ → Int → Int → Except Panic Bool
  Swap : σ → Int → Int → Except Panic σ

namespace sort

variable {σ : Type}

/-- Go's `bits.Len`: the number of bits needed to represent `x`; 0 for 0. The first
argument bounds the recursion. -/
def bits.Len.go : Nat → Nat → Nat
  | 0, _ => 0
  | fuel + 1, x => if x = 0 then 0 else bits.Len.go fuel (x / 2) + 1

/-- Go's `bits.Len(uint(n))`. -/
def bits.Len (x : Nat) : Nat := bits.Len.go x x

/-- Inner loop of insertionSort:
`for j := i; j > a && data.Less(j, j-1); j-- { data.Swap(j, j-1) }`. -/
def insertionSort.inner (data : Interface σ) (a : Int) : Nat → Int → σ → Except Panic σ
  | 0, _, _ => .error .fuel
  | fuel + 1, j, s =>
    if j > a then do
      if (← data.Less s j (j - 1)) then
        let s ← data.Swap s j (j - 1)
        insertionSort.inner data a fuel (j - 1) s
      else pure s
    else pure s

/-- Outer loop of insertionSort: `for i := a + 1; i < b; i++ { ... }`. -/
def insertionSort.outer (data : Interface σ) (a b : Int) : Nat → Int → σ → Except Panic σ
  | 0, _, _ => .error .fuel
  | fuel + 1, i, s =>
    if i < b then do
      let s ← insertionSort.inner data a ((i - a).toNat + 1) i s
      insertionSort.outer data a b fuel (i + 1) s
    else pure s

/-- The function insertionSort sorts `data[a:b]` using insertion sort. -/
def insertionSort (data : Interface σ) (a b : Int) (s : σ) : Except Panic σ :=
  insertionSort.outer data a b ((b - a).toNat + 1) (a + 1) s

/-- The loop of siftDown, `root` being the loop variable. -/
def siftDown.loop (data : Interface σ) (hi first : Int) : Nat → Int → σ → Except Panic σ
  | 0, _, _ => .error .fuel
  | fuel + 1, root, s =>
    let child := 2 * root + 1
    if child ≥ hi then pure s
    else do
      let child ← (if child + 1 < hi then do
          if (← data.Less s (first + child) (first + child + 1)) then pure (child + 1)
          else pure child
        else pure child)
      if (← data.Less s (first + root) (first + child)) then
        let s ← data.Swap s (first + root) (first + child)
        siftDown.loop data hi first fuel child s
      else pure s

/-- The function siftDown implements the heap property on `data[lo:hi]`; `first` is an
offset into the array where the root of the heap lies. -/
def siftDown (data : Interface σ) (lo hi first : Int) (s : σ) : Except Panic σ :=
  siftDown.loop data hi first (hi.toNat + 1) lo s

/-- First loop of heapSort:
`for i := (hi - 1) / 2; i >= 0; i-- { siftDown(data, i, hi, first) }`. -/
def heapSort.build (data : Interface σ) (hi first : Int) : Nat → Int → σ → Except Panic σ
  | 0, _, _ => .error .fuel
  | fuel + 1, i, s =>
    if i ≥ 0 then do
      let s ← siftDown data i hi first s
      heapSort.build data hi first fuel (i - 1) s
    else pure s

/-- Second loop of heapSort:
`for i := hi - 1; i >= 0; i-- { data.Swap(first, first+i); siftDown(data, lo, i, first) }`. -/
def heapSort.pop (data : Interface σ) (lo first : Int) : Nat → Int → σ → Except Panic σ
  | 0, _, _ => .error .fuel
  | fuel + 1, i, s =>
    if i ≥ 0 then do
      let s ← data.Swap s first (first + i)
      let s ← siftDown data lo i first s
      heapSort.pop data lo first fuel (i - 1) s
    else pure s

/-- The function heapSort sorts `data[a:b]`. Go's integer division truncates. -/
def heapSort (data : Interface σ) (a b : Int) (s : σ) : Except Panic σ := do
  let first := a
  let lo := 0
  let hi := b - a
  let s ← heapSort.build data hi first (hi.toNat + 2) ((hi - 1).tdiv 2) s
  heapSort.pop data lo first (hi.toNat + 1) (hi - 1) s

/-- The loop `for i <= j && data.Less(i, a) { i++ }` of partition; yields the final `i`. -/
def partition.up (data : Interface σ) (a j : Int) : Nat → Int → σ → Except Panic Int
  | 0, _, _ => .error .fuel
  | fuel + 1, i, s =>
    if i ≤ j then do
      if (← data.Less s i a) then partition.up data a j fuel (i + 1) s else pure i
    else pure i

/-- The loop `for i <= j && !data.Less(j, a) { j-- }` of partition; yields the final `j`. -/
def partition.down (data : Interface σ) (a i : Int) : Nat → Int → σ → Except Panic Int
  | 0, _, _ => .error .fuel
  | fuel + 1, j, s =>
    if i ≤ j then do
      if (← data.Less s j a) then pure j else partition.down data a i fuel (j - 1) s
    else pure j

/-- The closing `for { ... }` loop of partition; yields `j` and the state at the break. -/
def partition.loop (data : Interface σ) (a : Int) :
    Nat → Int → Int → σ → Except Panic (Int × σ)
  | 0, _, _, _ => .error .fuel
  | fuel + 1, i, j, s => do
    let i ← partition.up data a j ((j - i).toNat + 2) i s
    let j ← partition.down data a i ((j - i).toNat + 2) j s
    if i > j then pure (j, s)
    else
      let s ← data.Swap s i j
      partition.loop data a fuel (i + 1) (j - 1) s

/-- The function partition does one quicksort partition: with `p = data[pivot]` it moves
the elements of `data[a:b]` so that `data[i] < p` for `i < newpivot` and `data[j] >= p`
for `j > newpivot`. Yields `(newpivot, alreadyPartitioned)` and the new state. -/
def partition (data : Interface σ) (a b pivot : Int) (s : σ) :
    Except Panic (Int × Bool × σ) := do
  let s ← data.Swap s a pivot
  let i := a + 1
  let j := b - 1
  let i ← partition.up data a j ((j - i).toNat + 2) i s
  let j ← partition.down data a i ((j - i).toNat + 2) j s
  if i > j then
    let s ← data.Swap s j a
    pure (j, true, s)
  else
    let s ← data.Swap s i j
    let (j, s) ← partition.loop data a ((j - i).toNat + 2) (i + 1) (j - 1) s
    let s ← data.Swap s j a
    pure (j, false, s)

/-- The loop `for i <= j && !data.Less(a, i) { i++ }` of partitionEqual. -/
def partitionEqual.up (data : Interface σ) (a j : Int) : Nat → Int → σ → Except Panic Int
  | 0, _, _ => .error .fuel
  | fuel + 1, i, s =>
    if i ≤ j then do
      if (← data.Less s a i) then pure i else partitionEqual.up data a j fuel (i + 1) s
    else pure i

/-- The loop `for i <= j && data.Less(a, j) { j-- }` of partitionEqual. -/
def partitionEqual.down (data : Interface σ) (a i : Int) : Nat → Int → σ → Except Panic Int
  | 0, _, _ => .error .fuel
  | fuel + 1, j, s =>
    if i ≤ j then do
      if (← data.Less s a j) then partitionEqual.down data a i fuel (j - 1) s else pure j
    else pure j

/-- The `for { ... }` loop of partitionEqual; yields `i` and the state at the break. -/
def partitionEqual.loop (data : Interface σ) (a : Int) :
    Nat → Int → Int → σ → Except Panic (Int × σ)
  | 0, _, _, _ => .error .fuel
  | fuel + 1, i, j, s => do
    let i ← partitionEqual.up data a j ((j - i).toNat + 2) i s
    let j ← partitionEqual.down data a i ((j - i).toNat + 2) j s
    if i > j then pure (i, s)
    else
      let s ← data.Swap s i j
      partitionEqual.loop data a fuel (i + 1) (j - 1) s

/-- The function partitionEqual partitions `data[a:b]` into elements equal to
`data[pivot]` followed by elements greater than `data[pivot]`; yields `newpivot`. -/
def partitionEqual (data : Interface σ) (a b pivot : Int) (s : σ) :
    Except Panic (Int × σ) := do
  let s ← data.Swap s a pivot
  partitionEqual.loop data a ((b - a).toNat + 2) (a + 1) (b - 1) s

/-- The loop `for i < b && !data.Less(i, i-1) { i++ }` of partialInsertionSort. -/
def partialInsertionSort.scan (data : Interface σ) (b : Int) :
    Nat → Int → σ → Except Panic Int
  | 0, _, _ => .error .fuel
  | fuel + 1, i, s =>
    if i < b then do
      if (← data.Less s i (i - 1)) then pure i
      else partialInsertionSort.scan data b fuel (i + 1) s
    else pure i

/-- The loop that shifts the smaller one to the left:
`for j := i - 1; j >= 1; j-- { if !data.Less(j, j-1) { break }; data.Swap(j, j-1) }`. -/
def partialInsertionSort.shiftLeft (data : Interface σ) : Nat → Int → σ → Except Panic σ
  | 0, _, _ => .error .fuel
  | fuel + 1, j, s =>
    if j ≥ 1 then do
      if (← data.Less s j (j - 1)) then
        let s ← data.Swap s j (j - 1)
        partialInsertionSort.shiftLeft data fuel (j - 1) s
      else pure s
    else pure s

/-- The loop that shifts the greater one to the right:
`for j := i + 1; j < b; j++ { if !data.Less(j, j-1) { break }; data.Swap(j, j-1) }`. -/
def partialInsertionSort.shiftRight (data : Interface σ) (b : Int) :
    Nat → Int → σ → Except Panic σ
  | 0, _, _ => .error .fuel
  | fuel + 1, j, s =>
    if j < b then do
      if (← data.Less s j (j - 1)) then
        let s ← data.Swap s j (j - 1)
        partialInsertionSort.shiftRight data b fuel (j + 1) s
      else pure s
    else pure s

/-- The loop `for j := 0; j < maxSteps; j++ { ... }` of partialInsertionSort with
`maxSteps = 5` and `shortestShifting = 50`; `i` is carried from step to step. Yields the
result of the function when it returns inside the loop, and `false` when the loop ends. -/
def partialInsertionSort.steps (data : Interface σ) (a b : Int) :
    Nat → Int → Int → σ → Except Panic (Bool × σ)
  | 0, _, _, _ => .error .fuel
  | fuel + 1, j, i, s =>
    if j < 5 then do
      let i ← partialInsertionSort.scan data b ((b - i).toNat + 1) i s
      if i = b then pure (true, s)
      else if b - a < 50 then pure (false, s)
      else
        let s ← data.Swap s i (i - 1)
        let s ← (if i - a ≥ 2 then
            partialInsertionSort.shiftLeft data (i.toNat + 1) (i - 1) s
          else pure s)
        let s ← (if b - i ≥ 2 then
            partialInsertionSort.shiftRight data b ((b - i).toNat + 1) (i + 1) s
          else pure s)
        partialInsertionSort.steps data a b fuel (j + 1) i s
    else pure (false, s)

/-- The function partialInsertionSort partially sorts a slice; it returns true if the
slice is sorted at the end. -/
def partialInsertionSort (data : Interface σ) (a b : Int) (s : σ) :
    Except Panic (Bool × σ) :=
  partialInsertionSort.steps data a b 6 0 (a + 1) s

/-- The method `xorshift.Next` of the generator `type xorshift uint64`:
`*r ^= *r << 13; *r ^= *r >> 7; *r ^= *r << 17; return uint64(*r)`, a left shift dropping
the bits above the 64th. The new state is also the value returned. (Releases differ in the
three shift counts; no theorem below depends on them.) -/
def xorshift.Next (r : Nat) : Nat :=
  let r := r ^^^ ((r <<< 13) % 2 ^ 64)
  let r := r ^^^ (r >>> 7)
  r ^^^ ((r <<< 17) % 2 ^ 64)

/-- The function nextPowerOfTwo: `uint(1 << bits.Len(uint(length)))`. The length of a
slice is a non-negative `int`, so the shift is at most 63 and nothing wraps. -/
def nextPowerOfTwo (length : Int) : Nat :=
  1 <<< bits.Len length.toNat

/-- The loop `for i := 0; i < 3; i++ { ... }` of breakPatterns; `random` is the state of
the generator, and the body is
`other := int(uint(random.Next()) & (modulus - 1))`,
`if other >= length { other -= length }`, `data.Swap(idx-1+i, a+other)`. -/
def breakPatterns.loop (data : Interface σ) (a length idx : Int) (modulus : Nat) :
    Nat → Int → Nat → σ → Except Panic σ
  | 0, _, _, _ => .error .fuel
  | fuel + 1, i, random, s =>
    if i < 3 then do
      let random := xorshift.Next random
      let other : Int := ((random &&& (modulus - 1) : Nat) : Int)
      let other := if other ≥ length then other - length else other
      let s ← data.Swap s (idx - 1 + i) (a + other)
      breakPatterns.loop data a length idx modulus fuel (i + 1) random s
    else pure s

/-- The function breakPatterns scatters some elements around in an attempt to break some
patterns that might cause imbalanced partitions in quicksort. -/
def breakPatterns (data : Interface σ) (a b : Int) (s : σ) : Except Panic σ :=
  let length := b - a
  if length ≥ 8 then
    let random := length.toNat
    let modulus := nextPowerOfTwo length
    let idx := a + (length.tdiv 4) * 2 - 1
    breakPatterns.loop data a length idx modulus 4 0 random s
  else pure s

/-- Hint for pdqsort when choosing the pivot. -/
inductive sortedHint where
  | unknownHint
  | increasingHint
  | decreasingHint
  deriving DecidableEq, Repr

/-- The function order2 returns `x, y` where `data[x] <= data[y]`, where `x, y = a, b` or
`x, y = b, a`; the third component is the updated counter `*swaps`. -/
def order2 (data : Interface σ) (a b : Int) (swaps : Int) (s : σ) :
    Except Panic (Int × Int × Int) := do
  if (← data.Less s b a) then pure (b, a, swaps + 1) else pure (a, b, swaps)

/-- The function median returns `x` where `data[x]` is the median of `data[a]`, `data[b]`,
`data[c]`; the second component is the updated counter `*swaps`. -/
def median (data : Interface σ) (a b c : Int) (swaps : Int) (s : σ) :
    Except Panic (Int × Int) := do
  let (a, b, swaps) ← order2 data a b swaps s
  let (b, c, swaps) ← order2 data b c swaps s
  let (_, b, swaps) ← order2 data a b swaps s
  let _ := c
  pure (b, swaps)

/-- The function medianAdjacent finds the median of `data[a-1]`, `data[a]`, `data[a+1]`. -/
def medianAdjacent (data : Interface σ) (a : Int) (swaps : Int) (s : σ) :
    Except Panic (Int × Int) :=
  median data (a - 1) a (a + 1) swaps s

/-- The function choosePivot chooses a pivot in `data[a:b]`, with
`shortestNinther = 50` and `maxSwaps = 4 * 3`. -/
def choosePivot (data : Interface σ) (a b : Int) (s : σ) :
    Except Panic (Int × sortedHint) := do
  let l := b - a
  let swaps : Int := 0
  let i := a + l.tdiv 4 * 1
  let j := a + l.tdiv 4 * 2
  let k := a + l.tdiv 4 * 3
  let (j, swaps) ← (if l ≥ 8 then do
      let (i, j, k, swaps) ← (if l ≥ 50 then do
          let (i, swaps) ← medianAdjacent data i swaps s
          let (j, swaps) ← medianAdjacent data j swaps s
          let (k, swaps) ← medianAdjacent data k swaps s
          pure (i, j, k, swaps)
        else pure (i, j, k, swaps))
      median data i j k swaps s
    else pure (j, swaps))
  if swaps = 0 then pure (j, sortedHint.increasingHint)
  else if swaps = 4 * 3 then pure (j, sortedHint.decreasingHint)
  else pure (j, sortedHint.unknownHint)

/-- The loop `for i < j { data.Swap(i, j); i++; j-- }` of reverseRange. -/
def reverseRange.loop (data : Interface σ) : Nat → Int → Int → σ → Except Panic σ
  | 0, _, _, _ => .error .fuel
  | fuel + 1, i, j, s =>
    if i < j then do
      let s ← data.Swap s i j
      reverseRange.loop data fuel (i + 1) (j - 1) s
    else pure s

/-- The function reverseRange reverses `data[a:b]`. -/
def reverseRange (data : Interface σ) (a b : Int) (s : σ) : Except Panic σ :=
  reverseRange.loop data ((b - a).toNat + 1) a (b - 1) s

/-- The function pdqsort sorts `data[a:b]` by pattern-defeating quicksort; `limit` is the
number of allowed bad (very unbalanced) pivots before falling back to heapsort, and
`maxInsertion = 12`. One unit of the budget is spent per pass of the `for` loop and per
recursive call; `wasBalanced` and `wasPartitioned` are the loop's two flags, true on
entry. -/
def pdqsort (data : Interface σ) :
    Nat → Int → Int → Int → Bool → Bool → σ → Except Panic σ
  | 0, _, _, _, _, _, _ => .error .fuel
  | fuel + 1, a, b, limit, wasBalanced, wasPartitioned, s =>
    let length := b - a
    if length ≤ 12 then insertionSort data a b s
    else if limit = 0 then heapSort data a b s
    else do
      let (s, limit) ← (if !wasBalanced then do
          let s ← breakPatterns data a b s
          pure (s, limit - 1)
        else pure (s, limit))
      let (pivot, hint) ← choosePivot data a b s
      let (s, pivot, hint) ← (if hint = sortedHint.decreasingHint then do
          let s ← reverseRange data a b s
          pure (s, (b - 1) - (pivot - a), sortedHint.increasingHint)
        else pure (s, pivot, hint))
      let (done, s) ← (if wasBalanced && wasPartitioned
            && decide (hint = sortedHint.increasingHint) then
          partialInsertionSort data a b s
        else pure (false, s))
      if done then pure s
      else
        let dup ← (if a > 0 then do
            let l ← data.Less s (a - 1) pivot
            pure (!l)
          else pure false)
        if dup then
          let (mid, s) ← partitionEqual data a b pivot s
          pdqsort data fuel mid b limit wasBalanced wasPartitioned s
        else
          let (mid, alreadyPartitioned, s) ← partition data a b pivot s
          let leftLen := mid - a
          let rightLen := b - mid
          let balanceThreshold := length.tdiv 8
          if leftLen < rightLen then
            let s ← pdqsort data fuel a mid limit true true s
            pdqsort data fuel (mid + 1) b limit (decide (leftLen ≥ balanceThreshold))
              alreadyPartitioned s
          else
            let s ← pdqsort data fuel (mid + 1) b limit true true s
            pdqsort data fuel a mid limit (decide (rightLen ≥ balanceThreshold))
              alreadyPartitioned s

/-- Go's `sort.Sort`: sorts `data` in ascending order as determined by the Less method.
It makes one call to `data.Len`; collections of at most one element are returned at once. -/
def Sort_ (data : Interface σ) (s : σ) : Except Panic σ :=
  let n := data.Len s
  if n ≤ 1 then pure s
  else
    let limit : Int := bits.Len n.toNat
    pdqsort data (n.toNat + 1) 0 n limit true true s

end sort

/-- The value `relationsSort(rs)` seen through `sort.Interface`. -/
def relationsSort.Interface : Interface Mem where
  Len := relationsSort.Len
  Less := relationsSort.Less
  Swap := relationsSort.Swap

/-- The method `func (rs Relations) SortByIDVersion() { sort.Sort(relationsSort(rs)) }`. -/
def Relations.SortByIDVersion (m : Mem) : Except Panic Mem :=
  sort.Sort_ relationsSort.Interface m


/-! ## Vocabulary of the specification -/

section Vocabulary

variable {σ β K : Type}

/-- The element of `l` at the integer index `i` (a default value off the list). -/
def getI [Inhabited β] (l : List β) (i : Int) : β := l.getD i.toNat default

/-- The list `l` after the exchange of the elements at the integer indices `i` and `j`,
written the way Go assigns `l[i], l[j] = l[j], l[i]`. -/
def swapI [Inhabited β] (l : List β) (i j : Int) : List β :=
  (l.set i.toNat (getI l j)).set j.toNat (getI l i)

/-- The list `l2` comes from `l1` by exchanges of elements at indices within `[a, b)`,
a range that lies inside the list. -/
inductive SwapsIn [Inhabited β] (a b : Int) : List β → List β → Prop where
  | refl (l : List β) : SwapsIn a b l l
  | step {l1 l2 : List β} (i j : Int) : SwapsIn a b l1 l2 → 0 ≤ a → b ≤ l2.length →
      a ≤ i → i < b → a ≤ j → j < b → SwapsIn a b l1 (swapI l2 i j)

/-- The keys of `l` at the indices of `[a, b)` are in ascending order. -/
def SortedIn [Inhabited β] [LinearOrder K] (key : β → K) (a b : Int) (l : List β) : Prop :=
  ∀ i j : Int, a ≤ i → i ≤ j → j < b → key (getI l i) ≤ key (getI l j)

/-- The keys of `l` at the indices `first + r`, for `lo ≤ r < hi`, satisfy the max-heap
property: no child `2 * r + 1` or `2 * r + 2` below `hi` exceeds its parent `r`. -/
def HeapFrom [Inhabited β] [LinearOrder K] (key : β → K) (first lo hi : Int) (l : List β) :
    Prop :=
  ∀ r c : Int, lo ≤ r → (c = 2 * r + 1 ∨ c = 2 * r + 2) → c < hi →
    key (getI l (first + c)) ≤ key (getI l (first + r))

/-- The range `[a, b)` of `l` starts the list, or the key just before it is a lower
bound of the keys in it. -/
def LowerBound [Inhabited β] [LinearOrder K] (key : β → K) (a b : Int) (l : List β) : Prop :=
  a = 0 ∨ ∀ t : Int, a ≤ t → t < b → key (getI l (a - 1)) ≤ key (getI l t)

/-- The run `r` ends normally with a result that satisfies `Q`. -/
def Runs {α : Type} (r : Except Panic α) (Q : α → Prop) : Prop :=
  ∃ x, r = .ok x ∧ Q x

/-- On the states that satisfy `ok`, the collection `data` behaves as a slice: `view` is
its list of elements, Len is the length of the list, Less compares the keys of two
elements in range, and Swap exchanges two elements in range and keeps `ok`. -/
structure Refines [Inhabited β] [LinearOrder K] (data : Interface σ) (view : σ → List β)
    (key : β → K) (ok : σ → Prop) : Prop where
  len_eq : ∀ s, data.Len s = ((view s).length : Int)
  less_eq : ∀ (s : σ) (i j : Int), ok s → 0 ≤ i → i < (view s).length → 0 ≤ j →
    j < (view s).length →
    data.Less s i j = .ok (decide (key (getI (view s) i) < key (getI (view s) j)))
  swap_eq : ∀ (s : σ) (i j : Int), ok s → 0 ≤ i → i < (view s).length → 0 ≤ j →
    j < (view s).length →
    ∃ s2, data.Swap s i j = .ok s2 ∧ ok s2 ∧ view s2 = swapI (view s) i j

end Vocabulary

/-! ## Vocabulary of the claims about SortByIDVersion -/

/-- The collection holds no nil pointer. -/
@[reducible] def NonNil (rs : Relations) : Prop := ∀ p ∈ rs, p ≠ none

/-- The Relation that the element at index `i` points to, the Go expression `*rs[i]`. -/
def Mem.rel (m : Mem) (i : Int) : Except Panic Relation := do
  deref m.heap (← index m.rs i)

/-- The collection is in ascending (ID, Version) order: every element points to a Relation,
and of two elements the earlier one has the smaller ID, or the same ID and a Version that
is not greater. -/
def Ascending (m : Mem) : Prop :=
  ∀ i j : Int, 0 ≤ i → i < j → j < m.rs.length →
    ∃ x y, m.rel i = .ok x ∧ m.rel j = .ok y
      ∧ (x.ID < y.ID ∨ (x.ID = y.ID ∧ x.Version ≤ y.Version))

/-- The pair (ID, Version) of the Relation behind a pointer, in lexicographic order. -/
def sortKey (h : Heap) (p : Ptr) : Lex (Int × Int) :=
  match p with
  | some a => toLex ((h a).ID, (h a).Version)
  | none => toLex (0, 0)

/-- The run `r` ends as the run `r2` does, or else in a nil-dereference panic. -/
def Approx {α : Type} (r r2 : Except Panic α) : Prop :=
  r = r2 ∨ r = .error .nilDereference

/-- The collection `data` behaves as `data2` does, except that a call of its Less may end
in a nil-dereference panic instead. -/
structure Sim {σ : Type} (data data2 : Interface σ) : Prop where
  len_eq : ∀ s, data.Len s = data2.Len s
  swap_eq : ∀ s i j, data.Swap s i j = data2.Swap s i j
  less_approx : ∀ s i j, Approx (data.Less s i j) (data2.Less s i j)

/-- The Relation behind a pointer, the nil pointer being read as a Relation of ID 0 and
Version 0. -/
def derefD (h : Heap) (p : Ptr) : Relation :=
  match p with
  | some a => h a
  | none => default

/-- The comparison of relationsSort.Less made total: a nil pointer is read through
derefD instead of raising a panic. It serves to follow the run of the sort up to the first
nil dereference. -/
def totalLess (m : Mem) (i j : Int) : Except Panic Bool := do
  let p ← index m.rs i
  let q ← index m.rs j
  let a := derefD m.heap p
  let b := derefD m.heap q
  if a.ID = b.ID then pure (decide (a.Version < b.Version))
  else pure (decide (a.ID < b.ID))

/-- The collection `relationsSort(rs)` with the total comparison. -/
def totalInterface : Interface Mem where
  Len := relationsSort.Len
  Less := totalLess
  Swap := relationsSort.Swap

/-- A Relation with the given ID, Version and User, the other fields empty. -/
def sample (id version : Int) (user : String) : Relation :=
  { ID := id, User := user, UserID := 0, Visible := true, Version := version,
    ChangesetID := 0, Timestamp := 0, Tags := [], Members := [] }

/-- A memory holding the listed Relations at the addresses 0, 1, 2, ... -/
def heapOf (l : List Relation) : Heap := fun a => l.getD a default

/-- The collection of the scenario: relations with (ID, Version) = (2, 1), (1, 2), (1, 1)
at the addresses 0, 1, 2, and the slice of the three pointers in this order. -/
def scenario : Mem :=
  ⟨heapOf [sample 2 1 "a", sample 1 2 "b", sample 1 1 "c"], [some 0, some 1, some 2]⟩

/-- A collection in ascending order in which two distinct relations share (ID, Version). -/
def withTies : Mem :=
  ⟨heapOf [sample 1 1 "a", sample 1 1 "b", sample 2 1 "c"], [some 0, some 1, some 2]⟩

/-- A Relation with the given ID and Version whose other fields are all populated. -/
def populated (id version : Int) : Relation :=
  { ID := id, User := "mapper", UserID := 7, Visible := false, Version := version,
    ChangesetID := 99, Timestamp := 1500000000, Tags := [("type", "route"), ("name", "N1")],
    Members := [⟨WayMember.toMemberType, 42, "outer"⟩, ⟨NodeMember.toMemberType, 5, ""⟩] }

/-- The scenario collection with every relation populated: the same (ID, Version) pairs
(2, 1), (1, 2), (1, 1) at the addresses 0, 1, 2. -/
def scenarioPopulated : Mem :=
  ⟨heapOf [populated 2 1, populated 1 2, populated 1 1], [some 0, some 1, some 2]⟩

/-- The scenario collection in another arrangement: the same memory, the pointers in the
order 2, 0, 1. -/
def scenarioShuffled : Mem :=
  ⟨heapOf [sample 2 1 "a", sample 1 2 "b", sample 1 1 "c"], [some 2, some 0, some 1]⟩

end Osm


namespace Osm

/-! ## Basic facts: runs, indices, exchanges -/

section Basics

variable {σ β K : Type}

theorem ok_bind {α γ : Type} (x : α) (f : α → Except Panic γ) :
    (Except.ok x >>= f) = f x := rfl

theorem Runs.pure {α : Type} {Q : α → Prop} {x : α} (h : Q x) :
    Runs (Pure.pure x : Except Panic α) Q := ⟨x, rfl, h⟩

theorem Runs.ok {α : Type} {Q : α → Prop} {x : α} (h : Q x) :
    Runs (Except.ok x : Except Panic α) Q := ⟨x, rfl, h⟩

theorem Runs.bind {α γ : Type} {r : Except Panic α} {f : α → Except Panic γ}
    {Q : α → Prop} {Q2 : γ → Prop} (h : Runs r Q) (hf : ∀ x, Q x → Runs (f x) Q2) :
    Runs (r >>= f) Q2 := by
  obtain ⟨x, hx, hq⟩ := h
  subst hx
  exact hf x hq

theorem Runs.mono {α : Type} {r : Except Panic α} {Q Q2 : α → Prop} (h : Runs r Q)
    (hq : ∀ x, Q x → Q2 x) : Runs r Q2 := by
  obtain ⟨x, hx, hq1⟩ := h
  exact ⟨x, hx, hq x hq1⟩

variable [Inhabited β]

theorem length_swapI (l : List β) (i j : Int) : (swapI l i j).length = l.length := by
  simp [swapI]

theorem getI_eq_getElem (l : List β) (i : Nat) (h : i < l.length) :
    getI l (i : Int) = l[i] := by
  simp [getI, List.getD_eq_getElem?_getD, List.getElem?_eq_getElem h]

theorem getI_swapI (l : List β) (i j k : Int) (hi : 0 ≤ i) (hi2 : i < l.length)
    (hj : 0 ≤ j) (hj2 : j < l.length) (hk : 0 ≤ k) :
    getI (swapI l i j) k
      = if k = j then getI l i else if k = i then getI l j else getI l k := by
  have e1 : (j.toNat = k.toNat) ↔ k = j := by omega
  have e2 : (i.toNat = k.toNat) ↔ k = i := by omega
  have h1 : j.toNat < l.length := by omega
  have h2 : i.toNat < l.length := by omega
  simp only [getI, swapI, List.getD_eq_getElem?_getD, List.getElem?_set, List.length_set, e1, e2,
    h1, h2, if_true]
  split_ifs <;> simp

theorem set_cons_perm (t : List β) (x : β) (k : Nat) (h : k < t.length) :
    (t.getD k default :: t.set k x).Perm (x :: t) := by
  induction t generalizing k with
  | nil => simp at h
  | cons y t ih =>
    cases k with
    | zero => simpa using List.Perm.swap x y t
    | succ k =>
      have h2 : k < t.length := by simpa using h
      have := ih k h2
      simp only [List.getD_cons_succ, List.set_cons_succ]
      exact ((List.Perm.swap y _ _).trans (this.cons y)).trans (List.Perm.swap x y t)

theorem set_set_getD_perm (l : List β) (i j : Nat) (hi : i < l.length) (hj : j < l.length) :
    ((l.set i (l.getD j default)).set j (l.getD i default)).Perm l := by
  induction l generalizing i j with
  | nil => simp at hi
  | cons x t ih =>
    cases i with
    | zero =>
      cases j with
      | zero => simp
      | succ j =>
        have h2 : j < t.length := by simpa using hj
        simpa using set_cons_perm t x j h2
    | succ i =>
      have h1 : i < t.length := by simpa using hi
      cases j with
      | zero => simpa using set_cons_perm t x i h1
      | succ j =>
        have h2 : j < t.length := by simpa using hj
        simpa using ih i j h1 h2

theorem swapI_perm (l : List β) (i j : Int) (hi : 0 ≤ i) (hi2 : i < l.length)
    (_hj : 0 ≤ j) (hj2 : j < l.length) : (swapI l i j).Perm l := by
  unfold swapI getI
  exact set_set_getD_perm l i.toNat j.toNat (by omega) (by omega)

theorem swapI_self (l : List β) (i : Int) (hi : 0 ≤ i) (hi2 : i < l.length) :
    swapI l i i = l := by
  have h2 : i.toNat < l.length := by omega
  unfold swapI getI
  apply List.ext_getElem?
  intro n
  simp only [List.getElem?_set, List.length_set, List.getD_eq_getElem?_getD, h2, if_true]
  split_ifs with h
  · subst h; simp [List.getElem?_eq_getElem h2]
  · rfl

theorem SwapsIn.length_eq {a b : Int} {l1 l2 : List β} (h : SwapsIn a b l1 l2) :
    l2.length = l1.length := by
  induction h with
  | refl => rfl
  | step i j _ _ _ _ _ _ _ ih => rw [length_swapI, ih]

theorem SwapsIn.perm {a b : Int} {l1 l2 : List β} (h : SwapsIn a b l1 l2) : l2.Perm l1 := by
  induction h with
  | refl => exact List.Perm.refl _
  | step i j _ h0 hb h1 h2 h3 h4 ih =>
    exact (swapI_perm _ i j (by omega) (by omega) (by omega) (by omega)).trans ih

theorem SwapsIn.trans {a b : Int} {l1 l2 l3 : List β} (h : SwapsIn a b l1 l2)
    (h2 : SwapsIn a b l2 l3) : SwapsIn a b l1 l3 := by
  induction h2 with
  | refl => exact h
  | step i j _ h0 hb h1 h2 h3 h4 ih => exact SwapsIn.step i j ih h0 hb h1 h2 h3 h4

theorem SwapsIn.widen {a b a2 b2 : Int} {l1 l2 : List β} (h : SwapsIn a b l1 l2)
    (h0 : 0 ≤ a2) (ha : a2 ≤ a) (hb : b ≤ b2) (hl : b2 ≤ l1.length) : SwapsIn a2 b2 l1 l2 := by
  induction h with
  | refl => exact SwapsIn.refl _
  | step i j hs _ _ h1 h2 h3 h4 ih =>
    have := hs.length_eq
    exact SwapsIn.step i j ih h0 (by omega) (by omega) (by omega) (by omega) (by omega)

theorem SwapsIn.one {a b : Int} (l : List β) (i j : Int) (h0 : 0 ≤ a) (hb : b ≤ l.length)
    (h1 : a ≤ i) (h2 : i < b) (h3 : a ≤ j) (h4 : j < b) : SwapsIn a b l (swapI l i j) :=
  SwapsIn.step i j (SwapsIn.refl l) h0 hb h1 h2 h3 h4

theorem SwapsIn.frame {a b : Int} {l1 l2 : List β} (h : SwapsIn a b l1 l2) (k : Int)
    (hk0 : 0 ≤ k) (hk : k < a ∨ b ≤ k) : getI l2 k = getI l1 k := by
  induction h with
  | refl => rfl
  | step i j _ h0 hb h1 h2 h3 h4 ih =>
    rw [getI_swapI _ i j k (by omega) (by omega) (by omega) (by omega) hk0, if_neg (by omega),
      if_neg (by omega), ih]

theorem SwapsIn.forall_range {a b : Int} {l1 l2 : List β} (h : SwapsIn a b l1 l2)
    (P : β → Prop) (hP : ∀ k, a ≤ k → k < b → P (getI l1 k)) :
    ∀ k, a ≤ k → k < b → P (getI l2 k) := by
  induction h with
  | refl => exact hP
  | step i j _ h0 hb h1 h2 h3 h4 ih =>
    intro k hk1 hk2
    rw [getI_swapI _ i j k (by omega) (by omega) (by omega) (by omega) (by omega)]
    split_ifs
    · exact ih i h1 h2
    · exact ih j h3 h4
    · exact ih k hk1 hk2

end Basics

end Osm


namespace Osm

/-! ## Correctness of the sort: insertionSort

Each function of package sort is given a specification over any collection that
`Refines` describes: it returns, the new elements come from the old ones by exchanges
inside the range it works on, and it establishes its order property. -/

section Insertion

variable {σ β K : Type} [Inhabited β] [LinearOrder K]
  {data : Interface σ} {view : σ → List β} {key : β → K} {ok : σ → Prop}

open sort

theorem insertionSort_inner_spec (R : Refines data view key ok) (a i : Int) (h0 : 0 ≤ a) :
    ∀ (fuel : Nat) (j : Int) (s : σ), ok s → a ≤ j → j ≤ i → i < (view s).length →
      j - a < fuel →
      (∀ p q, a ≤ p → p ≤ q → q ≤ i → p ≠ j → q ≠ j →
        key (getI (view s) p) ≤ key (getI (view s) q)) →
      (∀ q, j < q → q ≤ i → key (getI (view s) j) < key (getI (view s) q)) →
      Runs (insertionSort.inner data a fuel j s) (fun s2 =>
        ok s2 ∧ SwapsIn a (i + 1) (view s) (view s2) ∧ SortedIn key a (i + 1) (view s2)) := by
  intro fuel
  induction fuel with
  | zero => intro j s _ _ _ _ hf; omega
  | succ fuel ih =>
    intro j s hs haj hji hil hf h1 h2
    unfold insertionSort.inner
    by_cases hja : j > a
    · rw [if_pos hja, R.less_eq s j (j - 1) hs (by omega) (by omega) (by omega) (by omega)]
      by_cases hlt : key (getI (view s) j) < key (getI (view s) (j - 1))
      · simp only [hlt, decide_True, ok_bind, if_true]
        obtain ⟨s2, hsw, hok2, hv2⟩ :=
          R.swap_eq s j (j - 1) hs (by omega) (by omega) (by omega) (by omega)
        rw [hsw, ok_bind]
        have hlen : (view s2).length = (view s).length := by rw [hv2, length_swapI]
        have hg : ∀ k, 0 ≤ k → getI (view s2) k
            = if k = j - 1 then getI (view s) j else if k = j then getI (view s) (j - 1)
              else getI (view s) k := by
          intro k hk
          rw [hv2, getI_swapI _ j (j - 1) k (by omega) (by omega) (by omega) (by omega) hk]
        have := ih (j - 1) s2 hok2 (by omega) (by omega) (by omega) (by omega)
          (by
            intro p q hp hpq hq hpj hqj
            rw [hg p (by omega), hg q (by omega), if_neg hpj, if_neg hqj]
            by_cases e1 : p = j
            · by_cases e2 : q = j
              · simp [e1, e2]
              · rw [if_pos e1, if_neg e2]
                exact h1 (j - 1) q (by omega) (by omega) hq (by omega) e2
            · by_cases e2 : q = j
              · rw [if_neg e1, if_pos e2]
                exact h1 p (j - 1) hp (by omega) (by omega) e1 (by omega)
              · rw [if_neg e1, if_neg e2]
                exact h1 p q hp hpq hq e1 e2)
          (by
            intro q hq1 hq2
            rw [hg (j - 1) (by omega), hg q (by omega), if_pos rfl, if_neg (by omega)]
            by_cases e2 : q = j
            · rw [if_pos e2]; exact hlt
            · rw [if_neg e2]; exact h2 q (by omega) hq2)
        refine this.mono ?_
        rintro s3 ⟨hok3, hsw3, hso3⟩
        refine ⟨hok3, ?_, hso3⟩
        refine SwapsIn.trans ?_ hsw3
        rw [hv2]
        exact SwapsIn.one _ _ _ h0 (by omega) (by omega) (by omega) (by omega) (by omega)
      · simp only [hlt, decide_False, ok_bind]
        refine Runs.pure ⟨hs, SwapsIn.refl _, ?_⟩
        intro p q hp hpq hq
        have hle := not_lt.mp hlt
        by_cases e1 : p = q
        · rw [e1]
        by_cases e2 : q = j
        · subst e2
          exact le_trans (h1 p (q - 1) hp (by omega) (by omega) (by omega) (by omega)) hle
        by_cases e3 : p = j
        · subst e3
          exact le_of_lt (h2 q (by omega) (by omega))
        · exact h1 p q hp hpq (by omega) e3 e2
    · rw [if_neg hja]
      refine Runs.pure ⟨hs, SwapsIn.refl _, ?_⟩
      intro p q hp hpq hq
      by_cases e1 : p = q
      · rw [e1]
      by_cases e3 : p = j
      · subst e3
        exact le_of_lt (h2 q (by omega) (by omega))
      · exact h1 p q hp hpq (by omega) e3 (by omega)

theorem insertionSort_outer_spec (R : Refines data view key ok) (a b : Int) (h0 : 0 ≤ a) :
    ∀ (fuel : Nat) (i : Int) (s : σ), ok s → a < i → b ≤ (view s).length →
      b - i < fuel → 0 < fuel → i ≤ b ∨ b ≤ a → SortedIn key a i (view s) →
      Runs (insertionSort.outer data a b fuel i s) (fun s2 =>
        ok s2 ∧ SwapsIn a b (view s) (view s2) ∧ SortedIn key a b (view s2)) := by
  intro fuel
  induction fuel with
  | zero => intro i s _ _ _ _ hf; omega
  | succ fuel ih =>
    intro i s hs hai hbl hf _ hib hsorted
    unfold insertionSort.outer
    by_cases hlt : i < b
    · rw [if_pos hlt]
      have hin := insertionSort_inner_spec R a i h0 ((i - a).toNat + 1) i s hs (by omega)
        (le_refl _) (by omega) (by omega)
        (by
          intro p q hp hpq hq hpi hqi
          exact hsorted p q hp hpq (by omega))
        (by intro q hq1 hq2; omega)
      refine hin.bind ?_
      rintro s2 ⟨hok2, hsw2, hso2⟩
      have hlen := hsw2.length_eq
      have := ih (i + 1) s2 hok2 (by omega) (by omega) (by omega) (by omega) (by omega) hso2
      refine this.mono ?_
      rintro s3 ⟨hok3, hsw3, hso3⟩
      refine ⟨hok3, ?_, hso3⟩
      exact (hsw2.widen h0 (le_refl _) (by omega) (by omega)).trans hsw3
    · rw [if_neg hlt]
      refine Runs.pure ⟨hs, SwapsIn.refl _, ?_⟩
      intro p q hp hpq hq
      exact hsorted p q hp hpq (by omega)

theorem insertionSort_spec (R : Refines data view key ok) (a b : Int) (s : σ) (hs : ok s)
    (h0 : 0 ≤ a) (hb : b ≤ (view s).length) :
    Runs (insertionSort data a b s) (fun s2 =>
      ok s2 ∧ SwapsIn a b (view s) (view s2) ∧ SortedIn key a b (view s2)) := by
  unfold insertionSort
  apply insertionSort_outer_spec R a b h0 _ _ _ hs (by omega) hb (by omega) (by omega)
    (by omega)
  intro p q hp hpq hq
  have : p = q := by omega
  rw [this]

end Insertion

end Osm


namespace Osm

/-! ## reverseRange, breakPatterns and choosePivot -/

section Helpers

variable {σ β K : Type} [Inhabited β] [LinearOrder K]
  {data : Interface σ} {view : σ → List β} {key : β → K} {ok : σ → Prop}

open sort

theorem reverseRange_loop_spec (R : Refines data view key ok) (a b : Int) (h0 : 0 ≤ a) :
    ∀ (fuel : Nat) (i j : Int) (s : σ), ok s → a ≤ i → j < b → b ≤ (view s).length →
      j - i < fuel → 0 < fuel →
      Runs (reverseRange.loop data fuel i j s) (fun s2 =>
        ok s2 ∧ SwapsIn a b (view s) (view s2)) := by
  intro fuel
  induction fuel with
  | zero => intro i j s _ _ _ _ _ hf; omega
  | succ fuel ih =>
    intro i j s hs hai hjb hbl hf _
    unfold reverseRange.loop
    by_cases hlt : i < j
    · rw [if_pos hlt]
      obtain ⟨s2, hsw, hok2, hv2⟩ :=
        R.swap_eq s i j hs (by omega) (by omega) (by omega) (by omega)
      rw [hsw, ok_bind]
      have hlen : (view s2).length = (view s).length := by rw [hv2, length_swapI]
      refine (ih (i + 1) (j - 1) s2 hok2 (by omega) (by omega) (by omega) (by omega)
        (by omega)).mono ?_
      rintro s3 ⟨hok3, hsw3⟩
      refine ⟨hok3, SwapsIn.trans ?_ hsw3⟩
      rw [hv2]
      exact SwapsIn.one _ _ _ h0 hbl (by omega) (by omega) (by omega) (by omega)
    · rw [if_neg hlt]
      exact Runs.pure ⟨hs, SwapsIn.refl _⟩

theorem reverseRange_spec (R : Refines data view key ok) (a b : Int) (s : σ) (hs : ok s)
    (h0 : 0 ≤ a) (hb : b ≤ (view s).length) :
    Runs (reverseRange data a b s) (fun s2 => ok s2 ∧ SwapsIn a b (view s) (view s2)) := by
  unfold reverseRange
  exact reverseRange_loop_spec R a b h0 _ _ _ _ hs (le_refl _) (by omega) hb (by omega)
    (by omega)

theorem bitsLen_go_zero (fuel : Nat) : bits.Len.go fuel 0 = 0 := by
  cases fuel <;> simp [bits.Len.go]

theorem bitsLen_go_le (fuel : Nat) : ∀ x, 1 ≤ x → x ≤ fuel →
    2 ^ bits.Len.go fuel x ≤ 2 * x := by
  induction fuel with
  | zero => intro x h1 h2; omega
  | succ fuel ih =>
    intro x h1 h2
    unfold bits.Len.go
    rw [if_neg (by omega), pow_succ]
    by_cases hx : x / 2 = 0
    · rw [hx, bitsLen_go_zero]; omega
    · have := ih (x / 2) (by omega) (by omega)
      omega

theorem nextPowerOfTwo_le (length : Int) (h : 1 ≤ length) :
    ((nextPowerOfTwo length : Nat) : Int) ≤ 2 * length := by
  unfold nextPowerOfTwo bits.Len
  rw [Nat.one_shiftLeft]
  have := bitsLen_go_le length.toNat length.toNat (by omega) (le_refl _)
  omega

theorem and_mask_lt (r : Nat) (length : Int) (h : 1 ≤ length) :
    ((r &&& (nextPowerOfTwo length - 1) : Nat) : Int) < 2 * length := by
  have h1 := nextPowerOfTwo_le length h
  have h2 : r &&& (nextPowerOfTwo length - 1) < nextPowerOfTwo length := by
    unfold nextPowerOfTwo
    rw [Nat.one_shiftLeft, Nat.and_pow_two_sub_one_eq_mod]
    exact Nat.mod_lt _ (by positivity)
  omega

theorem breakPatterns_loop_spec (R : Refines data view key ok) (a b idx : Int)
    (h0 : 0 ≤ a) (h8 : 8 ≤ b - a) (hidx1 : a + 1 ≤ idx) (hidx2 : idx + 1 < b) :
    ∀ (fuel : Nat) (i : Int) (random : Nat) (s : σ), ok s → 0 ≤ i → b ≤ (view s).length →
      3 - i < fuel → 0 < fuel →
      Runs (breakPatterns.loop data a (b - a) idx (nextPowerOfTwo (b - a)) fuel i random s)
        (fun s2 => ok s2 ∧ SwapsIn a b (view s) (view s2)) := by
  intro fuel
  induction fuel with
  | zero => intro i r s _ _ _ _ hf; omega
  | succ fuel ih =>
    intro i r s hs hi hbl hf _
    unfold breakPatterns.loop
    by_cases hlt : i < 3
    · rw [if_pos hlt]
      simp only []
      have hm := and_mask_lt (xorshift.Next r) (b - a) (by omega)
      have hm0 : (0 : Int) ≤ ((xorshift.Next r &&& (nextPowerOfTwo (b - a) - 1) : Nat) : Int) :=
        Int.ofNat_nonneg _
      generalize ((xorshift.Next r &&& (nextPowerOfTwo (b - a) - 1) : Nat) : Int) = o
        at hm hm0 ⊢
      have ho : ∃ o2 : Int, (if o ≥ b - a then o - (b - a) else o) = o2 ∧ 0 ≤ o2 ∧ o2 < b - a := by
        refine ⟨_, rfl, ?_, ?_⟩ <;> split_ifs <;> omega
      obtain ⟨o2, ho2, ho3, ho4⟩ := ho
      rw [ho2]
      obtain ⟨s2, hsw, hok2, hv2⟩ :=
        R.swap_eq s (idx - 1 + i) (a + o2) hs (by omega) (by omega) (by omega) (by omega)
      rw [hsw, ok_bind]
      have hlen : (view s2).length = (view s).length := by rw [hv2, length_swapI]
      refine (ih (i + 1) (xorshift.Next r) s2 hok2 (by omega) (by omega) (by omega)
        (by omega)).mono ?_
      rintro s3 ⟨hok3, hsw3⟩
      refine ⟨hok3, SwapsIn.trans ?_ hsw3⟩
      rw [hv2]
      exact SwapsIn.one _ _ _ h0 hbl (by omega) (by omega) (by omega) (by omega)
    · rw [if_neg hlt]
      exact Runs.pure ⟨hs, SwapsIn.refl _⟩

theorem breakPatterns_spec (R : Refines data view key ok) (a b : Int) (s : σ) (hs : ok s)
    (h0 : 0 ≤ a) (hb : b ≤ (view s).length) :
    Runs (breakPatterns data a b s) (fun s2 => ok s2 ∧ SwapsIn a b (view s) (view s2)) := by
  unfold breakPatterns
  simp only []
  by_cases h8 : b - a ≥ 8
  · rw [if_pos h8]
    have hd : (b - a).tdiv 4 = (b - a) / 4 := Int.tdiv_eq_ediv (by omega) (by omega)
    rw [hd]
    exact breakPatterns_loop_spec R a b _ h0 h8 (by omega) (by omega) 4 0 _ s hs (le_refl _)
      hb (by omega) (by omega)
  · rw [if_neg h8]
    exact Runs.pure ⟨hs, SwapsIn.refl _⟩

/-! ### Choice of the pivot -/

theorem order2_spec (R : Refines data view key ok) (s : σ) (hs : ok s) (a b swaps : Int)
    (ha : 0 ≤ a) (ha2 : a < (view s).length) (hb : 0 ≤ b) (hb2 : b < (view s).length) :
    Runs (order2 data a b swaps s) (fun r =>
      (r = (a, b, swaps) ∧ key (getI (view s) a) ≤ key (getI (view s) b))
      ∨ (r = (b, a, swaps + 1) ∧ key (getI (view s) b) < key (getI (view s) a))) := by
  unfold order2
  rw [R.less_eq s b a hs hb hb2 ha ha2, ok_bind]
  by_cases hlt : key (getI (view s) b) < key (getI (view s) a)
  · rw [decide_eq_true hlt, if_pos rfl]
    exact Runs.pure (Or.inr ⟨rfl, hlt⟩)
  · rw [decide_eq_false hlt, if_neg (by simp)]
    exact Runs.pure (Or.inl ⟨rfl, not_lt.mp hlt⟩)

theorem median_spec (R : Refines data view key ok) (s : σ) (hs : ok s) (a b c swaps : Int)
    (ha : 0 ≤ a) (ha2 : a < (view s).length) (hb : 0 ≤ b) (hb2 : b < (view s).length)
    (hc : 0 ≤ c) (hc2 : c < (view s).length) :
    Runs (median data a b c swaps s) (fun r =>
      (r.1 = a ∨ r.1 = b ∨ r.1 = c)
      ∧ (key (getI (view s) a) ≤ key (getI (view s) b) →
          key (getI (view s) b) ≤ key (getI (view s) c) → r = (b, swaps))) := by
  unfold median
  refine (order2_spec R s hs a b swaps ha ha2 hb hb2).bind ?_
  rintro ⟨x1, y1, w1⟩ h1
  simp only []
  have hy1 : 0 ≤ y1 ∧ y1 < (view s).length ∧ 0 ≤ x1 ∧ x1 < (view s).length := by
    rcases h1 with ⟨h, _⟩ | ⟨h, _⟩ <;> · simp only [Prod.mk.injEq] at h; omega
  refine (order2_spec R s hs y1 c w1 hy1.1 hy1.2.1 hc hc2).bind ?_
  rintro ⟨x2, y2, w2⟩ h2
  simp only []
  have hx2 : 0 ≤ x2 ∧ x2 < (view s).length := by
    rcases h2 with ⟨h, _⟩ | ⟨h, _⟩ <;> · simp only [Prod.mk.injEq] at h; omega
  refine (order2_spec R s hs x1 x2 w2 hy1.2.2.1 hy1.2.2.2 hx2.1 hx2.2).bind ?_
  rintro ⟨x3, y3, w3⟩ h3
  simp only []
  refine Runs.pure ⟨?_, ?_⟩
  · simp only [Prod.mk.injEq] at h1 h2 h3
    rcases h1 with ⟨⟨e1, e2, e3⟩, _⟩ | ⟨⟨e1, e2, e3⟩, _⟩ <;>
    rcases h2 with ⟨⟨f1, f2, f3⟩, _⟩ | ⟨⟨f1, f2, f3⟩, _⟩ <;>
    rcases h3 with ⟨⟨g1, g2, g3⟩, _⟩ | ⟨⟨g1, g2, g3⟩, _⟩ <;>
    · subst_vars; simp
  · intro hab hbc
    simp only [Prod.mk.injEq] at h1 h2 h3
    rcases h1 with ⟨⟨e1, e2, e3⟩, _⟩ | ⟨⟨e1, e2, e3⟩, hl1⟩
    · subst e1 e2 e3
      rcases h2 with ⟨⟨f1, f2, f3⟩, _⟩ | ⟨⟨f1, f2, f3⟩, hl2⟩
      · subst f1 f2 f3
        rcases h3 with ⟨⟨g1, g2, g3⟩, _⟩ | ⟨⟨g1, g2, g3⟩, hl3⟩
        · subst g1 g2 g3; rfl
        · exact absurd hab (not_le.mpr hl3)
      · exact absurd hbc (not_le.mpr hl2)
    · exact absurd hab (not_le.mpr hl1)

theorem medianAdjacent_spec (R : Refines data view key ok) (s : σ) (hs : ok s) (a swaps : Int)
    (ha : 1 ≤ a) (ha2 : a + 1 < (view s).length) :
    Runs (medianAdjacent data a swaps s) (fun r =>
      (a - 1 ≤ r.1 ∧ r.1 ≤ a + 1)
      ∧ (key (getI (view s) (a - 1)) ≤ key (getI (view s) a) →
          key (getI (view s) a) ≤ key (getI (view s) (a + 1)) → r = (a, swaps))) := by
  unfold medianAdjacent
  refine (median_spec R s hs (a - 1) a (a + 1) swaps (by omega) (by omega) (by omega)
    (by omega) (by omega) (by omega)).mono ?_
  rintro r ⟨h1, h2⟩
  exact ⟨by omega, h2⟩

theorem choosePivot_spec (R : Refines data view key ok) (a b : Int) (s : σ) (hs : ok s)
    (h0 : 0 ≤ a) (hab : a < b) (hb : b ≤ (view s).length) :
    Runs (choosePivot data a b s) (fun r =>
      a ≤ r.1 ∧ r.1 < b
      ∧ (SortedIn key a b (view s) → r.2 = sortedHint.increasingHint)) := by
  unfold choosePivot
  simp only []
  have hd : (b - a).tdiv 4 = (b - a) / 4 := Int.tdiv_eq_ediv (by omega) (by omega)
  rw [hd]
  have hfin : ∀ (j swaps : Int), a ≤ j → j < b →
      (SortedIn key a b (view s) → swaps = 0) →
      Runs (if swaps = 0 then pure (j, sortedHint.increasingHint)
        else if swaps = 4 * 3 then pure (j, sortedHint.decreasingHint)
        else (pure (j, sortedHint.unknownHint) : Except Panic (Int × sortedHint)))
        (fun r => a ≤ r.1 ∧ r.1 < b
          ∧ (SortedIn key a b (view s) → r.2 = sortedHint.increasingHint)) := by
    intro j swaps hj1 hj2 hsw
    by_cases e0 : swaps = 0
    · rw [if_pos e0]; exact Runs.pure ⟨hj1, hj2, fun _ => rfl⟩
    · rw [if_neg e0]
      split_ifs
      · exact Runs.pure ⟨hj1, hj2, fun h => absurd (hsw h) e0⟩
      · exact Runs.pure ⟨hj1, hj2, fun h => absurd (hsw h) e0⟩
  by_cases h8 : b - a ≥ 8
  · rw [if_pos h8]
    have hmid : Runs (if b - a ≥ 50 then do
          let (i, swaps) ← medianAdjacent data (a + (b - a) / 4 * 1) 0 s
          let (j, swaps) ← medianAdjacent data (a + (b - a) / 4 * 2) swaps s
          let (k, swaps) ← medianAdjacent data (a + (b - a) / 4 * 3) swaps s
          pure (i, j, k, swaps)
        else (pure (a + (b - a) / 4 * 1, a + (b - a) / 4 * 2, a + (b - a) / 4 * 3, 0)
          : Except Panic (Int × Int × Int × Int)))
        (fun r => a ≤ r.1 ∧ r.1 < b ∧ a ≤ r.2.1 ∧ r.2.1 < b ∧ a ≤ r.2.2.1 ∧ r.2.2.1 < b
          ∧ (SortedIn key a b (view s) →
              r = (a + (b - a) / 4 * 1, a + (b - a) / 4 * 2, a + (b - a) / 4 * 3, 0))) := by
      by_cases h50 : b - a ≥ 50
      · rw [if_pos h50]
        refine (medianAdjacent_spec R s hs (a + (b - a) / 4 * 1) 0 (by omega)
          (by omega)).bind ?_
        rintro ⟨i, w1⟩ ⟨hi, hi2⟩
        simp only [] at hi hi2 ⊢
        refine (medianAdjacent_spec R s hs (a + (b - a) / 4 * 2) w1 (by omega)
          (by omega)).bind ?_
        rintro ⟨j, w2⟩ ⟨hj, hj2⟩
        simp only [] at hj hj2 ⊢
        refine (medianAdjacent_spec R s hs (a + (b - a) / 4 * 3) w2 (by omega)
          (by omega)).bind ?_
        rintro ⟨k, w3⟩ ⟨hk, hk2⟩
        simp only [] at hk hk2 ⊢
        refine Runs.pure ?_
        dsimp only
        refine ⟨by omega, by omega, by omega, by omega, by omega, by omega, ?_⟩
        intro hso
        have e1 := hi2 (hso _ _ (by omega) (by omega) (by omega))
          (hso _ _ (by omega) (by omega) (by omega))
        have e2 := hj2 (hso _ _ (by omega) (by omega) (by omega))
          (hso _ _ (by omega) (by omega) (by omega))
        have e3 := hk2 (hso _ _ (by omega) (by omega) (by omega))
          (hso _ _ (by omega) (by omega) (by omega))
        simp only [Prod.mk.injEq] at e1 e2 e3 ⊢
        obtain ⟨e1a, e1b⟩ := e1
        obtain ⟨e2a, e2b⟩ := e2
        obtain ⟨e3a, e3b⟩ := e3
        subst e1a e1b e2a e2b e3a e3b
        exact ⟨rfl, rfl, rfl, rfl⟩
      · rw [if_neg h50]
        exact Runs.pure ⟨by simp only []; omega, by simp only []; omega,
          by simp only []; omega, by simp only []; omega, by simp only []; omega,
          by simp only []; omega, fun _ => rfl⟩
    refine @Runs.bind _ _ _ _
      (fun r => a ≤ r.1 ∧ r.1 < b ∧ (SortedIn key a b (view s) → r.2 = 0)) _
      (Runs.bind hmid ?_) ?_
    · rintro ⟨i, j, k, w⟩ ⟨hi1, hi2, hj1, hj2, hk1, hk2, hso⟩
      simp only [] at hi1 hi2 hj1 hj2 hk1 hk2 hso ⊢
      refine (median_spec R s hs i j k w (by omega) (by omega) (by omega) (by omega)
        (by omega) (by omega)).mono ?_
      rintro r ⟨h1, h2⟩
      refine ⟨by omega, by omega, ?_⟩
      intro hsorted
      have e := hso hsorted
      simp only [Prod.mk.injEq] at e
      obtain ⟨ei, ej, ek, ew⟩ := e
      subst ei ej ek ew
      have := h2 (hsorted _ _ (by omega) (by omega) (by omega))
        (hsorted _ _ (by omega) (by omega) (by omega))
      rw [this]
    · rintro ⟨j, w⟩ ⟨hj1, hj2, hw⟩
      exact hfin j w hj1 hj2 hw
  · rw [if_neg h8]
    simp only [ok_bind, pure_bind]
    exact hfin _ 0 (by omega) (by omega) (fun _ => rfl)

end Helpers

end Osm


namespace Osm

/-! ## partition -/

section Partition

variable {σ β K : Type} [Inhabited β] [LinearOrder K]
  {data : Interface σ} {view : σ → List β} {key : β → K} {ok : σ → Prop}

open sort

theorem partition_up_spec (R : Refines data view key ok) (a j : Int) (s : σ) (hs : ok s)
    (h0 : 0 ≤ a) (hal : a < (view s).length) (hjl : j < (view s).length) :
    ∀ (fuel : Nat) (i : Int), 0 ≤ i → i ≤ j + 1 → j - i + 1 < fuel →
      Runs (partition.up data a j fuel i s) (fun i2 =>
        i ≤ i2 ∧ i2 ≤ j + 1
        ∧ (∀ t, i ≤ t → t < i2 → key (getI (view s) t) < key (getI (view s) a))
        ∧ (i2 ≤ j → key (getI (view s) a) ≤ key (getI (view s) i2))) := by
  intro fuel
  induction fuel with
  | zero => intro i _ _ hf; omega
  | succ fuel ih =>
    intro i hi hij hf
    unfold partition.up
    by_cases hle : i ≤ j
    · rw [if_pos hle, R.less_eq s i a hs hi (by omega) h0 hal, ok_bind]
      by_cases hlt : key (getI (view s) i) < key (getI (view s) a)
      · rw [decide_eq_true hlt, if_pos rfl]
        refine (ih (i + 1) (by omega) (by omega) (by omega)).mono ?_
        rintro i2 ⟨h1, h2, h3, h4⟩
        refine ⟨by omega, h2, ?_, h4⟩
        intro t ht1 ht2
        by_cases e : t = i
        · rw [e]; exact hlt
        · exact h3 t (by omega) ht2
      · rw [decide_eq_false hlt, if_neg (by simp)]
        exact Runs.pure ⟨le_refl _, by omega, fun t h1 h2 => by omega,
          fun _ => not_lt.mp hlt⟩
    · rw [if_neg hle]
      exact Runs.pure ⟨le_refl _, by omega, fun t h1 h2 => by omega, fun h => by omega⟩

theorem partition_down_spec (R : Refines data view key ok) (a i : Int) (s : σ) (hs : ok s)
    (h0 : 0 ≤ a) (hal : a < (view s).length) (hi : 1 ≤ i) :
    ∀ (fuel : Nat) (j : Int), i - 1 ≤ j → j < (view s).length → j - i + 1 < fuel →
      Runs (partition.down data a i fuel j s) (fun j2 =>
        i - 1 ≤ j2 ∧ j2 ≤ j
        ∧ (∀ t, j2 < t → t ≤ j → key (getI (view s) a) ≤ key (getI (view s) t))
        ∧ (i ≤ j2 → key (getI (view s) j2) < key (getI (view s) a))) := by
  intro fuel
  induction fuel with
  | zero => intro j _ _ hf; omega
  | succ fuel ih =>
    intro j hij hjl hf
    unfold partition.down
    by_cases hle : i ≤ j
    · rw [if_pos hle, R.less_eq s j a hs (by omega) hjl h0 hal, ok_bind]
      by_cases hlt : key (getI (view s) j) < key (getI (view s) a)
      · rw [decide_eq_true hlt, if_pos rfl]
        exact Runs.pure ⟨by omega, le_refl _, fun t h1 h2 => by omega, fun _ => hlt⟩
      · rw [decide_eq_false hlt, if_neg (by simp)]
        refine (ih (j - 1) (by omega) (by omega) (by omega)).mono ?_
        rintro j2 ⟨h1, h2, h3, h4⟩
        refine ⟨h1, by omega, ?_, h4⟩
        intro t ht1 ht2
        by_cases e : t = j
        · rw [e]; exact not_lt.mp hlt
        · exact h3 t ht1 (by omega)
    · rw [if_neg hle]
      exact Runs.pure ⟨by omega, le_refl _, fun t h1 h2 => by omega, fun h => by omega⟩

theorem partition_loop_spec (R : Refines data view key ok) (a b : Int) (h0 : 0 ≤ a) :
    ∀ (fuel : Nat) (i j : Int) (s : σ), ok s → a < i → i ≤ j + 1 → j < b →
      b ≤ (view s).length → j - i + 1 < fuel →
      (∀ t, a < t → t < i → key (getI (view s) t) < key (getI (view s) a)) →
      (∀ t, j < t → t < b → key (getI (view s) a) ≤ key (getI (view s) t)) →
      Runs (partition.loop data a fuel i j s) (fun r =>
        ok r.2 ∧ SwapsIn (a + 1) b (view s) (view r.2) ∧ a ≤ r.1 ∧ r.1 < b
        ∧ (∀ t, a < t → t ≤ r.1 → key (getI (view r.2) t) < key (getI (view r.2) a))
        ∧ (∀ t, r.1 < t → t < b → key (getI (view r.2) a) ≤ key (getI (view r.2) t))) := by
  intro fuel
  induction fuel with
  | zero => intro i j s _ _ _ _ _ hf; omega
  | succ fuel ih =>
    intro i j s hs hai hij hjb hbl hf hL hU
    unfold partition.loop
    refine (partition_up_spec R a j s hs h0 (by omega) (by omega) _ i (by omega) hij
      (by omega)).bind ?_
    rintro i2 ⟨hi1, hi2, hi3, hi4⟩
    refine (partition_down_spec R a i2 s hs h0 (by omega) (by omega) _ j (by omega)
      (by omega) (by omega)).bind ?_
    rintro j2 ⟨hj1, hj2, hj3, hj4⟩
    by_cases hgt : i2 > j2
    · rw [if_pos hgt]
      refine Runs.pure ⟨hs, SwapsIn.refl _, by show a ≤ j2; omega, by show j2 < b; omega, ?_, ?_⟩
      · intro t ht1 ht2
        by_cases e : t < i
        · exact hL t ht1 e
        · exact hi3 t (by omega) (by show t < i2; have : t ≤ j2 := ht2; omega)
      · intro t ht1 ht2
        have ht1 : j2 < t := ht1
        by_cases e : j < t
        · exact hU t e ht2
        · exact hj3 t ht1 (by omega)
    · rw [if_neg hgt]
      have hlt1 := hj4 (by omega)
      have hle1 := hi4 (by omega)
      have hne : i2 ≠ j2 := by
        intro e
        rw [e] at hle1
        exact absurd hlt1 (not_lt.mpr hle1)
      obtain ⟨s2, hsw, hok2, hv2⟩ :=
        R.swap_eq s i2 j2 hs (by omega) (by omega) (by omega) (by omega)
      rw [hsw, ok_bind]
      have hlen : (view s2).length = (view s).length := by rw [hv2, length_swapI]
      have hg : ∀ t, 0 ≤ t → getI (view s2) t
          = if t = j2 then getI (view s) i2 else if t = i2 then getI (view s) j2
            else getI (view s) t := by
        intro t ht
        rw [hv2, getI_swapI _ i2 j2 t (by omega) (by omega) (by omega) (by omega) ht]
      have hga : getI (view s2) a = getI (view s) a := by
        rw [hg a h0, if_neg (by omega), if_neg (by omega)]
      refine (ih (i2 + 1) (j2 - 1) s2 hok2 (by omega) (by omega) (by omega) (by omega)
        (by omega) ?_ ?_).mono ?_
      · intro t ht1 ht2
        rw [hga, hg t (by omega), if_neg (by omega)]
        by_cases e : t = i2
        · rw [if_pos e]; exact hlt1
        · rw [if_neg e]
          by_cases e2 : t < i
          · exact hL t ht1 e2
          · exact hi3 t (by omega) (by omega)
      · intro t ht1 ht2
        rw [hga, hg t (by omega)]
        by_cases e : t = j2
        · rw [if_pos e]; exact hle1
        · rw [if_neg e, if_neg (by omega)]
          by_cases e2 : j < t
          · exact hU t e2 ht2
          · exact hj3 t (by omega) (by omega)
      · rintro ⟨jf, s3⟩ ⟨hok3, hsw3, h1, h2, h3, h4⟩
        refine ⟨hok3, SwapsIn.trans ?_ hsw3, h1, h2, h3, h4⟩
        rw [hv2]
        exact SwapsIn.one _ _ _ (by omega) hbl (by omega) (by omega) (by omega) (by omega)

theorem partition_finish (R : Refines data view key ok) (a b j : Int) (s : σ) (hs : ok s)
    (h0 : 0 ≤ a) (hbl : b ≤ (view s).length) (haj : a ≤ j) (hjb : j < b)
    (hL : ∀ t, a < t → t ≤ j → key (getI (view s) t) < key (getI (view s) a))
    (hU : ∀ t, j < t → t < b → key (getI (view s) a) ≤ key (getI (view s) t)) :
    Runs (data.Swap s j a) (fun s2 =>
      ok s2 ∧ SwapsIn a b (view s) (view s2)
      ∧ (∀ t, a ≤ t → t < j → key (getI (view s2) t) < key (getI (view s2) j))
      ∧ (∀ t, j < t → t < b → key (getI (view s2) j) ≤ key (getI (view s2) t))) := by
  obtain ⟨s2, hsw, hok2, hv2⟩ := R.swap_eq s j a hs (by omega) (by omega) (by omega) (by omega)
  rw [hsw]
  have hg : ∀ t, 0 ≤ t → getI (view s2) t
      = if t = a then getI (view s) j else if t = j then getI (view s) a
        else getI (view s) t := by
    intro t ht
    rw [hv2, getI_swapI _ j a t (by omega) (by omega) (by omega) (by omega) ht]
  have hgj : getI (view s2) j = getI (view s) a := by
    rw [hg j (by omega)]
    by_cases e : j = a
    · rw [if_pos e, e]
    · rw [if_neg e, if_pos rfl]
  refine Runs.ok ⟨hok2, ?_, ?_, ?_⟩
  · rw [hv2]
    exact SwapsIn.one _ _ _ h0 hbl (by omega) (by omega) (by omega) (by omega)
  · intro t ht1 ht2
    rw [hgj, hg t (by omega)]
    by_cases e : t = a
    · rw [if_pos e]
      exact hL j (by omega) (le_refl _)
    · rw [if_neg e, if_neg (by omega)]
      exact hL t (by omega) (by omega)
  · intro t ht1 ht2
    rw [hgj, hg t (by omega), if_neg (by omega), if_neg (by omega)]
    exact hU t ht1 ht2

theorem partition_spec (R : Refines data view key ok) (a b pivot : Int) (s : σ) (hs : ok s)
    (h0 : 0 ≤ a) (hap : a ≤ pivot) (hpb : pivot < b) (hbl : b ≤ (view s).length) :
    Runs (partition data a b pivot s) (fun r =>
      ok r.2.2 ∧ SwapsIn a b (view s) (view r.2.2) ∧ a ≤ r.1 ∧ r.1 < b
      ∧ (∀ t, a ≤ t → t < r.1 →
          key (getI (view r.2.2) t) < key (getI (view r.2.2) r.1))
      ∧ (∀ t, r.1 < t → t < b →
          key (getI (view r.2.2) r.1) ≤ key (getI (view r.2.2) t))) := by
  unfold partition
  obtain ⟨s1, hsw1, hok1, hv1⟩ :=
    R.swap_eq s a pivot hs (by omega) (by omega) (by omega) (by omega)
  rw [hsw1, ok_bind]
  have hlen1 : (view s1).length = (view s).length := by rw [hv1, length_swapI]
  have hS1 : SwapsIn a b (view s) (view s1) := by
    rw [hv1]; exact SwapsIn.one _ _ _ h0 hbl (by omega) (by omega) (by omega) (by omega)
  simp only []
  refine (partition_up_spec R a (b - 1) s1 hok1 h0 (by omega) (by omega) _ (a + 1) (by omega)
    (by omega) (by omega)).bind ?_
  rintro i2 ⟨hi1, hi2, hi3, hi4⟩
  refine (partition_down_spec R a i2 s1 hok1 h0 (by omega) (by omega) _ (b - 1) (by omega)
    (by omega) (by omega)).bind ?_
  rintro j2 ⟨hj1, hj2, hj3, hj4⟩
  by_cases hgt : i2 > j2
  · rw [if_pos hgt]
    refine (partition_finish R a b j2 s1 hok1 h0 (by omega) (by omega) (by omega) ?_ ?_).bind ?_
    · intro t ht1 ht2
      exact hi3 t (by omega) (by omega)
    · intro t ht1 ht2
      exact hj3 t ht1 (by omega)
    · rintro s2 ⟨hok2, hsw2, h3, h4⟩
      exact Runs.pure ⟨hok2, hS1.trans hsw2, by show a ≤ j2; omega, by show j2 < b; omega,
        h3, h4⟩
  · rw [if_neg hgt]
    have hlt1 := hj4 (by omega)
    have hle1 := hi4 (by omega)
    have hne : i2 ≠ j2 := by
      intro e
      rw [e] at hle1
      exact absurd hlt1 (not_lt.mpr hle1)
    obtain ⟨s2, hsw, hok2, hv2⟩ :=
      R.swap_eq s1 i2 j2 hok1 (by omega) (by omega) (by omega) (by omega)
    rw [hsw, ok_bind]
    have hlen : (view s2).length = (view s1).length := by rw [hv2, length_swapI]
    have hg : ∀ t, 0 ≤ t → getI (view s2) t
        = if t = j2 then getI (view s1) i2 else if t = i2 then getI (view s1) j2
          else getI (view s1) t := by
      intro t ht
      rw [hv2, getI_swapI _ i2 j2 t (by omega) (by omega) (by omega) (by omega) ht]
    have hga : getI (view s2) a = getI (view s1) a := by
      rw [hg a h0, if_neg (by omega), if_neg (by omega)]
    have hS2 : SwapsIn a b (view s1) (view s2) := by
      rw [hv2]
      exact SwapsIn.one _ _ _ h0 (by omega) (by omega) (by omega) (by omega) (by omega)
    refine (partition_loop_spec R a b h0 _ (i2 + 1) (j2 - 1) s2 hok2 (by omega) (by omega)
      (by omega) (by omega) (by omega) ?_ ?_).bind ?_
    · intro t ht1 ht2
      rw [hga, hg t (by omega), if_neg (by omega)]
      by_cases e : t = i2
      · rw [if_pos e]; exact hlt1
      · rw [if_neg e]
        exact hi3 t (by omega) (by omega)
    · intro t ht1 ht2
      rw [hga, hg t (by omega)]
      by_cases e : t = j2
      · rw [if_pos e]; exact hle1
      · rw [if_neg e, if_neg (by omega)]
        exact hj3 t (by omega) (by omega)
    · rintro ⟨jf, s3⟩ ⟨hok3, hsw3, h1, h2, h3, h4⟩
      simp only [] at hok3 hsw3 h1 h2 h3 h4 ⊢
      have hlen3 := hsw3.length_eq
      refine (partition_finish R a b jf s3 hok3 h0 (by omega) h1 h2 h3 h4).bind ?_
      rintro s4 ⟨hok4, hsw4, h5, h6⟩
      refine Runs.pure ⟨hok4, ?_, h1, h2, h5, h6⟩
      exact (hS1.trans hS2).trans
        ((hsw3.widen h0 (by omega) (le_refl _) (by omega)).trans hsw4)

end Partition

end Osm


namespace Osm

/-! ## partitionEqual -/

section PartitionEqual

variable {σ β K : Type} [Inhabited β] [LinearOrder K]
  {data : Interface σ} {view : σ → List β} {key : β → K} {ok : σ → Prop}

open sort

theorem partitionEqual_up_spec (R : Refines data view key ok) (a j : Int) (s : σ)
    (hs : ok s) (h0 : 0 ≤ a) (hal : a < (view s).length) (hjl : j < (view s).length) :
    ∀ (fuel : Nat) (i : Int), 0 ≤ i → i ≤ j + 1 → j - i + 1 < fuel →
      Runs (partitionEqual.up data a j fuel i s) (fun i2 =>
        i ≤ i2 ∧ i2 ≤ j + 1
        ∧ (∀ t, i ≤ t → t < i2 → key (getI (view s) t) ≤ key (getI (view s) a))
        ∧ (i2 ≤ j → key (getI (view s) a) < key (getI (view s) i2))) := by
  intro fuel
  induction fuel with
  | zero => intro i _ _ hf; omega
  | succ fuel ih =>
    intro i hi hij hf
    unfold partitionEqual.up
    by_cases hle : i ≤ j
    · rw [if_pos hle, R.less_eq s a i hs h0 hal hi (by omega), ok_bind]
      by_cases hlt : key (getI (view s) a) < key (getI (view s) i)
      · rw [decide_eq_true hlt, if_pos rfl]
        exact Runs.pure ⟨le_refl _, by omega, fun t h1 h2 => by omega, fun _ => hlt⟩
      · rw [decide_eq_false hlt, if_neg (by simp)]
        refine (ih (i + 1) (by omega) (by omega) (by omega)).mono ?_
        rintro i2 ⟨h1, h2, h3, h4⟩
        refine ⟨by omega, h2, ?_, h4⟩
        intro t ht1 ht2
        by_cases e : t = i
        · rw [e]; exact not_lt.mp hlt
        · exact h3 t (by omega) ht2
    · rw [if_neg hle]
      exact Runs.pure ⟨le_refl _, by omega, fun t h1 h2 => by omega, fun h => by omega⟩

theorem partitionEqual_down_spec (R : Refines data view key ok) (a i : Int) (s : σ)
    (hs : ok s) (h0 : 0 ≤ a) (hal : a < (view s).length) (hi : 1 ≤ i) :
    ∀ (fuel : Nat) (j : Int), i - 1 ≤ j → j < (view s).length → j - i + 1 < fuel →
      Runs (partitionEqual.down data a i fuel j s) (fun j2 =>
        i - 1 ≤ j2 ∧ j2 ≤ j
        ∧ (∀ t, j2 < t → t ≤ j → key (getI (view s) a) < key (getI (view s) t))
        ∧ (i ≤ j2 → key (getI (view s) j2) ≤ key (getI (view s) a))) := by
  intro fuel
  induction fuel with
  | zero => intro j _ _ hf; omega
  | succ fuel ih =>
    intro j hij hjl hf
    unfold partitionEqual.down
    by_cases hle : i ≤ j
    · rw [if_pos hle, R.less_eq s a j hs h0 hal (by omega) hjl, ok_bind]
      by_cases hlt : key (getI (view s) a) < key (getI (view s) j)
      · rw [decide_eq_true hlt, if_pos rfl]
        refine (ih (j - 1) (by omega) (by omega) (by omega)).mono ?_
        rintro j2 ⟨h1, h2, h3, h4⟩
        refine ⟨h1, by omega, ?_, h4⟩
        intro t ht1 ht2
        by_cases e : t = j
        · rw [e]; exact hlt
        · exact h3 t ht1 (by omega)
      · rw [decide_eq_false hlt, if_neg (by simp)]
        exact Runs.pure ⟨by omega, le_refl _, fun t h1 h2 => by omega,
          fun _ => not_lt.mp hlt⟩
    · rw [if_neg hle]
      exact Runs.pure ⟨by omega, le_refl _, fun t h1 h2 => by omega, fun h => by omega⟩

theorem partitionEqual_loop_spec (R : Refines data view key ok) (a b : Int) (h0 : 0 ≤ a) :
    ∀ (fuel : Nat) (i j : Int) (s : σ), ok s → a < i → i ≤ j + 1 → j < b →
      b ≤ (view s).length → j - i + 1 < fuel →
      (∀ t, a < t → t < i → key (getI (view s) t) ≤ key (getI (view s) a)) →
      (∀ t, j < t → t < b → key (getI (view s) a) < key (getI (view s) t)) →
      Runs (partitionEqual.loop data a fuel i j s) (fun r =>
        ok r.2 ∧ SwapsIn (a + 1) b (view s) (view r.2) ∧ a < r.1 ∧ r.1 ≤ b
        ∧ (∀ t, a < t → t < r.1 → key (getI (view r.2) t) ≤ key (getI (view r.2) a))
        ∧ (∀ t, r.1 ≤ t → t < b → key (getI (view r.2) a) < key (getI (view r.2) t))) := by
  intro fuel
  induction fuel with
  | zero => intro i j s _ _ _ _ _ hf; omega
  | succ fuel ih =>
    intro i j s hs hai hij hjb hbl hf hL hU
    unfold partitionEqual.loop
    refine (partitionEqual_up_spec R a j s hs h0 (by omega) (by omega) _ i (by omega) hij
      (by omega)).bind ?_
    rintro i2 ⟨hi1, hi2, hi3, hi4⟩
    refine (partitionEqual_down_spec R a i2 s hs h0 (by omega) (by omega) _ j (by omega)
      (by omega) (by omega)).bind ?_
    rintro j2 ⟨hj1, hj2, hj3, hj4⟩
    by_cases hgt : i2 > j2
    · rw [if_pos hgt]
      refine Runs.pure ⟨hs, SwapsIn.refl _, by show a < i2; omega, by show i2 ≤ b; omega,
        ?_, ?_⟩
      · intro t ht1 ht2
        have ht2 : t < i2 := ht2
        by_cases e : t < i
        · exact hL t ht1 e
        · exact hi3 t (by omega) ht2
      · intro t ht1 ht2
        have ht1 : i2 ≤ t := ht1
        by_cases e : j < t
        · exact hU t e ht2
        · exact hj3 t (by omega) (by omega)
    · rw [if_neg hgt]
      have hle1 := hj4 (by omega)
      have hlt1 := hi4 (by omega)
      have hne : i2 ≠ j2 := by
        intro e
        rw [e] at hlt1
        exact absurd hlt1 (not_lt.mpr hle1)
      obtain ⟨s2, hsw, hok2, hv2⟩ :=
        R.swap_eq s i2 j2 hs (by omega) (by omega) (by omega) (by omega)
      rw [hsw, ok_bind]
      have hlen : (view s2).length = (view s).length := by rw [hv2, length_swapI]
      have hg : ∀ t, 0 ≤ t → getI (view s2) t
          = if t = j2 then getI (view s) i2 else if t = i2 then getI (view s) j2
            else getI (view s) t := by
        intro t ht
        rw [hv2, getI_swapI _ i2 j2 t (by omega) (by omega) (by omega) (by omega) ht]
      have hga : getI (view s2) a = getI (view s) a := by
        rw [hg a h0, if_neg (by omega), if_neg (by omega)]
      refine (ih (i2 + 1) (j2 - 1) s2 hok2 (by omega) (by omega) (by omega) (by omega)
        (by omega) ?_ ?_).mono ?_
      · intro t ht1 ht2
        rw [hga, hg t (by omega), if_neg (by omega)]
        by_cases e : t = i2
        · rw [if_pos e]; exact hle1
        · rw [if_neg e]
          by_cases e2 : t < i
          · exact hL t ht1 e2
          · exact hi3 t (by omega) (by omega)
      · intro t ht1 ht2
        rw [hga, hg t (by omega)]
        by_cases e : t = j2
        · rw [if_pos e]; exact hlt1
        · rw [if_neg e, if_neg (by omega)]
          by_cases e2 : j < t
          · exact hU t e2 ht2
          · exact hj3 t (by omega) (by omega)
      · rintro ⟨jf, s3⟩ ⟨hok3, hsw3, h1, h2, h3, h4⟩
        refine ⟨hok3, SwapsIn.trans ?_ hsw3, h1, h2, h3, h4⟩
        rw [hv2]
        exact SwapsIn.one _ _ _ (by omega) hbl (by omega) (by omega) (by omega) (by omega)

theorem partitionEqual_spec (R : Refines data view key ok) (a b pivot : Int) (s : σ)
    (hs : ok s) (h0 : 0 ≤ a) (hap : a ≤ pivot) (hpb : pivot < b)
    (hbl : b ≤ (view s).length) :
    Runs (partitionEqual data a b pivot s) (fun r =>
      ok r.2 ∧ SwapsIn a b (view s) (view r.2) ∧ a < r.1 ∧ r.1 ≤ b
      ∧ (∀ t, a ≤ t → t < r.1 →
          key (getI (view r.2) t) ≤ key (getI (view s) pivot))
      ∧ (∀ t, r.1 ≤ t → t < b →
          key (getI (view s) pivot) < key (getI (view r.2) t))) := by
  unfold partitionEqual
  obtain ⟨s1, hsw1, hok1, hv1⟩ :=
    R.swap_eq s a pivot hs (by omega) (by omega) (by omega) (by omega)
  rw [hsw1, ok_bind]
  have hlen1 : (view s1).length = (view s).length := by rw [hv1, length_swapI]
  have hS1 : SwapsIn a b (view s) (view s1) := by
    rw [hv1]; exact SwapsIn.one _ _ _ h0 hbl (by omega) (by omega) (by omega) (by omega)
  have hpa : getI (view s1) a = getI (view s) pivot := by
    rw [hv1, getI_swapI _ a pivot a (by omega) (by omega) (by omega) (by omega) h0]
    by_cases e : a = pivot
    · rw [if_pos e, e]
    · rw [if_neg e, if_pos rfl]
  refine (partitionEqual_loop_spec R a b h0 _ (a + 1) (b - 1) s1 hok1 (by omega) (by omega)
    (by omega) (by omega) (by omega) (fun t h1 h2 => by omega)
    (fun t h1 h2 => by omega)).mono ?_
  rintro ⟨mid, s2⟩ ⟨hok2, hsw2, h1, h2, h3, h4⟩
  simp only [] at hok2 hsw2 h1 h2 h3 h4 ⊢
  have hfa : getI (view s2) a = getI (view s1) a :=
    hsw2.frame a h0 (Or.inl (by omega))
  rw [hfa, hpa] at h3 h4
  refine ⟨hok2, hS1.trans (hsw2.widen h0 (by omega) (le_refl _) (by omega)), h1, h2, ?_, h4⟩
  intro t ht1 ht2
  by_cases e : t = a
  · rw [e, hfa, hpa]
  · exact h3 t (by omega) ht2

end PartitionEqual

end Osm


namespace Osm

/-! ## partialInsertionSort -/

section PartialInsertion

variable {σ β K : Type} [Inhabited β] [LinearOrder K]
  {data : Interface σ} {view : σ → List β} {key : β → K} {ok : σ → Prop}

open sort

theorem SortedIn_of_adjacent (key : β → K) (a b : Int) (l : List β)
    (h : ∀ t, a < t → t < b → key (getI l (t - 1)) ≤ key (getI l t)) : SortedIn key a b l := by
  intro i j hai hij hjb
  obtain ⟨n, hn⟩ : ∃ n : Nat, j = i + n := ⟨(j - i).toNat, by omega⟩
  subst hn
  induction n with
  | zero => simp
  | succ n ih =>
    have h1 := ih (by omega) (by omega)
    have h2 := h (i + (n + 1 : Nat)) (by omega) hjb
    have e : i + ((n + 1 : Nat) : Int) - 1 = i + (n : Int) := by omega
    rw [e] at h2
    exact le_trans h1 h2

theorem partialInsertionSort_scan_spec (R : Refines data view key ok) (b : Int) (s : σ)
    (hs : ok s) (hbl : b ≤ (view s).length) :
    ∀ (fuel : Nat) (i : Int), 1 ≤ i → i ≤ b → b - i < fuel →
      Runs (partialInsertionSort.scan data b fuel i s) (fun i2 =>
        i ≤ i2 ∧ i2 ≤ b
        ∧ (∀ t, i ≤ t → t < i2 → key (getI (view s) (t - 1)) ≤ key (getI (view s) t))
        ∧ (i2 < b → key (getI (view s) i2) < key (getI (view s) (i2 - 1)))) := by
  intro fuel
  induction fuel with
  | zero => intro i _ _ hf; omega
  | succ fuel ih =>
    intro i hi hib hf
    unfold partialInsertionSort.scan
    by_cases hlt : i < b
    · rw [if_pos hlt, R.less_eq s i (i - 1) hs (by omega) (by omega) (by omega) (by omega),
        ok_bind]
      by_cases hk : key (getI (view s) i) < key (getI (view s) (i - 1))
      · rw [decide_eq_true hk, if_pos rfl]
        exact Runs.pure ⟨le_refl _, hib, fun t h1 h2 => by omega, fun _ => hk⟩
      · rw [decide_eq_false hk, if_neg (by simp)]
        refine (ih (i + 1) (by omega) (by omega) (by omega)).mono ?_
        rintro i2 ⟨h1, h2, h3, h4⟩
        refine ⟨by omega, h2, ?_, h4⟩
        intro t ht1 ht2
        by_cases e : t = i
        · rw [e]; exact not_lt.mp hk
        · exact h3 t (by omega) ht2
    · rw [if_neg hlt]
      exact Runs.pure ⟨le_refl _, hib, fun t h1 h2 => by omega, fun h => by omega⟩

theorem shiftLeft_eq_inner (R : Refines data view key ok) (a : Int) (h0 : 0 ≤ a) :
    ∀ (fuel : Nat) (j : Int) (s : σ), ok s → a ≤ j → j < (view s).length →
      (a = 0 ∨ key (getI (view s) (a - 1)) ≤ key (getI (view s) j)) →
      partialInsertionSort.shiftLeft data fuel j s = insertionSort.inner data a fuel j s := by
  intro fuel
  induction fuel with
  | zero => intro j s _ _ _ _; rfl
  | succ fuel ih =>
    intro j s hs haj hjl hlb
    unfold partialInsertionSort.shiftLeft insertionSort.inner
    by_cases hja : j > a
    · rw [if_pos hja, if_pos (by omega : j ≥ 1),
        R.less_eq s j (j - 1) hs (by omega) (by omega) (by omega) (by omega), ok_bind, ok_bind]
      by_cases hk : key (getI (view s) j) < key (getI (view s) (j - 1))
      · rw [decide_eq_true hk, if_pos rfl, if_pos rfl]
        obtain ⟨s2, hsw, hok2, hv2⟩ :=
          R.swap_eq s j (j - 1) hs (by omega) (by omega) (by omega) (by omega)
        rw [hsw, ok_bind, ok_bind]
        have hlen : (view s2).length = (view s).length := by rw [hv2, length_swapI]
        refine ih (j - 1) s2 hok2 (by omega) (by omega) ?_
        by_cases ha0 : a = 0
        · exact Or.inl ha0
        rcases hlb with h | h
        · exact Or.inl h
        · right
          rw [hv2, getI_swapI _ j (j - 1) (a - 1) (by omega) (by omega) (by omega) (by omega)
            (by omega), if_neg (by omega), if_neg (by omega),
            getI_swapI _ j (j - 1) (j - 1) (by omega) (by omega) (by omega) (by omega)
            (by omega), if_pos rfl]
          exact h
      · rw [decide_eq_false hk, if_neg (by simp), if_neg (by simp)]
    · rw [if_neg hja]
      have e : j = a := by omega
      subst e
      by_cases h1 : j ≥ 1
      · rw [if_pos h1, R.less_eq s j (j - 1) hs (by omega) (by omega) (by omega) (by omega),
          ok_bind]
        rcases hlb with h | h
        · omega
        · rw [decide_eq_false (not_lt.mpr h), if_neg (by simp)]
      · rw [if_neg h1]

theorem partialInsertionSort_shiftRight_spec (R : Refines data view key ok) (lo b : Int)
    (h0 : 0 ≤ lo) :
    ∀ (fuel : Nat) (j : Int) (s : σ), ok s → lo < j → j ≤ b → b ≤ (view s).length →
      b - j < fuel →
      Runs (partialInsertionSort.shiftRight data b fuel j s) (fun s2 =>
        ok s2 ∧ SwapsIn lo b (view s) (view s2)) := by
  intro fuel
  induction fuel with
  | zero => intro j s _ _ _ _ hf; omega
  | succ fuel ih =>
    intro j s hs hj hjb hbl hf
    unfold partialInsertionSort.shiftRight
    by_cases hlt : j < b
    · rw [if_pos hlt, R.less_eq s j (j - 1) hs (by omega) (by omega) (by omega) (by omega),
        ok_bind]
      by_cases hk : key (getI (view s) j) < key (getI (view s) (j - 1))
      · rw [decide_eq_true hk, if_pos rfl]
        obtain ⟨s2, hsw, hok2, hv2⟩ :=
          R.swap_eq s j (j - 1) hs (by omega) (by omega) (by omega) (by omega)
        rw [hsw, ok_bind]
        have hlen : (view s2).length = (view s).length := by rw [hv2, length_swapI]
        refine (ih (j + 1) s2 hok2 (by omega) (by omega) (by omega) (by omega)).mono ?_
        rintro s3 ⟨hok3, hsw3⟩
        refine ⟨hok3, SwapsIn.trans ?_ hsw3⟩
        rw [hv2]
        exact SwapsIn.one _ _ _ h0 hbl (by omega) (by omega) (by omega) (by omega)
      · rw [decide_eq_false hk, if_neg (by simp)]
        exact Runs.pure ⟨hs, SwapsIn.refl _⟩
    · rw [if_neg hlt]
      exact Runs.pure ⟨hs, SwapsIn.refl _⟩

theorem partialInsertionSort_steps_spec (R : Refines data view key ok) (a b : Int)
    (h0 : 0 ≤ a) :
    ∀ (fuel : Nat) (j i : Int) (s : σ), ok s → a < i → i ≤ b → b ≤ (view s).length →
      5 - j < fuel → 0 < fuel →
      (a = 0 ∨ ∀ t, a ≤ t → t < b → key (getI (view s) (a - 1)) ≤ key (getI (view s) t)) →
      SortedIn key a i (view s) →
      Runs (partialInsertionSort.steps data a b fuel j i s) (fun r =>
        ok r.2 ∧ SwapsIn a b (view s) (view r.2)
        ∧ (r.1 = true → SortedIn key a b (view r.2))) := by
  intro fuel
  induction fuel with
  | zero => intro j i s _ _ _ _ _ hf; omega
  | succ fuel ih =>
    intro j i s hs hai hib hbl hf _ hlb hso
    unfold partialInsertionSort.steps
    by_cases hj : j < 5
    · rw [if_pos hj]
      refine (partialInsertionSort_scan_spec R b s hs hbl _ i (by omega) hib (by omega)).bind ?_
      rintro i2 ⟨hi1, hi2, hi3, hi4⟩
      have hso2 : SortedIn key a i2 (view s) := by
        apply SortedIn_of_adjacent
        intro t ht1 ht2
        by_cases e : t < i
        · exact hso (t - 1) t (by omega) (by omega) e
        · exact hi3 t (by omega) ht2
      by_cases hib2 : i2 = b
      · rw [if_pos hib2]
        refine Runs.pure ⟨hs, SwapsIn.refl _, fun _ => ?_⟩
        rw [← hib2]; exact hso2
      · rw [if_neg hib2]
        by_cases h50 : b - a < 50
        · rw [if_pos h50]
          exact Runs.pure ⟨hs, SwapsIn.refl _, fun h => by simp at h⟩
        · rw [if_neg h50]
          have hlt1 := hi4 (by omega)
          obtain ⟨s1, hsw1, hok1, hv1⟩ :=
            R.swap_eq s i2 (i2 - 1) hs (by omega) (by omega) (by omega) (by omega)
          rw [hsw1, ok_bind]
          have hlen1 : (view s1).length = (view s).length := by rw [hv1, length_swapI]
          have hS1 : SwapsIn a b (view s) (view s1) := by
            rw [hv1]
            exact SwapsIn.one _ _ _ h0 hbl (by omega) (by omega) (by omega) (by omega)
          have hg : ∀ t, 0 ≤ t → getI (view s1) t
              = if t = i2 - 1 then getI (view s) i2 else if t = i2 then getI (view s) (i2 - 1)
                else getI (view s) t := by
            intro t ht
            rw [hv1, getI_swapI _ i2 (i2 - 1) t (by omega) (by omega) (by omega) (by omega) ht]
          have hlb1 : a = 0 ∨ ∀ t, a ≤ t → t < b →
              key (getI (view s1) (a - 1)) ≤ key (getI (view s1) t) := by
            by_cases ha0 : a = 0
            · exact Or.inl ha0
            rcases hlb with h | h
            · exact Or.inl h
            · right
              rw [hS1.frame (a - 1) (by omega) (Or.inl (by omega))]
              exact hS1.forall_range (fun x => key (getI (view s) (a - 1)) ≤ key x) h
          -- the smaller one is shifted to the left
          have hleft : Runs (if i2 - a ≥ 2 then
                partialInsertionSort.shiftLeft data (i2.toNat + 1) (i2 - 1) s1
              else pure s1) (fun s2 => ok s2 ∧ SwapsIn a i2 (view s1) (view s2)
                ∧ SortedIn key a i2 (view s2)) := by
            by_cases h2 : i2 - a ≥ 2
            · rw [if_pos h2, shiftLeft_eq_inner R a h0 _ (i2 - 1) s1 hok1 (by omega) (by omega)
                (by
                  rcases hlb1 with h | h
                  · exact Or.inl h
                  · exact Or.inr (h (i2 - 1) (by omega) (by omega)))]
              have := insertionSort_inner_spec R a (i2 - 1) h0 (i2.toNat + 1) (i2 - 1) s1 hok1
                (by omega) (le_refl _) (by omega) (by omega)
                (by
                  intro p q hp hpq hq hpi hqi
                  rw [hg p (by omega), hg q (by omega), if_neg hpi, if_neg hqi,
                    if_neg (by omega), if_neg (by omega)]
                  exact hso2 p q hp hpq (by omega))
                (by intro q hq1 hq2; omega)
              simpa using this
            · rw [if_neg h2]
              refine Runs.pure ⟨hok1, SwapsIn.refl _, ?_⟩
              intro p q hp hpq hq
              have : p = q := by omega
              rw [this]
          refine hleft.bind ?_
          rintro s2 ⟨hok2, hsw2, hso3⟩
          have hlen2 := hsw2.length_eq
          have hright : Runs (if b - i2 ≥ 2 then
                partialInsertionSort.shiftRight data b ((b - i2).toNat + 1) (i2 + 1) s2
              else pure s2) (fun s3 => ok s3 ∧ SwapsIn i2 b (view s2) (view s3)) := by
            by_cases h2 : b - i2 ≥ 2
            · rw [if_pos h2]
              exact partialInsertionSort_shiftRight_spec R i2 b (by omega) _ (i2 + 1) s2 hok2
                (by omega) (by omega) (by omega) (by omega)
            · rw [if_neg h2]
              exact Runs.pure ⟨hok2, SwapsIn.refl _⟩
          refine hright.bind ?_
          rintro s3 ⟨hok3, hsw3⟩
          have hlen3 := hsw3.length_eq
          have hS3 : SwapsIn a b (view s) (view s3) :=
            (hS1.trans (hsw2.widen h0 (le_refl _) (by omega) (by omega))).trans
              (hsw3.widen h0 (by omega) (le_refl _) (by omega))
          have hlb3 : a = 0 ∨ ∀ t, a ≤ t → t < b →
              key (getI (view s3) (a - 1)) ≤ key (getI (view s3) t) := by
            by_cases ha0 : a = 0
            · exact Or.inl ha0
            rcases hlb with h | h
            · exact Or.inl h
            · right
              rw [hS3.frame (a - 1) (by omega) (Or.inl (by omega))]
              exact hS3.forall_range (fun x => key (getI (view s) (a - 1)) ≤ key x) h
          have hso4 : SortedIn key a i2 (view s3) := by
            intro p q hp hpq hq
            rw [hsw3.frame p (by omega) (Or.inl (by omega)),
              hsw3.frame q (by omega) (Or.inl (by omega))]
            exact hso3 p q hp hpq hq
          refine (ih (j + 1) i2 s3 hok3 (by omega) hi2 (by omega) (by omega) (by omega) hlb3
            hso4).mono ?_
          rintro ⟨r, s4⟩ ⟨hok4, hsw4, hr⟩
          exact ⟨hok4, hS3.trans hsw4, hr⟩
    · rw [if_neg hj]
      exact Runs.pure ⟨hs, SwapsIn.refl _, fun h => by simp at h⟩

theorem partialInsertionSort_spec (R : Refines data view key ok) (a b : Int) (s : σ)
    (hs : ok s) (h0 : 0 ≤ a) (hab : a < b) (hbl : b ≤ (view s).length)
    (hlb : a = 0 ∨ ∀ t, a ≤ t → t < b →
      key (getI (view s) (a - 1)) ≤ key (getI (view s) t)) :
    Runs (partialInsertionSort data a b s) (fun r =>
      ok r.2 ∧ SwapsIn a b (view s) (view r.2)
      ∧ (r.1 = true → SortedIn key a b (view r.2))) := by
  unfold partialInsertionSort
  refine partialInsertionSort_steps_spec R a b h0 6 0 (a + 1) s hs (by omega) (by omega) hbl
    (by omega) (by omega) hlb ?_
  intro p q hp hpq hq
  have : p = q := by omega
  rw [this]

end PartialInsertion

end Osm


namespace Osm

/-! ## siftDown and heapSort -/

section Heap

variable {σ β K : Type} [Inhabited β] [LinearOrder K]
  {data : Interface σ} {view : σ → List β} {key : β → K} {ok : σ → Prop}

open sort

theorem siftDown_loop_spec (R : Refines data view key ok) (first lo hi : Int)
    (h0 : 0 ≤ first) (hlo : 0 ≤ lo) :
    ∀ (fuel : Nat) (root : Int) (s : σ), ok s → lo ≤ root → first + hi ≤ (view s).length →
      hi - root < fuel → 0 < fuel →
      (∀ r c : Int, lo ≤ r → r ≠ root → (c = 2 * r + 1 ∨ c = 2 * r + 2) → c < hi →
        key (getI (view s) (first + c)) ≤ key (getI (view s) (first + r))) →
      (∀ p c : Int, lo ≤ p → (root = 2 * p + 1 ∨ root = 2 * p + 2) →
        (c = 2 * root + 1 ∨ c = 2 * root + 2) → c < hi →
        key (getI (view s) (first + c)) ≤ key (getI (view s) (first + p))) →
      Runs (siftDown.loop data hi first fuel root s) (fun s2 =>
        ok s2 ∧ SwapsIn (first + lo) (first + hi) (view s) (view s2)
        ∧ HeapFrom key first lo hi (view s2)) := by
  intro fuel
  induction fuel with
  | zero => intro root s _ _ _ _ hf; omega
  | succ fuel ih =>
    intro root s hs hroot hbl hf _ hE hP
    unfold siftDown.loop
    simp only []
    by_cases hch : 2 * root + 1 ≥ hi
    · rw [if_pos hch]
      refine Runs.pure ⟨hs, SwapsIn.refl _, ?_⟩
      intro r c hr hc hchi
      by_cases e : r = root
      · subst e; omega
      · exact hE r c hr e hc hchi
    · rw [if_neg hch]
      have hsel : Runs (if 2 * root + 1 + 1 < hi then do
            if (← data.Less s (first + (2 * root + 1)) (first + (2 * root + 1) + 1)) then
              pure (2 * root + 1 + 1)
            else pure (2 * root + 1)
          else (pure (2 * root + 1) : Except Panic Int)) (fun c =>
            (c = 2 * root + 1 ∨ c = 2 * root + 2) ∧ c < hi
            ∧ ∀ d : Int, (d = 2 * root + 1 ∨ d = 2 * root + 2) → d < hi →
                key (getI (view s) (first + d)) ≤ key (getI (view s) (first + c))) := by
        by_cases h2 : 2 * root + 1 + 1 < hi
        · rw [if_pos h2, R.less_eq s _ _ hs (by omega) (by omega) (by omega) (by omega),
            ok_bind]
          by_cases hk : key (getI (view s) (first + (2 * root + 1)))
              < key (getI (view s) (first + (2 * root + 1) + 1))
          · rw [decide_eq_true hk, if_pos rfl]
            refine Runs.pure ⟨Or.inr (by omega), by omega, ?_⟩
            intro d hd hdh
            rcases hd with e | e
            · rw [e, show first + (2 * root + 1 + 1) = first + (2 * root + 1) + 1 by omega]
              exact le_of_lt hk
            · rw [e]
              have : first + (2 * root + 2) = first + (2 * root + 1 + 1) := by omega
              rw [this]
          · rw [decide_eq_false hk, if_neg (by simp)]
            refine Runs.pure ⟨Or.inl rfl, by omega, ?_⟩
            intro d hd hdh
            rcases hd with e | e
            · rw [e]
            · rw [e]
              have : first + (2 * root + 2) = first + (2 * root + 1) + 1 := by omega
              rw [this]
              exact not_lt.mp hk
        · rw [if_neg h2]
          refine Runs.pure ⟨Or.inl rfl, by omega, ?_⟩
          intro d hd hdh
          rcases hd with e | e
          · rw [e]
          · omega
      refine hsel.bind ?_
      rintro c ⟨hc, hchi, hmax⟩
      rw [R.less_eq s _ _ hs (by omega) (by omega) (by omega) (by omega), ok_bind]
      by_cases hk : key (getI (view s) (first + root)) < key (getI (view s) (first + c))
      · rw [decide_eq_true hk, if_pos rfl]
        obtain ⟨s2, hsw, hok2, hv2⟩ := R.swap_eq s (first + root) (first + c) hs (by omega)
          (by omega) (by omega) (by omega)
        rw [hsw, ok_bind]
        have hlen : (view s2).length = (view s).length := by rw [hv2, length_swapI]
        have hg : ∀ t, 0 ≤ t → getI (view s2) (first + t)
            = if t = c then getI (view s) (first + root)
              else if t = root then getI (view s) (first + c)
              else getI (view s) (first + t) := by
          intro t ht
          rw [hv2, getI_swapI _ (first + root) (first + c) (first + t) (by omega) (by omega)
            (by omega) (by omega) (by omega)]
          by_cases e1 : t = c
          · rw [if_pos e1, if_pos (by omega)]
          · rw [if_neg e1, if_neg (by omega)]
            by_cases e2 : t = root
            · rw [if_pos e2, if_pos (by omega)]
            · rw [if_neg e2, if_neg (by omega)]
        refine (ih c s2 hok2 (by omega) (by omega) (by omega) (by omega) ?_ ?_).mono ?_
        · intro r d hr hrc hd hdh
          rw [hg d (by omega), hg r (by omega), if_neg hrc]
          by_cases e1 : r = root
          · rw [if_pos e1]
            by_cases e2 : d = c
            · rw [if_pos e2]; exact le_of_lt hk
            · rw [if_neg e2, if_neg (by omega)]
              exact hmax d (by omega) hdh
          · rw [if_neg e1]
            by_cases e2 : d = c
            · omega
            · rw [if_neg e2]
              by_cases e3 : d = root
              · rw [if_pos e3]
                exact hP r c hr (by omega) hc hchi
              · rw [if_neg e3]
                exact hE r d hr e1 hd hdh
        · intro p d hp hpc hd hdh
          have hpr : p = root := by omega
          rw [hg d (by omega), hg p (by omega), if_neg (by omega), if_neg (by omega),
            if_neg (by omega), if_pos hpr]
          exact hE c d (by omega) (by omega) hd hdh
        · rintro s3 ⟨hok3, hsw3, hheap⟩
          refine ⟨hok3, SwapsIn.trans ?_ hsw3, hheap⟩
          rw [hv2]
          exact SwapsIn.one _ _ _ (by omega) hbl (by omega) (by omega) (by omega) (by omega)
      · rw [decide_eq_false hk, if_neg (by simp)]
        refine Runs.pure ⟨hs, SwapsIn.refl _, ?_⟩
        intro r d hr hd hdh
        by_cases e : r = root
        · subst e
          exact le_trans (hmax d hd hdh) (not_lt.mp hk)
        · exact hE r d hr e hd hdh

theorem siftDown_spec (R : Refines data view key ok) (first lo hi : Int) (s : σ) (hs : ok s)
    (h0 : 0 ≤ first) (hlo : 0 ≤ lo) (hbl : first + hi ≤ (view s).length)
    (hheap : HeapFrom key first (lo + 1) hi (view s)) :
    Runs (siftDown data lo hi first s) (fun s2 =>
      ok s2 ∧ SwapsIn (first + lo) (first + hi) (view s) (view s2)
      ∧ HeapFrom key first lo hi (view s2)) := by
  unfold siftDown
  refine siftDown_loop_spec R first lo hi h0 hlo _ lo s hs (le_refl _) hbl (by omega)
    (by omega) ?_ ?_
  · intro r c hr hne hc hch
    exact hheap r c (by omega) hc hch
  · intro p c hp hpc hc hch
    omega

theorem heap_root_max (key : β → K) (first n : Int) (l : List β)
    (hheap : HeapFrom key first 0 n l) :
    ∀ r : Int, 0 ≤ r → r < n → key (getI l (first + r)) ≤ key (getI l (first + 0)) := by
  have main : ∀ (m : Nat) (r : Int), 0 ≤ r → r ≤ m → r < n →
      key (getI l (first + r)) ≤ key (getI l (first + 0)) := by
    intro m
    induction m with
    | zero =>
      intro r h1 h2 _
      have : r = 0 := by omega
      rw [this]
    | succ m ih =>
      intro r h1 h2 h3
      by_cases e : r = 0
      · rw [e]
      · have hp := hheap ((r - 1) / 2) r (by omega) (by omega) h3
        exact le_trans hp (ih ((r - 1) / 2) (by omega) (by omega) (by omega))
  intro r h1 h2
  exact main r.toNat r h1 (by omega) h2

theorem heapSort_build_spec (R : Refines data view key ok) (first hi : Int) (h0 : 0 ≤ first) :
    ∀ (fuel : Nat) (i : Int) (s : σ), ok s → -1 ≤ i → first + hi ≤ (view s).length →
      i + 1 < fuel →
      HeapFrom key first (i + 1) hi (view s) →
      Runs (heapSort.build data hi first fuel i s) (fun s2 =>
        ok s2 ∧ SwapsIn first (first + hi) (view s) (view s2)
        ∧ HeapFrom key first 0 hi (view s2)) := by
  intro fuel
  induction fuel with
  | zero => intro i s _ _ _ hf; omega
  | succ fuel ih =>
    intro i s hs hi1 hbl hf hheap
    unfold heapSort.build
    by_cases hge : i ≥ 0
    · rw [if_pos hge]
      refine (siftDown_spec R first i hi s hs h0 hge hbl hheap).bind ?_
      rintro s2 ⟨hok2, hsw2, hheap2⟩
      have hlen := hsw2.length_eq
      have hheap3 : HeapFrom key first (i - 1 + 1) hi (view s2) := by
        have : i - 1 + 1 = i := by omega
        rw [this]; exact hheap2
      refine (ih (i - 1) s2 hok2 (by omega) (by omega) (by omega) hheap3).mono ?_
      rintro s3 ⟨hok3, hsw3, hheap4⟩
      exact ⟨hok3, (hsw2.widen h0 (by omega) (le_refl _) (by omega)).trans hsw3, hheap4⟩
    · rw [if_neg hge]
      have : i + 1 = 0 := by omega
      rw [this] at hheap
      exact Runs.pure ⟨hs, SwapsIn.refl _, hheap⟩

theorem heapSort_pop_spec (R : Refines data view key ok) (first hi : Int) (h0 : 0 ≤ first) :
    ∀ (fuel : Nat) (i : Int) (s : σ), ok s → -1 ≤ i → i < hi →
      first + hi ≤ (view s).length → i + 1 < fuel →
      HeapFrom key first 0 (i + 1) (view s) →
      SortedIn key (first + i + 1) (first + hi) (view s) →
      (∀ p q : Int, 0 ≤ p → p ≤ i → i < q → q < hi →
        key (getI (view s) (first + p)) ≤ key (getI (view s) (first + q))) →
      Runs (heapSort.pop data 0 first fuel i s) (fun s2 =>
        ok s2 ∧ SwapsIn first (first + hi) (view s) (view s2)
        ∧ SortedIn key first (first + hi) (view s2)) := by
  intro fuel
  induction fuel with
  | zero => intro i s _ _ _ _ hf; omega
  | succ fuel ih =>
    intro i s hs hi1 hi2 hbl hf hheap hsorted hsplit
    unfold heapSort.pop
    by_cases hge : i ≥ 0
    · rw [if_pos hge]
      obtain ⟨s1, hsw1, hok1, hv1⟩ := R.swap_eq s first (first + i) hs (by omega)
        (by omega) (by omega) (by omega)
      rw [hsw1, ok_bind]
      have hlen1 : (view s1).length = (view s).length := by rw [hv1, length_swapI]
      have hS1 : SwapsIn first (first + (i + 1)) (view s) (view s1) := by
        rw [hv1]
        exact SwapsIn.one _ _ _ h0 (by omega) (by omega) (by omega) (by omega) (by omega)
      have hg : ∀ t, 0 ≤ t → getI (view s1) (first + t)
          = if t = i then getI (view s) (first + 0)
            else if t = 0 then getI (view s) (first + i)
            else getI (view s) (first + t) := by
        intro t ht
        rw [hv1, getI_swapI _ first (first + i) (first + t) (by omega) (by omega)
          (by omega) (by omega) (by omega)]
        by_cases e1 : t = i
        · rw [if_pos e1, if_pos (by omega)]; simp
        · rw [if_neg e1, if_neg (by omega)]
          by_cases e2 : t = 0
          · rw [if_pos e2, if_pos (by omega)]
          · rw [if_neg e2, if_neg (by omega)]
      have hmax := heap_root_max key first (i + 1) (view s) hheap
      have hheap1 : HeapFrom key first (0 + 1) i (view s1) := by
        intro r c hr hc hci
        rw [hg c (by omega), hg r (by omega), if_neg (by omega), if_neg (by omega),
          if_neg (by omega), if_neg (by omega)]
        exact hheap r c (by omega) hc (by omega)
      refine (siftDown_spec R first 0 i s1 hok1 h0 (le_refl _) (by omega) hheap1).bind ?_
      rintro s2 ⟨hok2, hsw2, hheap2⟩
      have hlen2 := hsw2.length_eq
      -- the element now at position i bounds the prefix and is bounded by the suffix
      have hpre1 : ∀ t : Int, first + 0 ≤ t → t < first + i →
          key (getI (view s1) t) ≤ key (getI (view s) (first + 0)) := by
        intro t ht1 ht2
        have := hg (t - first) (by omega)
        have e : first + (t - first) = t := by omega
        rw [e] at this
        rw [this, if_neg (by omega)]
        by_cases e2 : t - first = 0
        · rw [if_pos e2]; exact hmax i hge (by omega)
        · rw [if_neg e2]
          have := hmax (t - first) (by omega) (by omega)
          rwa [e] at this
      have hpre2 := hsw2.forall_range
        (fun x => key x ≤ key (getI (view s) (first + 0))) hpre1
      have hfr : ∀ t : Int, i ≤ t → t < hi →
          getI (view s2) (first + t) = getI (view s1) (first + t) := by
        intro t ht1 ht2
        exact hsw2.frame (first + t) (by omega) (Or.inr (by omega))
      have hfr1 : ∀ t : Int, i < t → t < hi →
          getI (view s2) (first + t) = getI (view s) (first + t) := by
        intro t ht1 ht2
        rw [hfr t (by omega) ht2, hg t (by omega), if_neg (by omega), if_neg (by omega)]
      have hfi : getI (view s2) (first + i) = getI (view s) (first + 0) := by
        rw [hfr i (le_refl _) hi2, hg i hge, if_pos rfl]
      have hheap3 : HeapFrom key first 0 (i - 1 + 1) (view s2) := by
        have : i - 1 + 1 = i := by omega
        rw [this]; exact hheap2
      refine (ih (i - 1) s2 hok2 (by omega) (by omega) (by omega) (by omega) hheap3 ?_
        ?_).mono ?_
      · intro p q hp hpq hq
        have ep : p = first + (p - first) := by omega
        have eq : q = first + (q - first) := by omega
        by_cases e1 : p = first + i
        · by_cases e2 : q = first + i
          · rw [e1, e2]
          · rw [e1, hfi, eq, hfr1 (q - first) (by omega) (by omega)]
            exact hsplit 0 (q - first) (le_refl _) hge (by omega) (by omega)
        · rw [ep, eq, hfr1 (p - first) (by omega) (by omega),
            hfr1 (q - first) (by omega) (by omega), ← ep, ← eq]
          exact hsorted p q (by omega) hpq hq
      · intro p q hp hpi hiq hq
        by_cases e2 : q = i
        · rw [e2, hfi]
          have := hpre2 (first + p) (by omega) (by omega)
          exact this
        · rw [hfr1 q (by omega) hq]
          have h1 := hpre2 (first + p) (by omega) (by omega)
          exact le_trans h1 (hsplit 0 q (le_refl _) hge (by omega) hq)
      · rintro s3 ⟨hok3, hsw3, hso3⟩
        refine ⟨hok3, ?_, hso3⟩
        exact ((hS1.widen h0 (le_refl _) (by omega) (by omega)).trans
          (hsw2.widen h0 (by omega) (by omega) (by omega))).trans hsw3
    · rw [if_neg hge]
      have e : first + i + 1 = first := by omega
      rw [e] at hsorted
      exact Runs.pure ⟨hs, SwapsIn.refl _, hsorted⟩

theorem heapSort_spec (R : Refines data view key ok) (a b : Int) (s : σ) (hs : ok s)
    (h0 : 0 ≤ a) (hab : a ≤ b) (hbl : b ≤ (view s).length) :
    Runs (heapSort data a b s) (fun s2 =>
      ok s2 ∧ SwapsIn a b (view s) (view s2) ∧ SortedIn key a b (view s2)) := by
  unfold heapSort
  simp only []
  have hd : (b - a - 1).tdiv 2 = if b - a = 0 then 0 else (b - a - 1) / 2 := by
    by_cases e : b - a = 0
    · rw [if_pos e, e]; rfl
    · rw [if_neg e]; exact Int.tdiv_eq_ediv (by omega) (by omega)
  have hba : a + (b - a) = b := by omega
  refine (heapSort_build_spec R a (b - a) h0 _ ((b - a - 1).tdiv 2) s hs ?_
    (by omega) ?_ ?_).bind ?_
  · rw [hd]; split_ifs <;> omega
  · rw [hd]; split_ifs <;> omega
  · intro r c hr hc hch
    rw [hd] at hr
    split_ifs at hr <;> omega
  · rintro s2 ⟨hok2, hsw2, hheap2⟩
    have hlen := hsw2.length_eq
    have hheap3 : HeapFrom key a 0 (b - a - 1 + 1) (view s2) := by
      have : b - a - 1 + 1 = b - a := by omega
      rw [this]; exact hheap2
    refine (heapSort_pop_spec R a (b - a) h0 _ (b - a - 1) s2 hok2 (by omega) (by omega)
      (by omega) (by omega) hheap3 ?_ ?_).mono ?_
    · intro p q hp hpq hq
      omega
    · intro p q hp hpi hiq hq
      omega
    · rintro s3 ⟨hok3, hsw3, hso3⟩
      rw [hba] at hsw2 hsw3 hso3
      exact ⟨hok3, hsw2.trans hsw3, hso3⟩

end Heap

end Osm


namespace Osm

/-! ## pdqsort and Sort -/

section Pdqsort

variable {σ β K : Type} [Inhabited β] [LinearOrder K]
  {data : Interface σ} {view : σ → List β} {key : β → K} {ok : σ → Prop}

open sort

theorem LowerBound.swapsIn {a b : Int} {l1 l2 : List β} (h : LowerBound key a b l1)
    (h0 : 0 ≤ a) (hs : SwapsIn a b l1 l2) : LowerBound key a b l2 := by
  by_cases ha0 : a = 0
  · exact Or.inl ha0
  rcases h with h | h
  · exact Or.inl h
  · right
    rw [hs.frame (a - 1) (by omega) (Or.inl (by omega))]
    exact hs.forall_range (fun x => key (getI l1 (a - 1)) ≤ key x) h

theorem LowerBound.sub {a b b2 : Int} {l : List β} (h : LowerBound key a b l) (hb : b2 ≤ b) :
    LowerBound key a b2 l := by
  rcases h with h | h
  · exact Or.inl h
  · exact Or.inr (fun t h1 h2 => h t h1 (by omega))

theorem SortedIn.join {a mid b : Int} {l : List β} (h1 : SortedIn key a mid l)
    (h2 : SortedIn key (mid + 1) b l)
    (hL : ∀ t, a ≤ t → t < mid → key (getI l t) ≤ key (getI l mid))
    (hU : ∀ t, mid < t → t < b → key (getI l mid) ≤ key (getI l t)) :
    SortedIn key a b l := by
  intro i j hi hij hj
  by_cases e1 : j < mid
  · exact h1 i j hi hij e1
  by_cases e2 : mid < i
  · exact h2 i j (by omega) hij hj
  by_cases e3 : i = mid
  · by_cases e4 : j = mid
    · rw [e3, e4]
    · rw [e3]; exact hU j (by omega) hj
  · by_cases e4 : j = mid
    · rw [e4]; exact hL i hi (by omega)
    · exact le_trans (hL i hi (by omega)) (hU j (by omega) hj)

theorem pdqsort_spec (R : Refines data view key ok) :
    ∀ (fuel : Nat) (a b limit : Int) (wasBalanced wasPartitioned : Bool) (s : σ), ok s →
      0 ≤ a → a ≤ b → b ≤ (view s).length → b - a < fuel → LowerBound key a b (view s) →
      Runs (pdqsort data fuel a b limit wasBalanced wasPartitioned s) (fun s2 =>
        ok s2 ∧ SwapsIn a b (view s) (view s2) ∧ SortedIn key a b (view s2)) := by
  intro fuel
  induction fuel with
  | zero => intro a b _ _ _ s _ _ _ _ hf; omega
  | succ fuel ih =>
    intro a b limit wb wp s hs h0 hab hbl hf hlb
    unfold pdqsort
    simp only []
    by_cases h12 : b - a ≤ 12
    · rw [if_pos h12]
      exact insertionSort_spec R a b s hs h0 hbl
    rw [if_neg h12]
    by_cases hlim : limit = 0
    · rw [if_pos hlim]
      exact heapSort_spec R a b s hs h0 hab hbl
    rw [if_neg hlim]
    refine Runs.bind (Q := fun r => ok r.1 ∧ SwapsIn a b (view s) (view r.1)) ?_ ?_
    · by_cases hwb : (!wb) = true
      · rw [if_pos hwb]
        refine (breakPatterns_spec R a b s hs h0 hbl).bind ?_
        rintro s1 ⟨hok1, hsw1⟩
        exact Runs.pure ⟨hok1, hsw1⟩
      · rw [if_neg hwb]
        exact Runs.pure ⟨hs, SwapsIn.refl _⟩
    rintro ⟨s1, limit1⟩ ⟨hok1, hsw1⟩
    simp only [] at hok1 hsw1 ⊢
    have hlen1 := hsw1.length_eq
    refine (choosePivot_spec R a b s1 hok1 h0 (by omega) (by omega)).bind ?_
    rintro ⟨pivot, hint⟩ ⟨hp1, hp2, -⟩
    simp only [] at hp1 hp2 ⊢
    refine Runs.bind (Q := fun r => ok r.1 ∧ SwapsIn a b (view s1) (view r.1)
      ∧ a ≤ r.2.1 ∧ r.2.1 < b) ?_ ?_
    · by_cases hdec : hint = sortedHint.decreasingHint
      · rw [if_pos hdec]
        refine (reverseRange_spec R a b s1 hok1 h0 (by omega)).bind ?_
        rintro s2 ⟨hok2, hsw2⟩
        exact Runs.pure ⟨hok2, hsw2, by show a ≤ b - 1 - (pivot - a); omega,
          by show b - 1 - (pivot - a) < b; omega⟩
      · rw [if_neg hdec]
        exact Runs.pure ⟨hok1, SwapsIn.refl _, hp1, hp2⟩
    rintro ⟨s2, pivot2, hint2⟩ ⟨hok2, hsw2, hq1, hq2⟩
    simp only [] at hok2 hsw2 hq1 hq2 ⊢
    have hlen2 := hsw2.length_eq
    have hS2 : SwapsIn a b (view s) (view s2) := hsw1.trans hsw2
    refine Runs.bind (Q := fun r => ok r.2 ∧ SwapsIn a b (view s2) (view r.2)
      ∧ (r.1 = true → SortedIn key a b (view r.2))) ?_ ?_
    · by_cases hc : (wb && wp && decide (hint2 = sortedHint.increasingHint)) = true
      · rw [if_pos hc]
        exact partialInsertionSort_spec R a b s2 hok2 h0 (by omega) (by omega)
          (hlb.swapsIn h0 hS2)
      · rw [if_neg hc]
        exact Runs.pure ⟨hok2, SwapsIn.refl _, fun h => by simp at h⟩
    rintro ⟨done, s3⟩ ⟨hok3, hsw3, hdone⟩
    simp only [] at hok3 hsw3 hdone ⊢
    have hlen3 := hsw3.length_eq
    have hS3 : SwapsIn a b (view s) (view s3) := hS2.trans hsw3
    have hlb3 : LowerBound key a b (view s3) := hlb.swapsIn h0 hS3
    by_cases hd : done = true
    · rw [if_pos hd]
      exact Runs.pure ⟨hok3, hS3, hdone hd⟩
    rw [if_neg hd]
    refine Runs.bind (Q := fun dup =>
      (dup = true → 0 < a ∧ key (getI (view s3) pivot2) ≤ key (getI (view s3) (a - 1)))) ?_ ?_
    · by_cases ha : a > 0
      · rw [if_pos ha, R.less_eq s3 (a - 1) pivot2 hok3 (by omega) (by omega) (by omega)
          (by omega), ok_bind]
        refine Runs.pure ?_
        intro h
        refine ⟨ha, ?_⟩
        simp only [Bool.not_eq_true', decide_eq_false_iff_not, not_lt] at h
        exact h
      · rw [if_neg ha]
        exact Runs.pure (fun h => by simp at h)
    rintro dup hdup
    by_cases hdp : dup = true
    · rw [if_pos hdp]
      obtain ⟨ha, hple⟩ := hdup hdp
      refine (partitionEqual_spec R a b pivot2 s3 hok3 h0 hq1 hq2 (by omega)).bind ?_
      rintro ⟨mid, s4⟩ ⟨hok4, hsw4, hm1, hm2, hle4, hgt4⟩
      simp only [] at hok4 hsw4 hm1 hm2 hle4 hgt4 ⊢
      have hlen4 := hsw4.length_eq
      have hlb4 : LowerBound key a b (view s4) := hlb3.swapsIn h0 hsw4
      have hfr4 : getI (view s4) (a - 1) = getI (view s3) (a - 1) :=
        hsw4.frame (a - 1) (by omega) (Or.inl (by omega))
      have hlbm : LowerBound key mid b (view s4) := by
        right
        intro t ht1 ht2
        exact le_trans (hle4 (mid - 1) (by omega) (by omega)) (le_of_lt (hgt4 t ht1 ht2))
      refine (ih mid b limit1 wb wp s4 hok4 (by omega) hm2 (by omega) (by omega) hlbm).mono ?_
      rintro s5 ⟨hok5, hsw5, hso5⟩
      refine ⟨hok5, (hS3.trans hsw4).trans (hsw5.widen h0 (by omega) (le_refl _) (by omega)),
        ?_⟩
      have hgt5 := hsw5.forall_range (fun x => key (getI (view s3) pivot2) < key x) hgt4
      have heq5 : ∀ t, a ≤ t → t < mid →
          key (getI (view s5) t) = key (getI (view s3) pivot2) := by
        intro t ht1 ht2
        rw [hsw5.frame t (by omega) (Or.inl ht2)]
        apply le_antisymm (hle4 t ht1 ht2)
        rcases hlb4 with h | h
        · omega
        · have := h t ht1 (by omega)
          rw [hfr4] at this
          exact le_trans hple this
      intro i j hi hij hj
      by_cases e1 : j < mid
      · rw [heq5 i hi (by omega), heq5 j (by omega) e1]
      · by_cases e2 : i < mid
        · rw [heq5 i hi e2]
          exact le_of_lt (hgt5 j (by omega) hj)
        · exact hso5 i j (by omega) hij hj
    · rw [if_neg hdp]
      refine (partition_spec R a b pivot2 s3 hok3 h0 hq1 hq2 (by omega)).bind ?_
      rintro ⟨mid, ap, s4⟩ ⟨hok4, hsw4, hm1, hm2, hlt4, hge4⟩
      simp only [] at hok4 hsw4 hm1 hm2 hlt4 hge4 ⊢
      have hlen4 := hsw4.length_eq
      have hS4 : SwapsIn a b (view s) (view s4) := hS3.trans hsw4
      have hlb4 : LowerBound key a b (view s4) := hlb3.swapsIn h0 hsw4
      have hlbR : LowerBound key (mid + 1) b (view s4) := by
        right
        intro t ht1 ht2
        have : mid + 1 - 1 = mid := by omega
        rw [this]
        exact hge4 t (by omega) ht2
      by_cases hlr : mid - a < b - mid
      · rw [if_pos hlr]
        refine (ih a mid limit1 true true s4 hok4 h0 hm1 (by omega) (by omega)
          (hlb4.sub (by omega))).bind ?_
        rintro s5 ⟨hok5, hsw5, hso5⟩
        have hlen5 := hsw5.length_eq
        have hfr5 : ∀ t, mid ≤ t → getI (view s5) t = getI (view s4) t :=
          fun t ht => hsw5.frame t (by omega) (Or.inr ht)
        have hlbR5 : LowerBound key (mid + 1) b (view s5) := by
          right
          intro t ht1 ht2
          have : mid + 1 - 1 = mid := by omega
          rw [this, hfr5 mid (le_refl _), hfr5 t (by omega)]
          exact hge4 t (by omega) ht2
        refine (ih (mid + 1) b limit1 _ ap s5 hok5 (by omega) (by omega) (by omega)
          (by omega) hlbR5).mono ?_
        rintro s6 ⟨hok6, hsw6, hso6⟩
        have hfr6 : ∀ t, 0 ≤ t → t ≤ mid → getI (view s6) t = getI (view s5) t :=
          fun t ht0 ht => hsw6.frame t ht0 (Or.inl (by omega))
        refine ⟨hok6, (hS4.trans (hsw5.widen h0 (le_refl _) (by omega) (by omega))).trans
          (hsw6.widen h0 (by omega) (le_refl _) (by omega)), ?_⟩
        have hlt5 := hsw5.forall_range (fun x => key x < key (getI (view s4) mid)) hlt4
        have hge6 := hsw6.forall_range (fun x => key (getI (view s4) mid) ≤ key x)
          (by
            intro t ht1 ht2
            rw [hfr5 t (by omega)]
            exact hge4 t (by omega) ht2)
        have hmid6 : getI (view s6) mid = getI (view s4) mid := by
          rw [hfr6 mid (by omega) (le_refl _), hfr5 mid (le_refl _)]
        refine SortedIn.join ?_ hso6 ?_ ?_
        · intro i j hi hij hj
          rw [hfr6 i (by omega) (by omega), hfr6 j (by omega) (by omega)]
          exact hso5 i j hi hij hj
        · intro t ht1 ht2
          rw [hmid6, hfr6 t (by omega) (by omega)]
          exact le_of_lt (hlt5 t ht1 ht2)
        · intro t ht1 ht2
          rw [hmid6]
          exact hge6 t (by omega) ht2
      · rw [if_neg hlr]
        refine (ih (mid + 1) b limit1 true true s4 hok4 (by omega) (by omega) (by omega)
          (by omega) hlbR).bind ?_
        rintro s5 ⟨hok5, hsw5, hso5⟩
        have hlen5 := hsw5.length_eq
        have hfr5 : ∀ t, 0 ≤ t → t ≤ mid → getI (view s5) t = getI (view s4) t :=
          fun t ht0 ht => hsw5.frame t ht0 (Or.inl (by omega))
        have hlbL5 : LowerBound key a mid (view s5) := by
          by_cases ha0 : a = 0
          · exact Or.inl ha0
          rcases hlb4 with h | h
          · exact Or.inl h
          · right
            intro t ht1 ht2
            rw [hfr5 (a - 1) (by omega) (by omega), hfr5 t (by omega) (by omega)]
            exact h t ht1 (by omega)
        refine (ih a mid limit1 _ ap s5 hok5 h0 hm1 (by omega) (by omega) hlbL5).mono ?_
        rintro s6 ⟨hok6, hsw6, hso6⟩
        have hfr6 : ∀ t, mid ≤ t → getI (view s6) t = getI (view s5) t :=
          fun t ht => hsw6.frame t (by omega) (Or.inr ht)
        refine ⟨hok6, (hS4.trans (hsw5.widen h0 (by omega) (le_refl _) (by omega))).trans
          (hsw6.widen h0 (le_refl _) (by omega) (by omega)), ?_⟩
        have hge5 := hsw5.forall_range (fun x => key (getI (view s4) mid) ≤ key x)
          (by
            intro t ht1 ht2
            exact hge4 t (by omega) ht2)
        have hlt6 := hsw6.forall_range (fun x => key x < key (getI (view s4) mid))
          (by
            intro t ht1 ht2
            rw [hfr5 t (by omega) (by omega)]
            exact hlt4 t ht1 ht2)
        have hmid6 : getI (view s6) mid = getI (view s4) mid := by
          rw [hfr6 mid (le_refl _), hfr5 mid (by omega) (le_refl _)]
        refine SortedIn.join hso6 ?_ ?_ ?_
        · intro i j hi hij hj
          rw [hfr6 i (by omega), hfr6 j (by omega)]
          exact hso5 i j hi hij hj
        · intro t ht1 ht2
          rw [hmid6]
          exact le_of_lt (hlt6 t ht1 ht2)
        · intro t ht1 ht2
          rw [hmid6, hfr6 t (by omega)]
          exact hge5 t (by omega) ht2

theorem Sort_spec (R : Refines data view key ok) (s : σ) (hs : ok s) :
    Runs (Sort_ data s) (fun s2 =>
      ok s2 ∧ (view s2).Perm (view s) ∧ SortedIn key 0 (view s).length (view s2)) := by
  unfold Sort_
  simp only []
  rw [R.len_eq s]
  by_cases h1 : ((view s).length : Int) ≤ 1
  · rw [if_pos h1]
    refine Runs.pure ⟨hs, List.Perm.refl _, ?_⟩
    intro i j hi hij hj
    have : i = j := by omega
    rw [this]
  · rw [if_neg h1]
    refine (pdqsort_spec R _ 0 _ _ true true s hs (le_refl _) (by omega) (le_refl _)
      (by omega) (Or.inl rfl)).mono ?_
    rintro s2 ⟨hok2, hsw2, hso2⟩
    exact ⟨hok2, hsw2.perm, hso2⟩

end Pdqsort

end Osm


namespace Osm

/-! ## The sort of an input that is in order already -/

section SortedInput

variable {σ β K : Type} [Inhabited β] [LinearOrder K]
  {data : Interface σ} {view : σ → List β} {key : β → K} {ok : σ → Prop}

open sort

theorem insertionSort_outer_sorted (R : Refines data view key ok) (a b : Int) (s : σ)
    (hs : ok s) (h0 : 0 ≤ a) (hbl : b ≤ (view s).length)
    (hso : SortedIn key a b (view s)) :
    ∀ (fuel : Nat) (i : Int), a < i → b - i < fuel → 0 < fuel →
      insertionSort.outer data a b fuel i s = .ok s := by
  intro fuel
  induction fuel with
  | zero => intro i _ _ hf; omega
  | succ fuel ih =>
    intro i hai hf _
    unfold insertionSort.outer
    by_cases hlt : i < b
    · rw [if_pos hlt]
      have hin : insertionSort.inner data a ((i - a).toNat + 1) i s = .ok s := by
        unfold insertionSort.inner
        rw [if_pos (by omega : i > a),
          R.less_eq s i (i - 1) hs (by omega) (by omega) (by omega) (by omega), ok_bind,
          decide_eq_false (not_lt.mpr (hso (i - 1) i (by omega) (by omega) hlt)),
          if_neg (by simp)]
        rfl
      rw [hin, ok_bind]
      exact ih (i + 1) (by omega) (by omega) (by omega)
    · rw [if_neg hlt]; rfl

theorem insertionSort_sorted (R : Refines data view key ok) (a b : Int) (s : σ)
    (hs : ok s) (h0 : 0 ≤ a) (hbl : b ≤ (view s).length)
    (hso : SortedIn key a b (view s)) : insertionSort data a b s = .ok s := by
  unfold insertionSort
  exact insertionSort_outer_sorted R a b s hs h0 hbl hso _ _ (by omega) (by omega) (by omega)

theorem partialInsertionSort_scan_sorted (R : Refines data view key ok) (a b : Int) (s : σ)
    (hs : ok s) (h0 : 0 ≤ a) (hbl : b ≤ (view s).length)
    (hso : SortedIn key a b (view s)) :
    ∀ (fuel : Nat) (i : Int), a < i → i ≤ b → b - i < fuel →
      partialInsertionSort.scan data b fuel i s = .ok b := by
  intro fuel
  induction fuel with
  | zero => intro i _ _ hf; omega
  | succ fuel ih =>
    intro i hai hib hf
    unfold partialInsertionSort.scan
    by_cases hlt : i < b
    · rw [if_pos hlt, R.less_eq s i (i - 1) hs (by omega) (by omega) (by omega) (by omega),
        ok_bind, decide_eq_false (not_lt.mpr (hso (i - 1) i (by omega) (by omega) hlt)),
        if_neg (by simp)]
      exact ih (i + 1) (by omega) (by omega) (by omega)
    · rw [if_neg hlt]
      have : i = b := by omega
      rw [this]; rfl

theorem partialInsertionSort_sorted (R : Refines data view key ok) (a b : Int) (s : σ)
    (hs : ok s) (h0 : 0 ≤ a) (hab : a < b) (hbl : b ≤ (view s).length)
    (hso : SortedIn key a b (view s)) :
    partialInsertionSort data a b s = .ok (true, s) := by
  unfold partialInsertionSort partialInsertionSort.steps
  rw [if_pos (by omega : (0 : Int) < 5),
    partialInsertionSort_scan_sorted R a b s hs h0 hbl hso _ (a + 1) (by omega) (by omega)
      (by omega), ok_bind, if_pos rfl]
  rfl

theorem bitsLen_ne_zero (n : Nat) (h : 1 ≤ n) : bits.Len n ≠ 0 := by
  unfold bits.Len
  obtain ⟨k, rfl⟩ : ∃ k, n = k + 1 := ⟨n - 1, by omega⟩
  unfold bits.Len.go
  rw [if_neg (by omega)]
  omega

theorem pdqsort_sorted (R : Refines data view key ok) (fuel : Nat) (a b limit : Int) (s : σ)
    (hs : ok s) (h0 : 0 ≤ a) (_hab : a ≤ b) (hbl : b ≤ (view s).length) (hlim : limit ≠ 0)
    (hso : SortedIn key a b (view s)) :
    pdqsort data (fuel + 1) a b limit true true s = .ok s := by
  unfold pdqsort
  simp only []
  by_cases h12 : b - a ≤ 12
  · rw [if_pos h12]
    exact insertionSort_sorted R a b s hs h0 hbl hso
  rw [if_neg h12, if_neg hlim]
  obtain ⟨⟨p, hint⟩, hcp, -, -, hinc⟩ :=
    choosePivot_spec R a b s hs h0 (by omega) hbl
  have hinc2 : hint = sortedHint.increasingHint := hinc hso
  subst hinc2
  simp only [Bool.not_true, Bool.false_eq_true, if_false, ok_bind, pure_bind, hcp,
    reduceCtorEq, Bool.and_self, decide_True, if_true,
    partialInsertionSort_sorted R a b s hs h0 (by omega) hbl hso]
  rfl

theorem Sort_sorted (R : Refines data view key ok) (s : σ) (hs : ok s)
    (hso : SortedIn key 0 (view s).length (view s)) : Sort_ data s = .ok s := by
  unfold Sort_
  simp only []
  rw [R.len_eq s]
  by_cases h1 : ((view s).length : Int) ≤ 1
  · rw [if_pos h1]; rfl
  · rw [if_neg h1]
    refine pdqsort_sorted R _ 0 _ _ s hs (le_refl _) (by omega) (le_refl _) ?_ hso
    have := bitsLen_ne_zero ((view s).length : Int).toNat (by omega)
    omega

theorem Sort_short (data : Interface σ) (s : σ) (h : data.Len s ≤ 1) :
    Sort_ data s = .ok s := by
  unfold Sort_
  simp only []
  rw [if_pos h]; rfl

end SortedInput

end Osm


namespace Osm

/-! ## The collection relationsSort as an instance -/

section Instance

open sort

theorem index_eq_getI (rs : Relations) (i : Int) (h0 : 0 ≤ i) (h1 : i < rs.length) :
    index rs i = .ok (getI rs i) := by
  unfold index getI
  rw [if_pos ⟨h0, h1⟩]
  rfl

theorem getI_mem (rs : Relations) (i : Int) (h0 : 0 ≤ i) (h1 : i < rs.length) :
    getI rs i ∈ rs := by
  unfold getI
  have h2 : i.toNat < rs.length := by omega
  rw [List.getD_eq_getElem?_getD, List.getElem?_eq_getElem h2]
  exact List.getElem_mem h2

theorem rel_eq (m : Mem) (hnn : NonNil m.rs) (i : Int) (h0 : 0 ≤ i) (h1 : i < m.rs.length) :
    ∃ a, getI m.rs i = some a ∧ m.rel i = .ok (m.heap a) := by
  have hmem := getI_mem m.rs i h0 h1
  have hne := hnn _ hmem
  obtain ⟨a, ha⟩ := Option.ne_none_iff_exists'.mp hne
  refine ⟨a, ha, ?_⟩
  unfold Mem.rel
  rw [index_eq_getI m.rs i h0 h1, ha]
  rfl

theorem Less_eq_of_rel (m : Mem) (i j : Int) (x y : Relation) (hx : m.rel i = .ok x)
    (hy : m.rel j = .ok y) :
    relationsSort.Less m i j
      = .ok (decide (toLex (x.ID, x.Version) < toLex (y.ID, y.Version))) := by
  unfold Mem.rel at hx hy
  unfold relationsSort.Less
  cases hi : index m.rs i with
  | error e => rw [hi] at hx; simp [bind, Except.bind] at hx
  | ok p =>
    cases hj : index m.rs j with
    | error e => rw [hj] at hy; simp [bind, Except.bind] at hy
    | ok q =>
      rw [hi] at hx
      rw [hj] at hy
      simp only [ok_bind] at hx hy ⊢
      rw [hx, hy]
      simp only [ok_bind]
      by_cases e : x.ID = y.ID
      · rw [if_pos e]
        simp only [ok_bind, hx, hy, Prod.Lex.lt_iff, e, lt_self_iff_false, true_and, false_or]
        rfl
      · rw [if_neg e]
        simp only [ok_bind, hx, hy, Prod.Lex.lt_iff, e, false_and, or_false]
        rfl

theorem relationsSort_refines (h : Heap) :
    Refines relationsSort.Interface (fun m => m.rs) (sortKey h)
      (fun m => m.heap = h ∧ NonNil m.rs) where
  len_eq := fun _ => rfl
  less_eq := by
    rintro m i j ⟨hh, hnn⟩ hi0 hi1 hj0 hj1
    obtain ⟨a, ha, hra⟩ := rel_eq m hnn i hi0 hi1
    obtain ⟨b, hb, hrb⟩ := rel_eq m hnn j hj0 hj1
    show relationsSort.Less m i j = _
    rw [Less_eq_of_rel m i j _ _ hra hrb]
    simp only [ha, hb, sortKey, hh]
  swap_eq := by
    rintro m i j ⟨hh, hnn⟩ hi0 hi1 hj0 hj1
    refine ⟨{ m with rs := swapI m.rs i j }, ?_, ⟨hh, ?_⟩, rfl⟩
    · show relationsSort.Swap m i j = _
      unfold relationsSort.Swap
      rw [index_eq_getI m.rs j hj0 hj1, index_eq_getI m.rs i hi0 hi1]
      rfl
    · intro p hp
      exact hnn p ((swapI_perm m.rs i j hi0 hi1 hj0 hj1).mem_iff.mp hp)

end Instance

end Osm


namespace Osm

/-! ## The run of the sort up to the first nil dereference -/

section Simulation

variable {σ : Type} {data data2 : Interface σ}

open sort

set_option linter.unusedTactic false
set_option linter.unreachableTactic false

theorem Approx.rfl {α : Type} {r : Except Panic α} : Approx r r := Or.inl (Eq.refl r)

theorem Approx.bind_congr {α γ : Type} {r r2 : Except Panic α} {f f2 : α → Except Panic γ}
    (h : Approx r r2) (hf : ∀ x, Approx (f x) (f2 x)) : Approx (r >>= f) (r2 >>= f2) := by
  rcases h with h | h
  · subst h
    cases r with
    | error e => exact Or.inl (Eq.refl _)
    | ok x => exact hf x
  · subst h
    exact Or.inr (Eq.refl _)

theorem Approx.ite_congr {α : Type} (c : Prop) [Decidable c] {a a2 b b2 : Except Panic α}
    (h1 : Approx a a2) (h2 : Approx b b2) :
    Approx (if c then a else b) (if c then a2 else b2) := by
  split_ifs
  · exact h1
  · exact h2

theorem insertionSort_inner_approx (h : Sim data data2) (a : Int) :
    ∀ (fuel : Nat) (j : Int) (s : σ),
      Approx (insertionSort.inner data a fuel j s)
        (insertionSort.inner data2 a fuel j s) := by
  intro fuel
  induction fuel with
  | zero => intros; exact Approx.rfl
  | succ fuel ih =>
    intros
    unfold insertionSort.inner
    repeat' first
      | exact Approx.rfl
      | apply ih
      | exact h.less_approx _ _ _
      | rw [h.swap_eq]
      | apply Approx.ite_congr
      | apply Approx.bind_congr
      | rintro ⟨_, _, _⟩
      | rintro ⟨_, _⟩
      | intro _
      | dsimp only

theorem insertionSort_outer_approx (h : Sim data data2) (a b : Int) :
    ∀ (fuel : Nat) (i : Int) (s : σ),
      Approx (insertionSort.outer data a b fuel i s)
        (insertionSort.outer data2 a b fuel i s) := by
  intro fuel
  induction fuel with
  | zero => intros; exact Approx.rfl
  | succ fuel ih =>
    intros
    unfold insertionSort.outer
    repeat' first
      | exact Approx.rfl
      | apply ih
      | exact h.less_approx _ _ _
      | rw [h.swap_eq]
      | apply insertionSort_inner_approx h
      | apply Approx.ite_congr
      | apply Approx.bind_congr
      | rintro ⟨_, _, _⟩
      | rintro ⟨_, _⟩
      | intro _
      | dsimp only

theorem insertionSort_approx (h : Sim data data2) (a b : Int) (s : σ) :
    Approx (insertionSort data a b s) (insertionSort data2 a b s) := by
  unfold insertionSort
  repeat' first
    | exact Approx.rfl
    | exact h.less_approx _ _ _
    | rw [h.swap_eq]
    | apply insertionSort_outer_approx h
    | apply Approx.ite_congr
    | apply Approx.bind_congr
    | rintro ⟨_, _, _⟩
    | rintro ⟨_, _⟩
    | intro _
    | dsimp only

theorem siftDown_loop_approx (h : Sim data data2) (hi first : Int) :
    ∀ (fuel : Nat) (root : Int) (s : σ),
      Approx (siftDown.loop data hi first fuel root s)
        (siftDown.loop data2 hi first fuel root s) := by
  intro fuel
  induction fuel with
  | zero => intros; exact Approx.rfl
  | succ fuel ih =>
    intros
    unfold siftDown.loop
    repeat' first
      | exact Approx.rfl
      | apply ih
      | exact h.less_approx _ _ _
      | rw [h.swap_eq]
      | apply Approx.ite_congr
      | apply Approx.bind_congr
      | rintro ⟨_, _, _⟩
      | rintro ⟨_, _⟩
      | intro _
      | dsimp only

theorem siftDown_approx (h : Sim data data2) (lo hi first : Int) (s : σ) :
    Approx (siftDown data lo hi first s) (siftDown data2 lo hi first s) := by
  unfold siftDown
  repeat' first
    | exact Approx.rfl
    | exact h.less_approx _ _ _
    | rw [h.swap_eq]
    | apply siftDown_loop_approx h
    | apply Approx.ite_congr
    | apply Approx.bind_congr
    | rintro ⟨_, _, _⟩
    | rintro ⟨_, _⟩
    | intro _
    | dsimp only

theorem heapSort_build_approx (h : Sim data data2) (hi first : Int) :
    ∀ (fuel : Nat) (i : Int) (s : σ),
      Approx (heapSort.build data hi first fuel i s)
        (heapSort.build data2 hi first fuel i s) := by
  intro fuel
  induction fuel with
  | zero => intros; exact Approx.rfl
  | succ fuel ih =>
    intros
    unfold heapSort.build
    repeat' first
      | exact Approx.rfl
      | apply ih
      | exact h.less_approx _ _ _
      | rw [h.swap_eq]
      | apply siftDown_approx h
      | apply Approx.ite_congr
      | apply Approx.bind_congr
      | rintro ⟨_, _, _⟩
      | rintro ⟨_, _⟩
      | intro _
      | dsimp only

theorem heapSort_pop_approx (h : Sim data data2) (lo first : Int) :
    ∀ (fuel : Nat) (i : Int) (s : σ),
      Approx (heapSort.pop data lo first fuel i s)
        (heapSort.pop data2 lo first fuel i s) := by
  intro fuel
  induction fuel with
  | zero => intros; exact Approx.rfl
  | succ fuel ih =>
    intros
    unfold heapSort.pop
    repeat' first
      | exact Approx.rfl
      | apply ih
      | exact h.less_approx _ _ _
      | rw [h.swap_eq]
      | apply siftDown_approx h
      | apply Approx.ite_congr
      | apply Approx.bind_congr
      | rintro ⟨_, _, _⟩
      | rintro ⟨_, _⟩
      | intro _
      | dsimp only

theorem heapSort_approx (h : Sim data data2) (a b : Int) (s : σ) :
    Approx (heapSort data a b s) (heapSort data2 a b s) := by
  unfold heapSort
  repeat' first
    | exact Approx.rfl
    | exact h.less_approx _ _ _
    | rw [h.swap_eq]
    | apply heapSort_build_approx h
    | apply heapSort_pop_approx h
    | apply Approx.ite_congr
    | apply Approx.bind_congr
    | rintro ⟨_, _, _⟩
    | rintro ⟨_, _⟩
    | intro _
    | dsimp only

theorem partition_up_approx (h : Sim data data2) (a j : Int) :
    ∀ (fuel : Nat) (i : Int) (s : σ),
      Approx (partition.up data a j fuel i s)
        (partition.up data2 a j fuel i s) := by
  intro fuel
  induction fuel with
  | zero => intros; exact Approx.rfl
  | succ fuel ih =>
    intros
    unfold partition.up
    repeat' first
      | exact Approx.rfl
      | apply ih
      | exact h.less_approx _ _ _
      | rw [h.swap_eq]
      | apply Approx.ite_congr
      | apply Approx.bind_congr
      | rintro ⟨_, _, _⟩
      | rintro ⟨_, _⟩
      | intro _
      | dsimp only

theorem partition_down_approx (h : Sim data data2) (a i : Int) :
    ∀ (fuel : Nat) (j : Int) (s : σ),
      Approx (partition.down data a i fuel j s)
        (partition.down data2 a i fuel j s) := by
  intro fuel
  induction fuel with
  | zero => intros; exact Approx.rfl
  | succ fuel ih =>
    intros
    unfold partition.down
    repeat' first
      | exact Approx.rfl
      | apply ih
      | exact h.less_approx _ _ _
      | rw [h.swap_eq]
      | apply Approx.ite_congr
      | apply Approx.bind_congr
      | rintro ⟨_, _, _⟩
      | rintro ⟨_, _⟩
      | intro _
      | dsimp only

theorem partition_loop_approx (h : Sim data data2) (a : Int) :
    ∀ (fuel : Nat) (i j : Int) (s : σ),
      Approx (partition.loop data a fuel i j s)
        (partition.loop data2 a fuel i j s) := by
  intro fuel
  induction fuel with
  | zero => intros; exact Approx.rfl
  | succ fuel ih =>
    intros
    unfold partition.loop
    repeat' first
      | exact Approx.rfl
      | apply ih
      | exact h.less_approx _ _ _
      | rw [h.swap_eq]
      | apply partition_up_approx h
      | apply partition_down_approx h
      | apply Approx.ite_congr
      | apply Approx.bind_congr
      | rintro ⟨_, _, _⟩
      | rintro ⟨_, _⟩
      | intro _
      | dsimp only

theorem partition_approx (h : Sim data data2) (a b pivot : Int) (s : σ) :
    Approx (partition data a b pivot s) (partition data2 a b pivot s) := by
  unfold partition
  repeat' first
    | exact Approx.rfl
    | exact h.less_approx _ _ _
    | rw [h.swap_eq]
    | apply partition_up_approx h
    | apply partition_down_approx h
    | apply partition_loop_approx h
    | apply Approx.ite_congr
    | apply Approx.bind_congr
    | rintro ⟨_, _, _⟩
    | rintro ⟨_, _⟩
    | intro _
    | dsimp only

theorem partitionEqual_up_approx (h : Sim data data2) (a j : Int) :
    ∀ (fuel : Nat) (i : Int) (s : σ),
      Approx (partitionEqual.up data a j fuel i s)
        (partitionEqual.up data2 a j fuel i s) := by
  intro fuel
  induction fuel with
  | zero => intros; exact Approx.rfl
  | succ fuel ih =>
    intros
    unfold partitionEqual.up
    repeat' first
      | exact Approx.rfl
      | apply ih
      | exact h.less_approx _ _ _
      | rw [h.swap_eq]
      | apply Approx.ite_congr
      | apply Approx.bind_congr
      | rintro ⟨_, _, _⟩
      | rintro ⟨_, _⟩
      | intro _
      | dsimp only

theorem partitionEqual_down_approx (h : Sim data data2) (a i : Int) :
    ∀ (fuel : Nat) (j : Int) (s : σ),
      Approx (partitionEqual.down data a i fuel j s)
        (partitionEqual.down data2 a i fuel j s) := by
  intro fuel
  induction fuel with
  | zero => intros; exact Approx.rfl
  | succ fuel ih =>
    intros
    unfold partitionEqual.down
    repeat' first
      | exact Approx.rfl
      | apply ih
      | exact h.less_approx _ _ _
      | rw [h.swap_eq]
      | apply Approx.ite_congr
      | apply Approx.bind_congr
      | rintro ⟨_, _, _⟩
      | rintro ⟨_, _⟩
      | intro _
      | dsimp only

theorem partitionEqual_loop_approx (h : Sim data data2) (a : Int) :
    ∀ (fuel : Nat) (i j : Int) (s : σ),
      Approx (partitionEqual.loop data a fuel i j s)
        (partitionEqual.loop data2 a fuel i j s) := by
  intro fuel
  induction fuel with
  | zero => intros; exact Approx.rfl
  | succ fuel ih =>
    intros
    unfold partitionEqual.loop
    repeat' first
      | exact Approx.rfl
      | apply ih
      | exact h.less_approx _ _ _
      | rw [h.swap_eq]
      | apply partitionEqual_up_approx h
      | apply partitionEqual_down_approx h
      | apply Approx.ite_congr
      | apply Approx.bind_congr
      | rintro ⟨_, _, _⟩
      | rintro ⟨_, _⟩
      | intro _
      | dsimp only

theorem partitionEqual_approx (h : Sim data data2) (a b pivot : Int) (s : σ) :
    Approx (partitionEqual data a b pivot s) (partitionEqual data2 a b pivot s) := by
  unfold partitionEqual
  repeat' first
    | exact Approx.rfl
    | exact h.less_approx _ _ _
    | rw [h.swap_eq]
    | apply partitionEqual_loop_approx h
    | apply Approx.ite_congr
    | apply Approx.bind_congr
    | rintro ⟨_, _, _⟩
    | rintro ⟨_, _⟩
    | intro _
    | dsimp only

theorem partialInsertionSort_scan_approx (h : Sim data data2) (b : Int) :
    ∀ (fuel : Nat) (i : Int) (s : σ),
      Approx (partialInsertionSort.scan data b fuel i s)
        (partialInsertionSort.scan data2 b fuel i s) := by
  intro fuel
  induction fuel with
  | zero => intros; exact Approx.rfl
  | succ fuel ih =>
    intros
    unfold partialInsertionSort.scan
    repeat' first
      | exact Approx.rfl
      | apply ih
      | exact h.less_approx _ _ _
      | rw [h.swap_eq]
      | apply Approx.ite_congr
      | apply Approx.bind_congr
      | rintro ⟨_, _, _⟩
      | rintro ⟨_, _⟩
      | intro _
      | dsimp only

theorem partialInsertionSort_shiftLeft_approx (h : Sim data data2) :
    ∀ (fuel : Nat) (j : Int) (s : σ),
      Approx (partialInsertionSort.shiftLeft data fuel j s)
        (partialInsertionSort.shiftLeft data2 fuel j s) := by
  intro fuel
  induction fuel with
  | zero => intros; exact Approx.rfl
  | succ fuel ih =>
    intros
    unfold partialInsertionSort.shiftLeft
    repeat' first
      | exact Approx.rfl
      | apply ih
      | exact h.less_approx _ _ _
      | rw [h.swap_eq]
      | apply Approx.ite_congr
      | apply Approx.bind_congr
      | rintro ⟨_, _, _⟩
      | rintro ⟨_, _⟩
      | intro _
      | dsimp only

theorem partialInsertionSort_shiftRight_approx (h : Sim data data2) (b : Int) :
    ∀ (fuel : Nat) (j : Int) (s : σ),
      Approx (partialInsertionSort.shiftRight data b fuel j s)
        (partialInsertionSort.shiftRight data2 b fuel j s) := by
  intro fuel
  induction fuel with
  | zero => intros; exact Approx.rfl
  | succ fuel ih =>
    intros
    unfold partialInsertionSort.shiftRight
    repeat' first
      | exact Approx.rfl
      | apply ih
      | exact h.less_approx _ _ _
      | rw [h.swap_eq]
      | apply Approx.ite_congr
      | apply Approx.bind_congr
      | rintro ⟨_, _, _⟩
      | rintro ⟨_, _⟩
      | intro _
      | dsimp only

theorem partialInsertionSort_steps_approx (h : Sim data data2) (a b : Int) :
    ∀ (fuel : Nat) (j i : Int) (s : σ),
      Approx (partialInsertionSort.steps data a b fuel j i s)
        (partialInsertionSort.steps data2 a b fuel j i s) := by
  intro fuel
  induction fuel with
  | zero => intros; exact Approx.rfl
  | succ fuel ih =>
    intros
    unfold partialInsertionSort.steps
    repeat' first
      | exact Approx.rfl
      | apply ih
      | exact h.less_approx _ _ _
      | rw [h.swap_eq]
      | apply partialInsertionSort_scan_approx h
      | apply partialInsertionSort_shiftLeft_approx h
      | apply partialInsertionSort_shiftRight_approx h
      | apply Approx.ite_congr
      | apply Approx.bind_congr
      | rintro ⟨_, _, _⟩
      | rintro ⟨_, _⟩
      | intro _
      | dsimp only

theorem partialInsertionSort_approx (h : Sim data data2) (a b : Int) (s : σ) :
    Approx (partialInsertionSort data a b s) (partialInsertionSort data2 a b s) := by
  unfold partialInsertionSort
  repeat' first
    | exact Approx.rfl
    | exact h.less_approx _ _ _
    | rw [h.swap_eq]
    | apply partialInsertionSort_steps_approx h
    | apply Approx.ite_congr
    | apply Approx.bind_congr
    | rintro ⟨_, _, _⟩
    | rintro ⟨_, _⟩
    | intro _
    | dsimp only

theorem breakPatterns_loop_approx (h : Sim data data2) (a length idx : Int) (modulus : Nat) :
    ∀ (fuel : Nat) (i : Int) (random : Nat) (s : σ),
      Approx (breakPatterns.loop data a length idx modulus fuel i random s)
        (breakPatterns.loop data2 a length idx modulus fuel i random s) := by
  intro fuel
  induction fuel with
  | zero => intros; exact Approx.rfl
  | succ fuel ih =>
    intros
    unfold breakPatterns.loop
    repeat' first
      | exact Approx.rfl
      | apply ih
      | exact h.less_approx _ _ _
      | rw [h.swap_eq]
      | apply Approx.ite_congr
      | apply Approx.bind_congr
      | rintro ⟨_, _, _⟩
      | rintro ⟨_, _⟩
      | intro _
      | dsimp only

theorem breakPatterns_approx (h : Sim data data2) (a b : Int) (s : σ) :
    Approx (breakPatterns data a b s) (breakPatterns data2 a b s) := by
  unfold breakPatterns
  repeat' first
    | exact Approx.rfl
    | exact h.less_approx _ _ _
    | rw [h.swap_eq]
    | apply breakPatterns_loop_approx h
    | apply Approx.ite_congr
    | apply Approx.bind_congr
    | rintro ⟨_, _, _⟩
    | rintro ⟨_, _⟩
    | intro _
    | dsimp only

theorem order2_approx (h : Sim data data2) (a b swaps : Int) (s : σ) :
    Approx (order2 data a b swaps s) (order2 data2 a b swaps s) := by
  unfold order2
  repeat' first
    | exact Approx.rfl
    | exact h.less_approx _ _ _
    | rw [h.swap_eq]
    | apply Approx.ite_congr
    | apply Approx.bind_congr
    | rintro ⟨_, _, _⟩
    | rintro ⟨_, _⟩
    | intro _
    | dsimp only

theorem median_approx (h : Sim data data2) (a b c swaps : Int) (s : σ) :
    Approx (median data a b c swaps s) (median data2 a b c swaps s) := by
  unfold median
  repeat' first
    | exact Approx.rfl
    | exact h.less_approx _ _ _
    | rw [h.swap_eq]
    | apply order2_approx h
    | apply Approx.ite_congr
    | apply Approx.bind_congr
    | rintro ⟨_, _, _⟩
    | rintro ⟨_, _⟩
    | intro _
    | dsimp only

theorem medianAdjacent_approx (h : Sim data data2) (a swaps : Int) (s : σ) :
    Approx (medianAdjacent data a swaps s) (medianAdjacent data2 a swaps s) := by
  unfold medianAdjacent
  repeat' first
    | exact Approx.rfl
    | exact h.less_approx _ _ _
    | rw [h.swap_eq]
    | apply median_approx h
    | apply Approx.ite_congr
    | apply Approx.bind_congr
    | rintro ⟨_, _, _⟩
    | rintro ⟨_, _⟩
    | intro _
    | dsimp only

theorem choosePivot_approx (h : Sim data data2) (a b : Int) (s : σ) :
    Approx (choosePivot data a b s) (choosePivot data2 a b s) := by
  unfold choosePivot
  repeat' first
    | exact Approx.rfl
    | exact h.less_approx _ _ _
    | rw [h.swap_eq]
    | apply medianAdjacent_approx h
    | apply median_approx h
    | apply Approx.ite_congr
    | apply Approx.bind_congr
    | rintro ⟨_, _, _⟩
    | rintro ⟨_, _⟩
    | intro _
    | dsimp only

theorem reverseRange_loop_approx (h : Sim data data2) :
    ∀ (fuel : Nat) (i j : Int) (s : σ),
      Approx (reverseRange.loop data fuel i j s)
        (reverseRange.loop data2 fuel i j s) := by
  intro fuel
  induction fuel with
  | zero => intros; exact Approx.rfl
  | succ fuel ih =>
    intros
    unfold reverseRange.loop
    repeat' first
      | exact Approx.rfl
      | apply ih
      | exact h.less_approx _ _ _
      | rw [h.swap_eq]
      | apply Approx.ite_congr
      | apply Approx.bind_congr
      | rintro ⟨_, _, _⟩
      | rintro ⟨_, _⟩
      | intro _
      | dsimp only

theorem reverseRange_approx (h : Sim data data2) (a b : Int) (s : σ) :
    Approx (reverseRange data a b s) (reverseRange data2 a b s) := by
  unfold reverseRange
  repeat' first
    | exact Approx.rfl
    | exact h.less_approx _ _ _
    | rw [h.swap_eq]
    | apply reverseRange_loop_approx h
    | apply Approx.ite_congr
    | apply Approx.bind_congr
    | rintro ⟨_, _, _⟩
    | rintro ⟨_, _⟩
    | intro _
    | dsimp only

theorem pdqsort_approx (h : Sim data data2) :
    ∀ (fuel : Nat) (a b limit : Int) (wasBalanced wasPartitioned : Bool) (s : σ),
      Approx (pdqsort data fuel a b limit wasBalanced wasPartitioned s)
        (pdqsort data2 fuel a b limit wasBalanced wasPartitioned s) := by
  intro fuel
  induction fuel with
  | zero => intros; exact Approx.rfl
  | succ fuel ih =>
    intro a b limit wb wp s
    unfold pdqsort
    dsimp only
    apply Approx.ite_congr
    · exact insertionSort_approx h _ _ _
    apply Approx.ite_congr
    · exact heapSort_approx h _ _ _
    apply Approx.bind_congr
    · apply Approx.ite_congr
      · exact Approx.bind_congr (breakPatterns_approx h _ _ _) (fun _ => Approx.rfl)
      · exact Approx.rfl
    intro x1
    apply Approx.bind_congr (choosePivot_approx h _ _ _)
    intro x2
    apply Approx.bind_congr
    · apply Approx.ite_congr
      · exact Approx.bind_congr (reverseRange_approx h _ _ _) (fun _ => Approx.rfl)
      · exact Approx.rfl
    intro x3
    apply Approx.bind_congr
    · apply Approx.ite_congr
      · exact partialInsertionSort_approx h _ _ _
      · exact Approx.rfl
    intro x4
    apply Approx.ite_congr
    · exact Approx.rfl
    apply Approx.bind_congr
    · apply Approx.ite_congr
      · exact Approx.bind_congr (h.less_approx _ _ _) (fun _ => Approx.rfl)
      · exact Approx.rfl
    intro dup
    apply Approx.ite_congr
    · apply Approx.bind_congr (partitionEqual_approx h _ _ _ _)
      intro x5
      exact ih _ _ _ _ _ _
    · apply Approx.bind_congr (partition_approx h _ _ _ _)
      intro x6
      apply Approx.ite_congr
      · exact Approx.bind_congr (ih _ _ _ _ _ _) (fun _ => ih _ _ _ _ _ _)
      · exact Approx.bind_congr (ih _ _ _ _ _ _) (fun _ => ih _ _ _ _ _ _)

theorem Sort_approx (h : Sim data data2) (s : σ) : Approx (Sort_ data s) (Sort_ data2 s) := by
  unfold Sort_
  rw [h.len_eq]
  dsimp only
  split_ifs
  · exact Approx.rfl
  · exact pdqsort_approx h _ _ _ _ _ _ _

end Simulation

end Osm


namespace Osm

/-! ## Properties of Relations.SortByIDVersion and relationsSort.Less -/

section Claims

open sort

theorem lex_lt_iff (x1 v1 x2 v2 : Int) :
    toLex (x1, v1) < toLex (x2, v2) ↔ (x1 < x2 ∨ (x1 = x2 ∧ v1 < v2)) :=
  Prod.Lex.lt_iff _ _

theorem sortKey_eq_derefD (h : Heap) (p : Ptr) :
    sortKey h p = toLex ((derefD h p).ID, (derefD h p).Version) := by
  cases p with
  | none => rfl
  | some a => rfl

theorem total_refines (h : Heap) :
    Refines totalInterface (fun m => m.rs) (sortKey h) (fun m => m.heap = h) where
  len_eq := fun _ => rfl
  less_eq := by
    intro m i j hh hi0 hi1 hj0 hj1
    show totalLess m i j = _
    unfold totalLess
    rw [index_eq_getI m.rs i hi0 hi1, index_eq_getI m.rs j hj0 hj1]
    simp only [ok_bind, hh]
    have hk : sortKey h (getI m.rs i) < sortKey h (getI m.rs j)
        ↔ ((derefD h (getI m.rs i)).ID < (derefD h (getI m.rs j)).ID
          ∨ ((derefD h (getI m.rs i)).ID = (derefD h (getI m.rs j)).ID
            ∧ (derefD h (getI m.rs i)).Version < (derefD h (getI m.rs j)).Version)) := by
      rw [sortKey_eq_derefD, sortKey_eq_derefD]
      exact lex_lt_iff _ _ _ _
    by_cases e : (derefD h (getI m.rs i)).ID = (derefD h (getI m.rs j)).ID
    · rw [if_pos e]
      simp only [hk, e, lt_self_iff_false, true_and, false_or]
      rfl
    · rw [if_neg e]
      simp only [hk, e, false_and, or_false]
      rfl
  swap_eq := by
    intro m i j hh hi0 hi1 hj0 hj1
    refine ⟨{ m with rs := swapI m.rs i j }, ?_, hh, rfl⟩
    show relationsSort.Swap m i j = _
    unfold relationsSort.Swap
    rw [index_eq_getI m.rs j hj0 hj1, index_eq_getI m.rs i hi0 hi1]
    rfl

theorem relationsSort_sim : Sim relationsSort.Interface totalInterface where
  len_eq := fun _ => rfl
  swap_eq := fun _ _ _ => rfl
  less_approx := by
    intro m i j
    show Approx (relationsSort.Less m i j) (totalLess m i j)
    unfold relationsSort.Less totalLess
    cases hi : index m.rs i with
    | error e => exact Or.inl rfl
    | ok p =>
      cases p with
      | none => exact Or.inr rfl
      | some a =>
        cases hj : index m.rs j with
        | error e => exact Or.inl rfl
        | ok q =>
          cases q with
          | none => exact Or.inr rfl
          | some b =>
            left
            simp only [ok_bind, deref, derefD]

theorem sort_outcome (m : Mem) :
    Relations.SortByIDVersion m = .error .nilDereference
    ∨ ∃ m2, Relations.SortByIDVersion m = .ok m2 ∧ m2.heap = m.heap
        ∧ m2.rs.Perm m.rs ∧ SortedIn (sortKey m.heap) 0 m.rs.length m2.rs := by
  obtain ⟨m2, h1, h2, h3, h4⟩ := Sort_spec (total_refines m.heap) m rfl
  rcases Sort_approx relationsSort_sim m with h | h
  · right
    exact ⟨m2, h.trans h1, h2, h3, h4⟩
  · exact Or.inl h

theorem sort_result (m : Mem) (hnn : NonNil m.rs) :
    ∃ m2, Relations.SortByIDVersion m = .ok m2 ∧ m2.heap = m.heap ∧ NonNil m2.rs
      ∧ m2.rs.Perm m.rs ∧ SortedIn (sortKey m.heap) 0 m.rs.length m2.rs := by
  obtain ⟨m2, h1, ⟨h2, h3⟩, h4, h5⟩ :=
    Sort_spec (relationsSort_refines m.heap) m ⟨rfl, hnn⟩
  exact ⟨m2, h1, h2, h3, h4, h5⟩

theorem lex_trichotomy (x1 x2 v1 v2 : Int) :
    ((x1 < x2 ∨ x1 = x2 ∧ v1 < v2) ∧ ¬(x1 = x2 ∧ v1 = v2) ∧ ¬(x2 < x1 ∨ x2 = x1 ∧ v2 < v1)
      ∨ ¬(x1 < x2 ∨ x1 = x2 ∧ v1 < v2) ∧ (x1 = x2 ∧ v1 = v2)
          ∧ ¬(x2 < x1 ∨ x2 = x1 ∧ v2 < v1)
      ∨ ¬(x1 < x2 ∨ x1 = x2 ∧ v1 < v2) ∧ ¬(x1 = x2 ∧ v1 = v2)
          ∧ (x2 < x1 ∨ x2 = x1 ∧ v2 < v1))
    ∧ ¬((x1 < x2 ∨ x1 = x2 ∧ v1 < v2) ∧ (x2 < x1 ∨ x2 = x1 ∧ v2 < v1))
    ∧ (¬(x1 < x2 ∨ x1 = x2 ∧ v1 < v2) → ¬(x2 < x1 ∨ x2 = x1 ∧ v2 < v1)
        → x1 = x2 ∧ v1 = v2) := by
  have h1 : ¬ ((x1 < x2 ∨ x1 = x2 ∧ v1 < v2) ∧ (x2 < x1 ∨ x2 = x1 ∧ v2 < v1)) := by omega
  have h2 : (x1 < x2 ∨ x1 = x2 ∧ v1 < v2) → ¬ (x1 = x2 ∧ v1 = v2) := by omega
  have h3 : (x2 < x1 ∨ x2 = x1 ∧ v2 < v1) → ¬ (x1 = x2 ∧ v1 = v2) := by omega
  have h4 : ¬ (x1 < x2 ∨ x1 = x2 ∧ v1 < v2) → ¬ (x2 < x1 ∨ x2 = x1 ∧ v2 < v1)
      → (x1 = x2 ∧ v1 = v2) := by omega
  generalize (x1 < x2 ∨ x1 = x2 ∧ v1 < v2) = P at *
  generalize (x2 < x1 ∨ x2 = x1 ∧ v2 < v1) = Q at *
  generalize (x1 = x2 ∧ v1 = v2) = E at *
  tauto

theorem sortKey_le_iff (h : Heap) (a b : Nat) :
    sortKey h (some a) ≤ sortKey h (some b)
      ↔ ((h a).ID < (h b).ID ∨ ((h a).ID = (h b).ID ∧ (h a).Version ≤ (h b).Version)) := by
  unfold sortKey
  exact Prod.Lex.le_iff _ _

theorem sortKey_lt_iff (h : Heap) (a b : Nat) :
    sortKey h (some a) < sortKey h (some b)
      ↔ ((h a).ID < (h b).ID ∨ ((h a).ID = (h b).ID ∧ (h a).Version < (h b).Version)) := by
  unfold sortKey
  exact Prod.Lex.lt_iff _ _

theorem SortByIDVersion_ascending_aux (m : Mem) (hnn : NonNil m.rs) :
    ∃ m2, Relations.SortByIDVersion m = .ok m2 ∧ Ascending m2 := by
  obtain ⟨m2, hrun, hheap, hnn2, hperm, hso⟩ := sort_result m hnn
  refine ⟨m2, hrun, ?_⟩
  intro i j hi hij hj
  have hlen := hperm.length_eq
  obtain ⟨a, ha, hra⟩ := rel_eq m2 hnn2 i hi (by omega)
  obtain ⟨b, hb, hrb⟩ := rel_eq m2 hnn2 j (by omega) hj
  have hle := hso i j hi (by omega) (by omega)
  rw [ha, hb, ← hheap] at hle
  exact ⟨m2.heap a, m2.heap b, hra, hrb, (sortKey_le_iff m2.heap a b).mp hle⟩

/-- C1: for every collection of non-nil relations, SortByIDVersion returns and the
collection is then in ascending (ID, Version) order: for all indices i < j of the result,
Less(j, i) is false, that is, the i-th ID is smaller, or the IDs are equal and the i-th
Version is not greater. -/
theorem SortByIDVersion_ascending (m : Mem) (hnn : NonNil m.rs) :
    ∃ m2, Relations.SortByIDVersion m = .ok m2 ∧
      ∀ i j : Int, 0 ≤ i → i < j → j < m2.rs.length →
        relationsSort.Less m2 j i = .ok false ∧
        ∃ x y, m2.rel i = .ok x ∧ m2.rel j = .ok y
          ∧ (x.ID < y.ID ∨ (x.ID = y.ID ∧ x.Version ≤ y.Version)) := by
  obtain ⟨m2, hrun, hheap, hnn2, hperm, hso⟩ := sort_result m hnn
  refine ⟨m2, hrun, ?_⟩
  intro i j hi hij hj
  have hlen := hperm.length_eq
  obtain ⟨a, ha, hra⟩ := rel_eq m2 hnn2 i hi (by omega)
  obtain ⟨b, hb, hrb⟩ := rel_eq m2 hnn2 j (by omega) hj
  have hle := hso i j hi (by omega) (by omega)
  rw [ha, hb, ← hheap] at hle
  have hle2 := (sortKey_le_iff m2.heap a b).mp hle
  refine ⟨?_, m2.heap a, m2.heap b, hra, hrb, hle2⟩
  rw [Less_eq_of_rel m2 j i _ _ hrb hra]
  have : ¬ (toLex ((m2.heap b).ID, (m2.heap b).Version)
      < toLex ((m2.heap a).ID, (m2.heap a).Version)) := not_lt.mpr hle
  rw [decide_eq_false this]

theorem SortByIDVersion_ascending_witness :
    NonNil scenario.rs ∧
    ∃ m2, Relations.SortByIDVersion scenario = .ok m2 ∧
      ∀ i j : Int, 0 ≤ i → i < j → j < m2.rs.length →
        relationsSort.Less m2 j i = .ok false ∧
        ∃ x y, m2.rel i = .ok x ∧ m2.rel j = .ok y
          ∧ (x.ID < y.ID ∨ (x.ID = y.ID ∧ x.Version ≤ y.Version)) :=
  ⟨by decide, SortByIDVersion_ascending scenario (by decide)⟩

/-- C2: for every collection of non-nil relations, SortByIDVersion only reorders it: the
result has the same length and is a permutation of the input pointers, the memory is the
same, and so every Relation keeps the value of each of its fields. -/
theorem SortByIDVersion_reorders (m : Mem) (hnn : NonNil m.rs) :
    ∃ m2, Relations.SortByIDVersion m = .ok m2 ∧ m2.rs.length = m.rs.length
      ∧ m2.rs.Perm m.rs ∧ m2.heap = m.heap
      ∧ ∀ a : Nat, (m2.heap a).ID = (m.heap a).ID ∧ (m2.heap a).User = (m.heap a).User
          ∧ (m2.heap a).UserID = (m.heap a).UserID
          ∧ (m2.heap a).Visible = (m.heap a).Visible
          ∧ (m2.heap a).Version = (m.heap a).Version
          ∧ (m2.heap a).ChangesetID = (m.heap a).ChangesetID
          ∧ (m2.heap a).Timestamp = (m.heap a).Timestamp
          ∧ (m2.heap a).Tags = (m.heap a).Tags
          ∧ (m2.heap a).Members = (m.heap a).Members := by
  obtain ⟨m2, hrun, hheap, -, hperm, -⟩ := sort_result m hnn
  refine ⟨m2, hrun, hperm.length_eq, hperm, hheap, ?_⟩
  intro a
  rw [hheap]
  exact ⟨rfl, rfl, rfl, rfl, rfl, rfl, rfl, rfl, rfl⟩

theorem SortByIDVersion_reorders_witness :
    NonNil scenario.rs ∧
    ∃ m2, Relations.SortByIDVersion scenario = .ok m2 ∧ m2.rs.length = scenario.rs.length
      ∧ m2.rs.Perm scenario.rs ∧ m2.heap = scenario.heap
      ∧ ∀ a : Nat, (m2.heap a).ID = (scenario.heap a).ID
          ∧ (m2.heap a).User = (scenario.heap a).User
          ∧ (m2.heap a).UserID = (scenario.heap a).UserID
          ∧ (m2.heap a).Visible = (scenario.heap a).Visible
          ∧ (m2.heap a).Version = (scenario.heap a).Version
          ∧ (m2.heap a).ChangesetID = (scenario.heap a).ChangesetID
          ∧ (m2.heap a).Timestamp = (scenario.heap a).Timestamp
          ∧ (m2.heap a).Tags = (scenario.heap a).Tags
          ∧ (m2.heap a).Members = (scenario.heap a).Members :=
  ⟨by decide, SortByIDVersion_reorders scenario (by decide)⟩

/-- C3: for relations a and b at the indices i and j of a collection, Less(i, j) returns,
and it is true exactly when (a.ID, a.Version) is strictly below (b.ID, b.Version) in the
lexicographic order of pairs of integers: a.ID < b.ID, or a.ID = b.ID and
a.Version < b.Version. -/
theorem Less_iff_lex (m : Mem) (i j : Int) (a b : Relation) (ha : m.rel i = .ok a)
    (hb : m.rel j = .ok b) :
    ∃ r, relationsSort.Less m i j = .ok r
      ∧ (r = true ↔ (a.ID < b.ID ∨ (a.ID = b.ID ∧ a.Version < b.Version)))
      ∧ (r = true ↔ toLex (a.ID, a.Version) < toLex (b.ID, b.Version)) := by
  refine ⟨_, Less_eq_of_rel m i j a b ha hb, ?_, ?_⟩
  · rw [decide_eq_true_iff]
    exact Prod.Lex.lt_iff _ _
  · rw [decide_eq_true_iff]

theorem Less_iff_lex_witness :
    scenario.rel 1 = .ok (sample 1 2 "b") ∧ scenario.rel 0 = .ok (sample 2 1 "a") ∧
    ∃ r, relationsSort.Less scenario 1 0 = .ok r
      ∧ (r = true ↔ ((sample 1 2 "b").ID < (sample 2 1 "a").ID
          ∨ ((sample 1 2 "b").ID = (sample 2 1 "a").ID
            ∧ (sample 1 2 "b").Version < (sample 2 1 "a").Version)))
      ∧ (r = true ↔ toLex ((sample 1 2 "b").ID, (sample 1 2 "b").Version)
          < toLex ((sample 2 1 "a").ID, (sample 2 1 "a").Version)) :=
  ⟨rfl, rfl, Less_iff_lex scenario 1 0 _ _ rfl rfl⟩

/-- C4: for relations a and b at the indices i and j of a collection, Less(i, j) and
Less(j, i) both return, and exactly one of three cases holds: Less(i, j) is true; a and b
have equal (ID, Version); Less(j, i) is true. The two are never both true, and both are
false only when a.ID = b.ID and a.Version = b.Version. -/
theorem Less_trichotomy (m : Mem) (i j : Int) (a b : Relation) (ha : m.rel i = .ok a)
    (hb : m.rel j = .ok b) :
    ∃ r1 r2, relationsSort.Less m i j = .ok r1 ∧ relationsSort.Less m j i = .ok r2
      ∧ ((r1 = true ∧ ¬ (a.ID = b.ID ∧ a.Version = b.Version) ∧ r2 = false)
        ∨ (r1 = false ∧ (a.ID = b.ID ∧ a.Version = b.Version) ∧ r2 = false)
        ∨ (r1 = false ∧ ¬ (a.ID = b.ID ∧ a.Version = b.Version) ∧ r2 = true))
      ∧ ¬ (r1 = true ∧ r2 = true)
      ∧ (r1 = false → r2 = false → a.ID = b.ID ∧ a.Version = b.Version) := by
  refine ⟨_, _, Less_eq_of_rel m i j a b ha hb, Less_eq_of_rel m j i b a hb ha, ?_⟩
  simp only [decide_eq_true_iff, decide_eq_false_iff_not, lex_lt_iff]
  exact lex_trichotomy a.ID b.ID a.Version b.Version

theorem Less_trichotomy_witness :
    scenario.rel 1 = .ok (sample 1 2 "b") ∧ scenario.rel 2 = .ok (sample 1 1 "c") ∧
    ∃ r1 r2, relationsSort.Less scenario 1 2 = .ok r1 ∧ relationsSort.Less scenario 2 1 = .ok r2
      ∧ ((r1 = true ∧ ¬ ((sample 1 2 "b").ID = (sample 1 1 "c").ID
            ∧ (sample 1 2 "b").Version = (sample 1 1 "c").Version) ∧ r2 = false)
        ∨ (r1 = false ∧ ((sample 1 2 "b").ID = (sample 1 1 "c").ID
            ∧ (sample 1 2 "b").Version = (sample 1 1 "c").Version) ∧ r2 = false)
        ∨ (r1 = false ∧ ¬ ((sample 1 2 "b").ID = (sample 1 1 "c").ID
            ∧ (sample 1 2 "b").Version = (sample 1 1 "c").Version) ∧ r2 = true))
      ∧ ¬ (r1 = true ∧ r2 = true)
      ∧ (r1 = false → r2 = false → (sample 1 2 "b").ID = (sample 1 1 "c").ID
            ∧ (sample 1 2 "b").Version = (sample 1 1 "c").Version) :=
  ⟨rfl, rfl, Less_trichotomy scenario 1 2 _ _ rfl rfl⟩

theorem index_ok (rs : Relations) (i : Int) (p : Ptr) (h : index rs i = .ok p) :
    0 ≤ i ∧ i < rs.length ∧ getI rs i = p := by
  unfold index at h
  by_cases hr : 0 ≤ i ∧ i < rs.length
  · rw [if_pos hr] at h
    exact ⟨hr.1, hr.2, Except.ok.inj h⟩
  · rw [if_neg hr] at h
    exact absurd h (by simp)

theorem rel_ok (m : Mem) (i : Int) (x : Relation) (h : m.rel i = .ok x) :
    ∃ a, 0 ≤ i ∧ i < m.rs.length ∧ getI m.rs i = some a ∧ m.heap a = x := by
  unfold Mem.rel at h
  cases hi : index m.rs i with
  | error e => rw [hi] at h; exact absurd h (by simp [bind, Except.bind])
  | ok p =>
    obtain ⟨h0, h1, h2⟩ := index_ok m.rs i p hi
    rw [hi, ok_bind] at h
    cases p with
    | none => exact absurd h (by simp [deref])
    | some a => exact ⟨a, h0, h1, h2, Except.ok.inj h⟩

theorem mem_getI (rs : Relations) (p : Ptr) (h : p ∈ rs) :
    ∃ k : Int, 0 ≤ k ∧ k < rs.length ∧ getI rs k = p := by
  obtain ⟨n, hn, hp⟩ := List.getElem_of_mem h
  exact ⟨n, by omega, by omega, by rw [getI_eq_getElem rs n hn, hp]⟩

theorem ascending_nonNil (m : Mem) (h : Ascending m) (hlen : ¬ m.rs.length ≤ 1) :
    NonNil m.rs := by
  intro p hp
  obtain ⟨k, hk0, hk1, hkp⟩ := mem_getI m.rs p hp
  by_cases e : k = 0
  · obtain ⟨x, y, hx, hy, -⟩ := h 0 1 (le_refl _) (by omega) (by omega)
    obtain ⟨a, -, -, ha, -⟩ := rel_ok m 0 x hx
    rw [← hkp, e, ha]
    simp
  · obtain ⟨x, y, hx, hy, -⟩ := h 0 k (le_refl _) (by omega) hk1
    obtain ⟨a, -, -, ha, -⟩ := rel_ok m k y hy
    rw [← hkp, ha]
    simp

theorem ascending_sortedIn (m : Mem) (h : Ascending m) :
    SortedIn (sortKey m.heap) 0 m.rs.length m.rs := by
  intro i j hi hij hj
  by_cases e : i = j
  · rw [e]
  obtain ⟨x, y, hx, hy, hxy⟩ := h i j hi (by omega) hj
  obtain ⟨a, -, -, ha, hax⟩ := rel_ok m i x hx
  obtain ⟨b, -, -, hb, hby⟩ := rel_ok m j y hy
  rw [ha, hb, sortKey_le_iff, hax, hby]
  exact hxy

/-- C5, as amended: for every value of type Relations, SortByIDVersion either completes
normally or ends in a nil-dereference panic; it never indexes out of range in Less or
Swap. It completes normally for every collection that holds no nil pointer, of any length,
and for every collection of length at most 1 whatever it holds. -/
theorem SortByIDVersion_completes (m : Mem) :
    ((∃ m2, Relations.SortByIDVersion m = .ok m2)
      ∨ Relations.SortByIDVersion m = .error .nilDereference)
    ∧ (NonNil m.rs ∨ m.rs.length ≤ 1 → ∃ m2, Relations.SortByIDVersion m = .ok m2) := by
  refine ⟨?_, ?_⟩
  · rcases sort_outcome m with h | ⟨m2, h, -⟩
    · exact Or.inr h
    · exact Or.inl ⟨m2, h⟩
  · intro h
    rcases h with h | h
    · obtain ⟨m2, hrun, -⟩ := sort_result m h
      exact ⟨m2, hrun⟩
    · exact ⟨m, Sort_short relationsSort.Interface m
        (by show ((m.rs.length : Nat) : Int) ≤ 1; omega)⟩

theorem SortByIDVersion_completes_witness :
    ∃ m2, Relations.SortByIDVersion scenario = .ok m2 :=
  (SortByIDVersion_completes scenario).2 (Or.inl (by decide))

/-- C5, as stated, fails: on a collection of two elements of which the second is the nil
pointer, the call ends in a nil-dereference panic, raised by Less. -/
theorem SortByIDVersion_panics_on_nil :
    relationsSort.Less ⟨heapOf [sample 1 1 "a"], [some 0, none]⟩ 1 0
      = .error Panic.nilDereference
    ∧ Relations.SortByIDVersion ⟨heapOf [sample 1 1 "a"], [some 0, none]⟩
      = .error Panic.nilDereference :=
  ⟨rfl, rfl⟩

theorem sorted_position (m m2 : Mem) (hrun : Relations.SortByIDVersion m = .ok m2)
    (p q : Ptr) (hp : p ∈ m.rs) (hq : q ∈ m.rs)
    (hlt : sortKey m.heap p < sortKey m.heap q) :
    p ∈ m2.rs ∧ q ∈ m2.rs
      ∧ ∀ i j : Int, index m2.rs i = .ok p → index m2.rs j = .ok q → i < j := by
  rcases sort_outcome m with h | ⟨m3, h, hheap, hperm, hso⟩
  · rw [hrun] at h
    exact absurd h (by simp)
  rw [hrun] at h
  have e : m2 = m3 := Except.ok.inj h
  subst e
  refine ⟨hperm.mem_iff.mpr hp, hperm.mem_iff.mpr hq, ?_⟩
  intro i j hi hj
  obtain ⟨hi0, hi1, hip⟩ := index_ok m2.rs i p hi
  obtain ⟨hj0, hj1, hjq⟩ := index_ok m2.rs j q hj
  have hlen := hperm.length_eq
  by_contra hc
  have := hso j i hj0 (by omega) (by omega)
  rw [hip, hjq] at this
  exact absurd hlt (not_lt.mpr this)

theorem sortKey_lt_of_deref (h : Heap) (p q : Ptr) (a b : Relation)
    (ha : deref h p = .ok a) (hb : deref h q = .ok b)
    (hlt : a.ID < b.ID ∨ (a.ID = b.ID ∧ a.Version < b.Version)) :
    sortKey h p < sortKey h q := by
  cases p with
  | none => exact absurd ha (by simp [deref])
  | some pa =>
    cases q with
    | none => exact absurd hb (by simp [deref])
    | some qa =>
      have e1 : h pa = a := Except.ok.inj ha
      have e2 : h qa = b := Except.ok.inj hb
      rw [sortKey_lt_iff, e1, e2]
      exact hlt

/-- C6: for every collection and every two elements of it that point to relations a
and b with a.ID < b.ID, whatever the two Versions are (a.Version > b.Version included):
after a SortByIDVersion that returns, both elements are in the collection and every
occurrence of the first is at a smaller index than every occurrence of the second; and
SortByIDVersion does return on every collection of non-nil relations. -/
theorem SortByIDVersion_orders_by_ID (m : Mem) (p q : Ptr) (hp : p ∈ m.rs) (hq : q ∈ m.rs)
    (a b : Relation) (ha : deref m.heap p = .ok a) (hb : deref m.heap q = .ok b)
    (hlt : a.ID < b.ID) :
    (NonNil m.rs → ∃ m2, Relations.SortByIDVersion m = .ok m2)
    ∧ ∀ m2, Relations.SortByIDVersion m = .ok m2 →
        p ∈ m2.rs ∧ q ∈ m2.rs
        ∧ ∀ i j : Int, index m2.rs i = .ok p → index m2.rs j = .ok q → i < j := by
  refine ⟨?_, ?_⟩
  · intro hnn
    obtain ⟨m2, hrun, -⟩ := sort_result m hnn
    exact ⟨m2, hrun⟩
  · intro m2 hrun
    exact sorted_position m m2 hrun p q hp hq
      (sortKey_lt_of_deref m.heap p q a b ha hb (Or.inl hlt))

theorem SortByIDVersion_orders_by_ID_witness :
    some 1 ∈ scenario.rs ∧ some 0 ∈ scenario.rs
    ∧ deref scenario.heap (some 1) = .ok (sample 1 2 "b")
    ∧ deref scenario.heap (some 0) = .ok (sample 2 1 "a")
    ∧ (sample 1 2 "b").ID < (sample 2 1 "a").ID
    ∧ (NonNil scenario.rs → ∃ m2, Relations.SortByIDVersion scenario = .ok m2)
    ∧ ∀ m2, Relations.SortByIDVersion scenario = .ok m2 →
        some 1 ∈ m2.rs ∧ some 0 ∈ m2.rs
        ∧ ∀ i j : Int, index m2.rs i = .ok (some 1) → index m2.rs j = .ok (some 0) → i < j :=
  ⟨by decide, by decide, rfl, rfl, by decide,
    SortByIDVersion_orders_by_ID scenario (some 1) (some 0) (by decide) (by decide) _ _ rfl
      rfl (by decide)⟩

/-- C7: for every collection and every two elements of it that point to relations a
and b with a.ID = b.ID and a.Version < b.Version: after a SortByIDVersion that returns,
both elements are in the collection and every occurrence of the first is at a smaller
index than every occurrence of the second; and SortByIDVersion does return on every
collection of non-nil relations. -/
theorem SortByIDVersion_orders_by_Version (m : Mem) (p q : Ptr) (hp : p ∈ m.rs)
    (hq : q ∈ m.rs) (a b : Relation) (ha : deref m.heap p = .ok a)
    (hb : deref m.heap q = .ok b) (hid : a.ID = b.ID) (hlt : a.Version < b.Version) :
    (NonNil m.rs → ∃ m2, Relations.SortByIDVersion m = .ok m2)
    ∧ ∀ m2, Relations.SortByIDVersion m = .ok m2 →
        p ∈ m2.rs ∧ q ∈ m2.rs
        ∧ ∀ i j : Int, index m2.rs i = .ok p → index m2.rs j = .ok q → i < j := by
  refine ⟨?_, ?_⟩
  · intro hnn
    obtain ⟨m2, hrun, -⟩ := sort_result m hnn
    exact ⟨m2, hrun⟩
  · intro m2 hrun
    exact sorted_position m m2 hrun p q hp hq
      (sortKey_lt_of_deref m.heap p q a b ha hb (Or.inr ⟨hid, hlt⟩))

theorem SortByIDVersion_orders_by_Version_witness :
    some 2 ∈ scenario.rs ∧ some 1 ∈ scenario.rs
    ∧ deref scenario.heap (some 2) = .ok (sample 1 1 "c")
    ∧ deref scenario.heap (some 1) = .ok (sample 1 2 "b")
    ∧ (sample 1 1 "c").ID = (sample 1 2 "b").ID
    ∧ (sample 1 1 "c").Version < (sample 1 2 "b").Version
    ∧ (NonNil scenario.rs → ∃ m2, Relations.SortByIDVersion scenario = .ok m2)
    ∧ ∀ m2, Relations.SortByIDVersion scenario = .ok m2 →
        some 2 ∈ m2.rs ∧ some 1 ∈ m2.rs
        ∧ ∀ i j : Int, index m2.rs i = .ok (some 2) → index m2.rs j = .ok (some 1) → i < j :=
  ⟨by decide, by decide, rfl, rfl, by decide, by decide,
    SortByIDVersion_orders_by_Version scenario (some 2) (some 1) (by decide) (by decide) _ _
      rfl rfl (by decide) (by decide)⟩

/-- C8: sorting is idempotent. A collection that is in ascending (ID, Version) order is
returned by SortByIDVersion as the identical state, element for element at every index,
also when several elements share the same (ID, Version); in particular the result of a
SortByIDVersion on non-nil relations is left as it is by a second call. -/
theorem SortByIDVersion_idempotent (m : Mem) :
    (Ascending m → Relations.SortByIDVersion m = .ok m)
    ∧ (∀ m0 : Mem, NonNil m0.rs → Relations.SortByIDVersion m0 = .ok m →
        Relations.SortByIDVersion m = .ok m) := by
  have main : Ascending m → Relations.SortByIDVersion m = .ok m := by
    intro h
    by_cases hlen : m.rs.length ≤ 1
    · exact Sort_short relationsSort.Interface m
        (by show ((m.rs.length : Nat) : Int) ≤ 1; omega)
    · exact Sort_sorted (relationsSort_refines m.heap) m ⟨rfl, ascending_nonNil m h hlen⟩
        (ascending_sortedIn m h)
  refine ⟨main, ?_⟩
  intro m0 hnn hrun
  obtain ⟨m2, hrun2, -⟩ := SortByIDVersion_ascending_aux m0 hnn
  rw [hrun] at hrun2
  have e : m = m2 := Except.ok.inj hrun2
  subst e
  apply main
  obtain ⟨m3, hrun3, hasc⟩ := SortByIDVersion_ascending_aux m0 hnn
  rw [hrun] at hrun3
  have e : m = m3 := Except.ok.inj hrun3
  subst e
  exact hasc

theorem SortByIDVersion_idempotent_witness :
    Relations.SortByIDVersion withTies = .ok withTies :=
  (SortByIDVersion_idempotent withTies).1 (by
    intro i j hi hij hj
    have hj2 : j < 3 := hj
    have e : (i = 0 ∧ j = 1) ∨ (i = 0 ∧ j = 2) ∨ (i = 1 ∧ j = 2) := by omega
    rcases e with ⟨e1, e2⟩ | ⟨e1, e2⟩ | ⟨e1, e2⟩ <;> subst e1 e2
    · exact ⟨_, _, rfl, rfl, by decide⟩
    · exact ⟨_, _, rfl, rfl, by decide⟩
    · exact ⟨_, _, rfl, rfl, by decide⟩)

/-- C9: for every collection of length 0 or 1, whatever it holds, SortByIDVersion is a
no-op: it returns and the state after the call equals the state before it. -/
theorem SortByIDVersion_short (m : Mem) (h : m.rs.length ≤ 1) :
    Relations.SortByIDVersion m = .ok m :=
  Sort_short relationsSort.Interface m (by show ((m.rs.length : Nat) : Int) ≤ 1; omega)

theorem SortByIDVersion_short_witness :
    (⟨heapOf [], [none]⟩ : Mem).rs.length ≤ 1
    ∧ Relations.SortByIDVersion ⟨heapOf [], [none]⟩ = .ok ⟨heapOf [], [none]⟩ :=
  ⟨by decide, SortByIDVersion_short ⟨heapOf [], [none]⟩ (by decide)⟩

/-- C10: sorting the three-element collection with (ID, Version) = [(2,1), (1,2), (1,1)],
whatever the other fields and the addresses of the three relations, yields exactly the
order [(1,1), (1,2), (2,1)]: the three pointers reversed, the memory untouched. -/
theorem SortByIDVersion_scenario (h : Heap) (a0 a1 a2 : Nat)
    (h0 : (h a0).ID = 2 ∧ (h a0).Version = 1) (h1 : (h a1).ID = 1 ∧ (h a1).Version = 2)
    (h2 : (h a2).ID = 1 ∧ (h a2).Version = 1) :
    Relations.SortByIDVersion ⟨h, [some a0, some a1, some a2]⟩
      = .ok ⟨h, [some a2, some a1, some a0]⟩ := by
  obtain ⟨h01, h02⟩ := h0
  obtain ⟨h11, h12⟩ := h1
  obtain ⟨h21, h22⟩ := h2
  simp [Relations.SortByIDVersion, Sort_, relationsSort.Interface, relationsSort.Len, pdqsort,
    insertionSort, insertionSort.outer, insertionSort.inner, relationsSort.Less,
    relationsSort.Swap, index, deref, h01, h02, h11, h12, h21, h22, bind, Except.bind, pure,
    Except.pure]

theorem SortByIDVersion_scenario_witness :
    ((scenario.heap 0).ID = 2 ∧ (scenario.heap 0).Version = 1)
    ∧ ((scenario.heap 1).ID = 1 ∧ (scenario.heap 1).Version = 2)
    ∧ ((scenario.heap 2).ID = 1 ∧ (scenario.heap 2).Version = 1)
    ∧ Relations.SortByIDVersion ⟨scenario.heap, [some 0, some 1, some 2]⟩
      = .ok ⟨scenario.heap, [some 2, some 1, some 0]⟩ :=
  ⟨by decide, by decide, by decide,
    SortByIDVersion_scenario scenario.heap 0 1 2 (by decide) (by decide) (by decide)⟩

end Claims

end Osm


namespace Osm

/-! ## The comparator as an order, the member types, Swap -/

section MoreClaims

open sort

/-- C11: Less is a strict weak order on relations. For relations a, b, c at the indices
i, j, k of a collection: Less(i, i) is false; Less(i, j) and Less(j, k) imply Less(i, k);
and when neither Less(i, j) nor Less(j, i), and neither Less(j, k) nor Less(k, j), then
neither Less(i, k) nor Less(k, i). -/
theorem Less_strict_weak_order (m : Mem) (i j k : Int) (a b c : Relation)
    (ha : m.rel i = .ok a) (hb : m.rel j = .ok b) (hc : m.rel k = .ok c) :
    relationsSort.Less m i i = .ok false
    ∧ (relationsSort.Less m i j = .ok true → relationsSort.Less m j k = .ok true →
        relationsSort.Less m i k = .ok true)
    ∧ (relationsSort.Less m i j = .ok false → relationsSort.Less m j i = .ok false →
        relationsSort.Less m j k = .ok false → relationsSort.Less m k j = .ok false →
        relationsSort.Less m i k = .ok false ∧ relationsSort.Less m k i = .ok false) := by
  rw [Less_eq_of_rel m i i a a ha ha, Less_eq_of_rel m i j a b ha hb,
    Less_eq_of_rel m j k b c hb hc, Less_eq_of_rel m i k a c ha hc,
    Less_eq_of_rel m j i b a hb ha, Less_eq_of_rel m k j c b hc hb,
    Less_eq_of_rel m k i c a hc ha]
  simp only [Except.ok.injEq, decide_eq_true_iff, decide_eq_false_iff_not]
  refine ⟨lt_irrefl _, fun h1 h2 => lt_trans h1 h2, ?_⟩
  intro h1 h2 h3 h4
  have e1 := le_antisymm (not_lt.mp h2) (not_lt.mp h1)
  have e2 := le_antisymm (not_lt.mp h4) (not_lt.mp h3)
  rw [e1, e2]
  exact ⟨lt_irrefl _, lt_irrefl _⟩

theorem Less_strict_weak_order_witness :
    scenario.rel 2 = .ok (sample 1 1 "c") ∧ scenario.rel 1 = .ok (sample 1 2 "b")
    ∧ scenario.rel 0 = .ok (sample 2 1 "a")
    ∧ relationsSort.Less scenario 2 1 = .ok true ∧ relationsSort.Less scenario 1 0 = .ok true
    ∧ relationsSort.Less scenario 2 2 = .ok false
    ∧ relationsSort.Less scenario 2 0 = .ok true :=
  ⟨rfl, rfl, rfl, rfl, rfl,
    (Less_strict_weak_order scenario 2 1 0 _ _ _ rfl rfl rfl).1,
    (Less_strict_weak_order scenario 2 1 0 _ _ _ rfl rfl rfl).2.1 rfl rfl⟩

/-- C12: Less reads only ID and Version. For relations a, b at the indices i, j of one
collection and a2, b2 at the indices i2, j2 of another, with a.ID = a2.ID,
a.Version = a2.Version, b.ID = b2.ID and b.Version = b2.Version, the two calls of Less end
alike, whatever User, UserID, Visible, ChangesetID, Timestamp, Tags and Members are; the
common result is the lexicographic comparison of (ID, Version), so a relation with empty
Tags and Members is ordered as its (ID, Version) dictates. -/
theorem Less_reads_only_keys (m m2 : Mem) (i j i2 j2 : Int) (a b a2 b2 : Relation)
    (ha : m.rel i = .ok a) (hb : m.rel j = .ok b) (ha2 : m2.rel i2 = .ok a2)
    (hb2 : m2.rel j2 = .ok b2) (h1 : a.ID = a2.ID) (h2 : a.Version = a2.Version)
    (h3 : b.ID = b2.ID) (h4 : b.Version = b2.Version) :
    relationsSort.Less m i j = relationsSort.Less m2 i2 j2
    ∧ relationsSort.Less m i j
        = .ok (decide (a.ID < b.ID ∨ (a.ID = b.ID ∧ a.Version < b.Version))) := by
  rw [Less_eq_of_rel m i j a b ha hb, Less_eq_of_rel m2 i2 j2 a2 b2 ha2 hb2, h1, h2, h3, h4]
  refine ⟨rfl, ?_⟩
  congr 1
  exact decide_eq_decide.mpr (lex_lt_iff _ _ _ _)

theorem Less_reads_only_keys_witness :
    scenario.rel 1 = .ok (sample 1 2 "b") ∧ scenario.rel 0 = .ok (sample 2 1 "a")
    ∧ scenarioPopulated.rel 1 = .ok (populated 1 2)
    ∧ scenarioPopulated.rel 0 = .ok (populated 2 1)
    ∧ (sample 1 2 "b").Tags = [] ∧ (sample 1 2 "b").Members = []
    ∧ (populated 1 2).Tags ≠ [] ∧ (populated 1 2).Members ≠ []
    ∧ relationsSort.Less scenario 1 0 = relationsSort.Less scenarioPopulated 1 0
    ∧ relationsSort.Less scenario 1 0
        = .ok (decide ((sample 1 2 "b").ID < (sample 2 1 "a").ID
            ∨ ((sample 1 2 "b").ID = (sample 2 1 "a").ID
              ∧ (sample 1 2 "b").Version < (sample 2 1 "a").Version))) :=
  ⟨rfl, rfl, rfl, rfl, rfl, rfl, by decide, by decide,
    Less_reads_only_keys scenario scenarioPopulated 1 0 1 0 _ _ _ _ rfl rfl rfl rfl rfl rfl
      rfl rfl⟩

theorem sortedIn_pairwise {β K : Type} [Inhabited β] [LinearOrder K] (key : β → K)
    (l : List β) (h : SortedIn key 0 l.length l) :
    (l.map key).Sorted (fun x y => x ≤ y) := by
  unfold List.Sorted
  rw [List.pairwise_map, List.pairwise_iff_getElem]
  intro i j hi hj hij
  have := h (i : Int) (j : Int) (by omega) (by omega) (by omega)
  rwa [getI_eq_getElem l i hi, getI_eq_getElem l j hj] at this

theorem sorted_keys_eq (m1 m2 r1 r2 : Mem) (hheap : m1.heap = m2.heap)
    (hperm : m1.rs.Perm m2.rs)
    (hp1 : r1.rs.Perm m1.rs) (hs1 : SortedIn (sortKey m1.heap) 0 m1.rs.length r1.rs)
    (hp2 : r2.rs.Perm m2.rs) (hs2 : SortedIn (sortKey m2.heap) 0 m2.rs.length r2.rs) :
    r1.rs.map (sortKey m1.heap) = r2.rs.map (sortKey m1.heap) := by
  rw [← hheap] at hs2
  rw [← hp1.length_eq] at hs1
  rw [← hp2.length_eq] at hs2
  have hp : r1.rs.Perm r2.rs := (hp1.trans hperm).trans hp2.symm
  exact List.eq_of_perm_of_sorted (hp.map _) (sortedIn_pairwise _ _ hs1)
    (sortedIn_pairwise _ _ hs2)

theorem sortKey_some_eq (h : Heap) (a b : Nat) (e : sortKey h (some a) = sortKey h (some b)) :
    (h a).ID = (h b).ID ∧ (h a).Version = (h b).Version := by
  unfold sortKey at e
  have := toLex.injective e
  simp only [Prod.mk.injEq] at this
  exact this

/-- C13: the sorted key sequence does not depend on the arrangement of the input. For
two collections of non-nil relations in the same memory that are permutations of each
other, both calls of SortByIDVersion return, the results have the same length and at every
index hold relations of equal ID and equal Version; and when the (ID, Version) pairs at
distinct indices of the collection are distinct, the two results are equal. -/
theorem SortByIDVersion_arrangement (m1 m2 : Mem) (hheap : m1.heap = m2.heap)
    (hperm : m1.rs.Perm m2.rs) (hnn : NonNil m1.rs) :
    ∃ r1 r2, Relations.SortByIDVersion m1 = .ok r1 ∧ Relations.SortByIDVersion m2 = .ok r2
      ∧ r1.rs.length = r2.rs.length
      ∧ (∀ i : Int, 0 ≤ i → i < r1.rs.length →
          ∃ x y, r1.rel i = .ok x ∧ r2.rel i = .ok y ∧ x.ID = y.ID ∧ x.Version = y.Version)
      ∧ ((∀ i j : Int, 0 ≤ i → i < j → j < m1.rs.length → ∀ x y, m1.rel i = .ok x →
            m1.rel j = .ok y → ¬ (x.ID = y.ID ∧ x.Version = y.Version)) → r1 = r2) := by
  have hnn2 : NonNil m2.rs := fun p hp => hnn p (hperm.mem_iff.mpr hp)
  obtain ⟨r1, hrun1, hh1, hn1, hp1, hs1⟩ := sort_result m1 hnn
  obtain ⟨r2, hrun2, hh2, hn2, hp2, hs2⟩ := sort_result m2 hnn2
  have hkeys := sorted_keys_eq m1 m2 r1 r2 hheap hperm hp1 hs1 hp2 hs2
  have hlen : r1.rs.length = r2.rs.length := by
    have := congrArg List.length hkeys
    simpa using this
  have hkey : ∀ n (h1 : n < r1.rs.length) (h2 : n < r2.rs.length),
      sortKey m1.heap r1.rs[n] = sortKey m1.heap r2.rs[n] := by
    intro n h1 h2
    have := congrArg (fun l => l[n]?) hkeys
    simpa [List.getElem?_map, List.getElem?_eq_getElem h1, List.getElem?_eq_getElem h2]
      using this
  refine ⟨r1, r2, hrun1, hrun2, hlen, ?_, ?_⟩
  · intro i hi0 hi1
    obtain ⟨a, ha, hra⟩ := rel_eq r1 hn1 i hi0 hi1
    obtain ⟨b, hb, hrb⟩ := rel_eq r2 hn2 i hi0 (by omega)
    refine ⟨_, _, hra, hrb, ?_⟩
    have h1 : i.toNat < r1.rs.length := by omega
    have h2 : i.toNat < r2.rs.length := by omega
    have e := hkey i.toNat h1 h2
    have ei : ((i.toNat : Nat) : Int) = i := by omega
    rw [← getI_eq_getElem r1.rs i.toNat h1, ← getI_eq_getElem r2.rs i.toNat h2, ei, ha, hb]
      at e
    rw [hh1, hh2, ← hheap]
    exact sortKey_some_eq m1.heap a b e
  · intro hdist
    have hnodup : (m1.rs.map (sortKey m1.heap)).Nodup := by
      unfold List.Nodup
      rw [List.pairwise_map, List.pairwise_iff_getElem]
      intro i j hi hj hij e
      obtain ⟨a, ha, hra⟩ := rel_eq m1 hnn (i : Int) (by omega) (by omega)
      obtain ⟨b, hb, hrb⟩ := rel_eq m1 hnn (j : Int) (by omega) (by omega)
      rw [← getI_eq_getElem m1.rs i hi, ← getI_eq_getElem m1.rs j hj, ha, hb] at e
      exact hdist i j (by omega) (by omega) (by omega) _ _ hra hrb
        (sortKey_some_eq m1.heap a b e)
    have hinj := List.inj_on_of_nodup_map hnodup
    have hrs : r1.rs = r2.rs := by
      apply List.ext_getElem hlen
      intro n h1 h2
      have hm1 : r1.rs[n] ∈ m1.rs := hp1.mem_iff.mp (List.getElem_mem h1)
      have hm2 : r2.rs[n] ∈ m1.rs :=
        hperm.mem_iff.mpr (hp2.mem_iff.mp (List.getElem_mem h2))
      exact hinj hm1 hm2 (hkey n h1 h2)
    cases r1
    cases r2
    simp only [Mem.mk.injEq]
    exact ⟨by simpa using hh1.trans (hheap.trans hh2.symm), hrs⟩

theorem SortByIDVersion_arrangement_witness :
    scenario.heap = scenarioShuffled.heap ∧ scenario.rs.Perm scenarioShuffled.rs
    ∧ NonNil scenario.rs
    ∧ ∃ r1 r2, Relations.SortByIDVersion scenario = .ok r1
      ∧ Relations.SortByIDVersion scenarioShuffled = .ok r2
      ∧ r1.rs.length = r2.rs.length
      ∧ (∀ i : Int, 0 ≤ i → i < r1.rs.length →
          ∃ x y, r1.rel i = .ok x ∧ r2.rel i = .ok y ∧ x.ID = y.ID ∧ x.Version = y.Version)
      ∧ ((∀ i j : Int, 0 ≤ i → i < j → j < scenario.rs.length → ∀ x y,
            scenario.rel i = .ok x → scenario.rel j = .ok y →
            ¬ (x.ID = y.ID ∧ x.Version = y.Version)) → r1 = r2) :=
  ⟨rfl, by decide, by decide,
    SortByIDVersion_arrangement scenario scenarioShuffled rfl (by decide) (by decide)⟩

/-- C14, what the code declares: the three constants have the string values "node", "way"
and "relation", pairwise distinct; NodeMember is of type MemberType, while WayMember and
RelationMember, declared with a value and no type, are untyped string constants. -/
theorem member_type_constants :
    NodeMember.value = "node" ∧ WayMember.value = "way" ∧ RelationMember.value = "relation"
    ∧ NodeMember.value ≠ WayMember.value ∧ NodeMember.value ≠ RelationMember.value
    ∧ WayMember.value ≠ RelationMember.value
    ∧ NodeMember.type = ConstType.MemberType
    ∧ WayMember.type = ConstType.untypedString
    ∧ RelationMember.type = ConstType.untypedString := by
  decide

/-- C15: Member is a plain value, built with no validation and no normalisation: for every
MemberType t, integer r and string s, the Member built from them has Type t, Ref r and
Role s; so for the type "way", the empty role, and a type outside the three named ones. -/
theorem Member_fields (t : MemberType) (r : Int) (s : String) :
    ({ Type_ := t, Ref := r, Role := s } : Member).Type_ = t
    ∧ ({ Type_ := t, Ref := r, Role := s } : Member).Ref = r
    ∧ ({ Type_ := t, Ref := r, Role := s } : Member).Role = s
    ∧ ({ Type_ := WayMember.toMemberType, Ref := 42, Role := "outer" } : Member).Type_ = "way"
    ∧ ({ Type_ := WayMember.toMemberType, Ref := 42, Role := "outer" } : Member).Ref = 42
    ∧ ({ Type_ := WayMember.toMemberType, Ref := 42, Role := "outer" } : Member).Role
        = "outer"
    ∧ ({ Type_ := "area", Ref := -1, Role := "" } : Member).Type_ = "area"
    ∧ ({ Type_ := "area", Ref := -1, Role := "" } : Member).Role = "" :=
  ⟨rfl, rfl, rfl, rfl, rfl, rfl, rfl, rfl⟩

theorem list_ext_getI {β : Type} [Inhabited β] (l1 l2 : List β)
    (hlen : l1.length = l2.length)
    (h : ∀ k : Int, 0 ≤ k → k < l1.length → getI l1 k = getI l2 k) : l1 = l2 := by
  apply List.ext_getElem hlen
  intro n h1 h2
  have := h n (by omega) (by omega)
  rwa [getI_eq_getElem l1 n h1, getI_eq_getElem l2 n h2] at this

theorem swapI_swapI {β : Type} [Inhabited β] (l : List β) (i j : Int) (hi : 0 ≤ i)
    (hi2 : i < l.length) (hj : 0 ≤ j) (hj2 : j < l.length) :
    swapI (swapI l i j) i j = l := by
  have hlen := length_swapI l i j
  apply list_ext_getI
  · rw [length_swapI, length_swapI]
  · intro k hk0 hk1
    rw [getI_swapI _ i j k hi (by omega) hj (by omega) hk0,
      getI_swapI l i j i hi hi2 hj hj2 hi, getI_swapI l i j j hi hi2 hj hj2 hj,
      getI_swapI l i j k hi hi2 hj hj2 hk0]
    by_cases e1 : k = j
    · subst e1
      simp only [if_true]
      split_ifs <;> simp_all
    · by_cases e2 : k = i
      · subst e2
        simp only [if_neg e1, if_true]
      · simp only [if_neg e1, if_neg e2]

theorem Swap_eq (m : Mem) (i j : Int) (hi : 0 ≤ i) (hi2 : i < m.rs.length) (hj : 0 ≤ j)
    (hj2 : j < m.rs.length) :
    relationsSort.Swap m i j = .ok { m with rs := swapI m.rs i j } := by
  unfold relationsSort.Swap
  rw [index_eq_getI m.rs j hj hj2, index_eq_getI m.rs i hi hi2]
  rfl

theorem index_swapI (rs : Relations) (i j k : Int) (hi : 0 ≤ i) (hi2 : i < rs.length)
    (hj : 0 ≤ j) (hj2 : j < rs.length) :
    index (swapI rs i j) k
      = if k = j then index rs i else if k = i then index rs j else index rs k := by
  by_cases hk : 0 ≤ k ∧ k < rs.length
  · rw [index_eq_getI _ k hk.1 (by rw [length_swapI]; exact hk.2),
      getI_swapI rs i j k hi hi2 hj hj2 hk.1, index_eq_getI rs i hi hi2,
      index_eq_getI rs j hj hj2, index_eq_getI rs k hk.1 hk.2]
    split_ifs <;> rfl
  · have e1 : k ≠ j := by omega
    have e2 : k ≠ i := by omega
    rw [if_neg e1, if_neg e2]
    unfold index
    rw [length_swapI, if_neg hk, if_neg hk]

/-- C16: for every collection and all in-range indices i and j, Swap(i, j) returns and
exchanges the elements at the positions i and j, leaves every other position, the length
(Len) and the memory unchanged; Swap(i, i) is the identity; and a second Swap(i, j)
restores the original collection. -/
theorem Swap_exchanges (m : Mem) (i j : Int) (hi : 0 ≤ i) (hi2 : i < m.rs.length)
    (hj : 0 ≤ j) (hj2 : j < m.rs.length) :
    ∃ m2, relationsSort.Swap m i j = .ok m2
      ∧ index m2.rs i = index m.rs j ∧ index m2.rs j = index m.rs i
      ∧ (∀ k : Int, k ≠ i → k ≠ j → index m2.rs k = index m.rs k)
      ∧ relationsSort.Len m2 = relationsSort.Len m ∧ m2.heap = m.heap
      ∧ relationsSort.Swap m i i = .ok m
      ∧ relationsSort.Swap m2 i j = .ok m := by
  refine ⟨{ m with rs := swapI m.rs i j }, Swap_eq m i j hi hi2 hj hj2, ?_, ?_, ?_, ?_, rfl,
    ?_, ?_⟩
  · show index (swapI m.rs i j) i = _
    rw [index_swapI m.rs i j i hi hi2 hj hj2]
    by_cases e : i = j
    · rw [if_pos e, e]
    · rw [if_neg e, if_pos rfl]
  · show index (swapI m.rs i j) j = _
    rw [index_swapI m.rs i j j hi hi2 hj hj2, if_pos rfl]
  · intro k hk1 hk2
    show index (swapI m.rs i j) k = _
    rw [index_swapI m.rs i j k hi hi2 hj hj2, if_neg hk2, if_neg hk1]
  · show (((swapI m.rs i j).length : Nat) : Int) = ((m.rs.length : Nat) : Int)
    rw [length_swapI]
  · rw [Swap_eq m i i hi hi2 hi hi2, swapI_self m.rs i hi hi2]
  · rw [Swap_eq _ i j hi (by show i < ((swapI m.rs i j).length : Nat); rw [length_swapI]; exact hi2)
      hj (by show j < ((swapI m.rs i j).length : Nat); rw [length_swapI]; exact hj2)]
    show Except.ok { heap := m.heap, rs := swapI (swapI m.rs i j) i j } = Except.ok m
    rw [swapI_swapI m.rs i j hi hi2 hj hj2]

theorem Swap_exchanges_witness :
    (0 : Int) ≤ 0 ∧ (0 : Int) < scenario.rs.length ∧ (0 : Int) ≤ 2
    ∧ (2 : Int) < scenario.rs.length
    ∧ ∃ m2, relationsSort.Swap scenario 0 2 = .ok m2
      ∧ index m2.rs 0 = index scenario.rs 2 ∧ index m2.rs 2 = index scenario.rs 0
      ∧ (∀ k : Int, k ≠ 0 → k ≠ 2 → index m2.rs k = index scenario.rs k)
      ∧ relationsSort.Len m2 = relationsSort.Len scenario ∧ m2.heap = scenario.heap
      ∧ relationsSort.Swap scenario 0 0 = .ok scenario
      ∧ relationsSort.Swap m2 0 2 = .ok scenario :=
  ⟨by decide, by decide, by decide, by decide,
    Swap_exchanges scenario 0 2 (by decide) (by decide) (by decide) (by decide)⟩

end MoreClaims

end Osm
